import Mathlib

/-!
Logarithm mapping for base-2 exponential histograms

A shallow embedding of `logarithm.go` (package `histogram`) and a verification of its
specification.

Model of `float64`

The program is written over IEEE-754 binary64.  A value of `F64` is a NaN, a signed infinity,
or a finite value given by the rational number it denotes (the sign of zero is not
represented: no operation of the program observes it).  The operations whose result IEEE-754
fixes bit for bit are defined exactly, on rationals, with round-to-nearest-even:

* `F64.mul`     the product `x * y` of two `float64`,
* `F64.floor`   `math.Floor`,
* `ofInt64`     the conversion `float64(i)` of an `int64`,
* `toInt64`     the conversion `int64(x)`, whose result Go leaves to the implementation when
                `x` does not fit,
* `Scalb`       scaling by a power of two.

`math.Log` and `math.Exp2` belong to the Go runtime; their last-bit behaviour differs between
ports of the runtime.  They are therefore taken as parameters, bundled in `Platform`, and every
theorem says which properties of them it uses: none at all, their values at a few arguments,
their monotonicity, or their accuracy (`LogWithin`, `BoundaryWithin`) measured against the real
functions `Real.log` and `2 ^ x`.

Results

The specification is stated over the real numbers; the program computes in `float64`.  The
claims that survive as stated (monotonicity, the upper boundary, scale doubling, the concrete
scenarios) are proved for the program.  The others (the index as a real floor, the tiling
named by `MapToIndex`, the strict order of the boundaries, the round trip, which fails at a
boundary between two subnormal values, the scale factor as `log2(e) * 2 ^ s`) are refuted at a
concrete input and proved in the form that holds for `float64`.

The algebraic laws of the mapping (the boundary as a power of the base, rounding toward
negative infinity, the ratio of the boundaries, halving of the index from one scale to the
next, octaves, the bucket of index zero, the scales of zero and below) are exact over the real
numbers only.  Each is refuted at a concrete input: where an irrational value is claimed of a
`float64`, where a product underflows or leaves `int64`, or at a value of `math.Log` that Go
returns.  Each is then proved in the form the program satisfies: the arguments handed to
`math.Exp2` are exact, the index is the floor of a `float64` product, the index at scale `s` is
exactly half the index at scale `s + 1` rounded down, and the real laws hold up to the
accuracy of the runtime.
-/

namespace Histogram

/-! ## float64 -/

/-- A `float64`: NaN, `±Inf` (`neg = true` for `-Inf`) or a finite value. -/
inductive F64 where
  | nan : F64
  | inf (neg : Bool) : F64
  | fin (q : ℚ) : F64
  deriving DecidableEq

/-- Exponent of the binade of a non-zero rational: `⌊log₂ |q|⌋`. -/
def ilog2 (q : ℚ) : Int := Int.log 2 |q|

/-- Rounding of a rational to the nearest integer, ties to the even one. -/
def roundHalfEven (x : ℚ) : Int :=
  if x - ⌊x⌋ < 1 / 2 then ⌊x⌋
  else if 1 / 2 < x - ⌊x⌋ then ⌊x⌋ + 1
  else if ⌊x⌋ % 2 = 0 then ⌊x⌋ else ⌊x⌋ + 1

/-- Spacing of the `float64` grid around `q`: `2 ^ (e - 52)` where `e` is the binade of `q`,
and the spacing of the subnormal numbers, `2 ^ (-1074)`, below `2 ^ (-1022)`. -/
def ulp (q : ℚ) : ℚ := 2 ^ (max (ilog2 q) (-1022) - 52)

/-- The finite grid point nearest to `q` (ties to even), before the overflow test. -/
def roundQ (q : ℚ) : ℚ := roundHalfEven (q / ulp q) * ulp q

/-- IEEE-754 rounding of an exact result to `float64`, round-to-nearest-even: a result whose
rounded magnitude reaches `2 ^ 1024` becomes an infinity. -/
def round64 (q : ℚ) : F64 :=
  if (2 : ℚ) ^ (1024 : ℤ) ≤ |roundQ q| then .inf (decide (q < 0)) else .fin (roundQ q)

namespace F64

/-- The product of two `float64`, as computed by `x * y`. -/
def mul : F64 → F64 → F64
  | nan, _ => nan
  | _, nan => nan
  | inf a, inf b => inf (xor a b)
  | inf a, fin q => if q = 0 then nan else inf (xor a (decide (q < 0)))
  | fin q, inf b => if q = 0 then nan else inf (xor (decide (q < 0)) b)
  | fin a, fin b => round64 (a * b)

/-- The function `math.Floor`: the greatest integer value not above `x`; NaN and the
infinities are returned unchanged. -/
def floor : F64 → F64
  | fin q => fin (⌊q⌋ : Int)
  | x => x

/-- The comparison `x < y` of two `float64` (false when either is NaN). -/
def blt : F64 → F64 → Bool
  | fin a, fin b => decide (a < b)
  | fin _, inf n => !n
  | inf n, fin _ => n
  | inf a, inf b => a && !b
  | _, _ => false

/-- The comparison `x <= y` of two `float64` (false when either is NaN). -/
def ble : F64 → F64 → Bool
  | fin a, fin b => decide (a ≤ b)
  | fin _, inf n => !n
  | inf n, fin _ => n
  | inf a, inf b => a || !b
  | _, _ => false

instance : LT F64 := ⟨fun x y => blt x y = true⟩
instance : LE F64 := ⟨fun x y => ble x y = true⟩

instance (x y : F64) : Decidable (x < y) := inferInstanceAs (Decidable (blt x y = true))
instance (x y : F64) : Decidable (x ≤ y) := inferInstanceAs (Decidable (ble x y = true))

end F64

/-! ## int64 -/

/-- Reduction of an integer to the range of `int64` (two's complement wrap-around). -/
def wrapInt64 (z : Int) : Int := (z + 2 ^ 63) % 2 ^ 64 - 2 ^ 63

/-- The range of `int64`. -/
def IsInt64 (z : Int) : Prop := -2 ^ 63 ≤ z ∧ z < 2 ^ 63

instance (z : Int) : Decidable (IsInt64 z) := inferInstanceAs (Decidable (_ ∧ _))

/-- The conversion `float64(i)` of an `int64`: the nearest `float64`. -/
def ofInt64 (i : Int) : F64 := round64 i

/-! ## What the Go runtime provides -/

/-- The parts of the Go runtime the program calls and Go does not fix bit for bit. -/
structure Platform where
  /-- The function `math.Log`. -/
  Log : F64 → F64
  /-- The function `math.Exp2`. -/
  Exp2 : F64 → F64
  /-- The result of `int64(x)` when `x` is NaN, infinite or outside the range of `int64`
  ("the conversion succeeds but the result value is implementation-dependent"). -/
  convOverflow : F64 → Int

/-- The conversion `int64(x)`: truncation toward zero when the result fits. -/
def toInt64 (P : Platform) : F64 → Int
  | .fin q =>
    let t : Int := if 0 ≤ q then ⌊q⌋ else ⌈q⌉
    if -2 ^ 63 ≤ t ∧ t < 2 ^ 63 then t else wrapInt64 (P.convOverflow (.fin q))
  | x => wrapInt64 (P.convOverflow x)

/-! ## The program -/

/-- The value of `math.Log2E` (`1 / Ln2`) once converted to `float64`: `0x3FF71547652B82FE`,
that is `6497320848556798 * 2 ^ (-52)`. -/
def log2e : ℚ := 3248660424278399 / 2251799813685248

/-- The constant `math.Log2E` as the `float64` argument of `Scalb`. -/
def Log2E : F64 := .fin log2e

/-- Modelled from the spec: `Scalb(x, n)` is declared in a file of the repository that is not
part of the sources at hand.  The specification: it "computes `x * 2^n`" by "direct exponent
manipulation rather than naive multiplication", and results out of range "saturate to
`0`/`Inf` rather than wrapping".  The model: the exact value `x * 2 ^ n` delivered as a
`float64`, so an infinity beyond the largest finite value and zero below the smallest; NaN and
the infinities are returned unchanged. -/
def Scalb : F64 → Int → F64
  | .fin q, n => round64 (q * 2 ^ n)
  | x, _ => x

/-- The struct `LogarithmMapping`: the scale (a 64-bit `int`) and the factor derived from
it. -/
structure LogarithmMapping where
  scale : Int
  scaleFactor : F64
  deriving DecidableEq

/-- The constructor `NewLogarithmMapping`. -/
def NewLogarithmMapping (scale : Int) : LogarithmMapping :=
  { scale := scale, scaleFactor := Scalb Log2E scale }

/-- The method `MapToIndex`: `int64(math.Floor(math.Log(value) * l.scaleFactor))`. -/
def MapToIndex (P : Platform) (l : LogarithmMapping) (value : F64) : Int :=
  toInt64 P (F64.floor (F64.mul (P.Log value) l.scaleFactor))

/-- The method `LowerBoundary`: `math.Exp2(Scalb(float64(index), -l.scale))`, the negation
taken in the 64-bit `int`. -/
def LowerBoundary (P : Platform) (l : LogarithmMapping) (index : Int) : F64 :=
  P.Exp2 (Scalb (ofInt64 index) (wrapInt64 (-l.scale)))

/-- The method `UpperBoundary`: `l.LowerBoundary(index + 1)`, the sum taken in `int64`. -/
def UpperBoundary (P : Platform) (l : LogarithmMapping) (index : Int) : F64 :=
  LowerBoundary P l (wrapInt64 (index + 1))

/-! ## Auxiliary definitions: the grid, the finite values, assumptions on the runtime -/

/-- Exponent of the `float64` grid around `q`: the binade of `q`, and `-1022` below. -/
def gridExp (q : ℚ) : Int := max (ilog2 q) (-1022)

/-- The `float64` nearest to `ln 2`, `0x3FE62E42FEFA39EF`: the value of `math.Log(2)`. -/
def ln2f : ℚ := 6243314768165359 / 9007199254740992

/-- The `float64` nearest to `ln 1.5`, `0x3FD9F323ECBF984C`: the value of `math.Log(1.5)`. -/
def ln1p5f : ℚ := 1826052509787667 / 4503599627370496

/-- A small concrete runtime, used to instantiate the theorems.  `Log` is a step function
through the values of `math.Log` at `0.5`, `1`, `1.5` and `2`; `Exp2` is `2 ^ ⌊x⌋` delivered as
a `float64`, exact at every integer; a conversion out of range yields the least `int64`, as
on amd64. -/
def tablePlatform : Platform where
  Log := fun x =>
    match x with
    | .fin q =>
      if q < 0 then .nan else if q = 0 then .inf true
      else if q < 1 then .fin (-ln2f) else if q < 3 / 2 then .fin 0
      else if q < 2 then .fin ln1p5f else .fin ln2f
    | .inf false => .inf false
    | _ => .nan
  Exp2 := fun x =>
    match x with
    | .fin q => round64 (2 ^ ⌊q⌋)
    | .inf true => .fin 0
    | y => y
  convOverflow := fun _ => -2 ^ 63

/-- The `float64` nearest to `ln 8`, `0x4000A2B23F3BAB73`: the value of `math.Log(8)`. -/
def ln8f : ℚ := 4682486076124019 / 2251799813685248

/-- On the runtime `P`, `math.Log(v)` is a finite value between `lo` and `hi`. -/
def LogBetween (P : Platform) (v lo hi : ℚ) : Prop :=
  ∃ x : ℚ, P.Log (.fin v) = .fin x ∧ lo ≤ x ∧ x ≤ hi

/-- The function `math.Exp2` never decreases. -/
def Exp2Monotone (P : Platform) : Prop := ∀ x y : F64, x ≤ y → P.Exp2 x ≤ P.Exp2 y

/-- The function `math.Exp2` overflows to `+Inf` from `1024` on and underflows to zero from
`-1075` down. -/
def Exp2Saturates (P : Platform) : Prop :=
  (∀ x : F64, .fin 1024 ≤ x → P.Exp2 x = .inf false) ∧
    (∀ x : F64, x ≤ .fin (-1075) → P.Exp2 x = .fin 0)

/-- The finite values of `float64`: the rationals that rounding leaves unchanged and that lie
below the overflow threshold. -/
def IsF64 (q : ℚ) : Prop := roundQ q = q ∧ |q| < (2 : ℚ) ^ (1024 : ℤ)

/-- On the positive finite `float64`, `math.Log` returns finite values of magnitude at most
1024 and never decreases. -/
def LogMonotone (P : Platform) : Prop :=
  ∀ v w : ℚ, IsF64 v → IsF64 w → 0 < v → v ≤ w →
    ∃ x y : ℚ, P.Log (.fin v) = .fin x ∧ P.Log (.fin w) = .fin y ∧ x ≤ y ∧
      |x| ≤ 1024 ∧ |y| ≤ 1024

/-- On the runtime `P`, at scale `s`, `LowerBoundary(i)` is the finite `float64` `y`, within a
relative error of `2 ^ (-52)` (one unit in the last place) of the boundary `2 ^ (i / 2 ^ s)`. -/
def BoundaryWithin (P : Platform) (s i : Int) (y : ℚ) : Prop :=
  LowerBoundary P (NewLogarithmMapping s) i = .fin y ∧ IsF64 y ∧
    |(y : ℝ) - (2 : ℝ) ^ ((i : ℝ) / 2 ^ s)| ≤ 2 ^ (-52 : ℤ) * (2 : ℝ) ^ ((i : ℝ) / 2 ^ s)

/-- On the runtime `P`, `math.Log(y)` is the finite value `z`, within a relative error of
`2 ^ (-52)` (one unit in the last place) of `ln y`. -/
def LogWithin (P : Platform) (y z : ℚ) : Prop :=
  P.Log (.fin y) = .fin z ∧ |(z : ℝ) - Real.log (y : ℝ)| ≤ 2 ^ (-52 : ℤ) * |Real.log (y : ℝ)|

/-- On the runtime `P`, `math.Exp2(x)` is the finite value `y`, within a relative error of
`2 ^ (-52)` (one unit in the last place) of `2 ^ x`. -/
def Exp2Within (P : Platform) (x y : ℚ) : Prop :=
  P.Exp2 (.fin x) = .fin y ∧ |(y : ℝ) - (2 : ℝ) ^ (x : ℝ)| ≤ 2 ^ (-52 : ℤ) * (2 : ℝ) ^ (x : ℝ)

/-- On the runtime `P`, `math.Log(v)` is the finite value `z`, which is zero or of magnitude
from `2 ^ (-60)` to 1024; an accurate logarithm of a positive finite `float64` is of this
kind. -/
def LogSized (P : Platform) (v z : ℚ) : Prop :=
  P.Log (.fin v) = .fin z ∧ (z = 0 ∨ (2 : ℚ) ^ (-60 : ℤ) ≤ |z|) ∧ |z| ≤ 1024

/-! # Theorems -/

/-! ## Rounding to the nearest integer -/

theorem roundHalfEven_cases (x : ℚ) : roundHalfEven x = ⌊x⌋ ∨ roundHalfEven x = ⌊x⌋ + 1 := by
  unfold roundHalfEven
  split_ifs <;> simp

theorem roundHalfEven_intCast (n : Int) : roundHalfEven (n : ℚ) = n := by
  unfold roundHalfEven
  simp

theorem roundHalfEven_mono {x y : ℚ} (h : x ≤ y) : roundHalfEven x ≤ roundHalfEven y := by
  have hfl : ⌊x⌋ ≤ ⌊y⌋ := Int.floor_mono h
  rcases lt_or_eq_of_le hfl with hlt | heq
  · rcases roundHalfEven_cases x with hx | hx <;> rcases roundHalfEven_cases y with hy | hy <;>
      omega
  · unfold roundHalfEven
    rw [← heq]
    have hd : x - ⌊x⌋ ≤ y - ⌊x⌋ := by linarith
    split_ifs <;> first | omega | (exfalso; linarith)

theorem roundHalfEven_neg (x : ℚ) : roundHalfEven (-x) = -roundHalfEven x := by
  by_cases hx : (⌊x⌋ : ℚ) = x
  · rw [← hx, ← Int.cast_neg, roundHalfEven_intCast, roundHalfEven_intCast]
  · have hlt : (⌊x⌋ : ℚ) < x := lt_of_le_of_ne (Int.floor_le x) hx
    have hfl : ⌊-x⌋ = -⌊x⌋ - 1 := by
      rw [Int.floor_eq_iff]
      push_cast
      constructor
      · have := Int.lt_floor_add_one x
        linarith
      · linarith
    unfold roundHalfEven
    rw [hfl]
    push_cast
    split_ifs <;> first | omega | (exfalso; linarith)

theorem abs_sub_roundHalfEven_le (x : ℚ) : |x - roundHalfEven x| ≤ 1 / 2 := by
  have h1 := Int.floor_le x
  have h2 := Int.lt_floor_add_one x
  unfold roundHalfEven
  rw [abs_le]
  split_ifs <;> push_cast <;> constructor <;> linarith

theorem roundHalfEven_eq_of_abs_lt {x : ℚ} {n : Int} (h : |x - n| < 1 / 2) :
    roundHalfEven x = n := by
  have h0 := abs_sub_roundHalfEven_le x
  rw [abs_lt] at h
  rw [abs_le] at h0
  have h3 : ((roundHalfEven x - n : Int) : ℚ) < 1 := by push_cast; linarith
  have h4 : (-1 : ℚ) < ((roundHalfEven x - n : Int) : ℚ) := by push_cast; linarith
  have h5 : roundHalfEven x - n < 1 := by exact_mod_cast h3
  have h6 : -1 < roundHalfEven x - n := by exact_mod_cast h4
  omega

/-! ## The float64 grid -/

theorem ulp_eq (q : ℚ) : ulp q = 2 ^ (gridExp q - 52) := rfl

theorem ulp_pos (q : ℚ) : 0 < ulp q := by
  unfold ulp; positivity

theorem ilog2_neg (q : ℚ) : ilog2 (-q) = ilog2 q := by
  unfold ilog2; rw [abs_neg]

theorem gridExp_neg (q : ℚ) : gridExp (-q) = gridExp q := by
  unfold gridExp; rw [ilog2_neg]

theorem ulp_neg (q : ℚ) : ulp (-q) = ulp q := by
  unfold ulp; rw [ilog2_neg]

theorem roundQ_neg (q : ℚ) : roundQ (-q) = -roundQ q := by
  unfold roundQ
  rw [ulp_neg, neg_div, roundHalfEven_neg]
  push_cast
  ring

theorem zpow_ilog2_le {q : ℚ} (hq : q ≠ 0) : (2 : ℚ) ^ ilog2 q ≤ |q| := by
  have := Int.zpow_log_le_self (b := 2) (r := |q|) (by norm_num) (abs_pos.mpr hq)
  simpa [ilog2] using this

theorem lt_zpow_ilog2_succ (q : ℚ) : |q| < (2 : ℚ) ^ (ilog2 q + 1) := by
  have := Int.lt_zpow_succ_log_self (b := 2) (by norm_num) |q|
  simpa [ilog2] using this

theorem ilog2_eq {q : ℚ} {e : Int} (h1 : (2 : ℚ) ^ e ≤ |q|) (h2 : |q| < (2 : ℚ) ^ (e + 1)) :
    ilog2 q = e := by
  have hpos : 0 < |q| := lt_of_lt_of_le (by positivity) h1
  have ha : e ≤ ilog2 q := by
    have := (Int.zpow_le_iff_le_log (b := 2) (by norm_num) hpos (x := e)).mp (by simpa using h1)
    simpa [ilog2] using this
  have hb : ilog2 q < e + 1 := by
    have := (Int.lt_zpow_iff_log_lt (b := 2) (by norm_num) hpos (x := e + 1)).mp
      (by simpa using h2)
    simpa [ilog2] using this
  omega

theorem ilog2_mono {a b : ℚ} (ha : 0 < a) (h : a ≤ b) : ilog2 a ≤ ilog2 b := by
  unfold ilog2
  rw [abs_of_pos ha, abs_of_pos (lt_of_lt_of_le ha h)]
  exact Int.log_mono_right ha h

theorem gridExp_mono {a b : ℚ} (ha : 0 < a) (h : a ≤ b) : gridExp a ≤ gridExp b := by
  unfold gridExp
  exact max_le_max (ilog2_mono ha h) le_rfl

theorem abs_lt_zpow_gridExp_succ (q : ℚ) : |q| < (2 : ℚ) ^ (gridExp q + 1) := by
  refine lt_of_lt_of_le (lt_zpow_ilog2_succ q) ?_
  apply zpow_le_zpow_right₀ (by norm_num)
  unfold gridExp
  have := le_max_left (ilog2 q) (-1022)
  omega

/-- A grid point `n * 2 ^ j` of a grid at least as coarse as the one around `q` is a multiple
of the spacing around `q`. -/
theorem grid_div_ulp (q : ℚ) (n j : Int) (hj : gridExp q - 52 ≤ j) :
    (n : ℚ) * 2 ^ j / ulp q = ((n * 2 ^ (j - (gridExp q - 52)).toNat : Int) : ℚ) := by
  rw [ulp_eq]
  have h2 : (2 : ℚ) ≠ 0 := by norm_num
  have hj2 : j = (gridExp q - 52) + ((j - (gridExp q - 52)).toNat : Int) := by
    have := Int.toNat_of_nonneg (sub_nonneg.mpr hj)
    omega
  have hpos : (0 : ℚ) < 2 ^ (gridExp q - 52) := by positivity
  conv_lhs => rw [hj2, zpow_add₀ h2, zpow_natCast]
  push_cast
  field_simp
  ring

theorem le_roundQ {q : ℚ} {n j : Int} (hj : gridExp q - 52 ≤ j) (h : (n : ℚ) * 2 ^ j ≤ q) :
    (n : ℚ) * 2 ^ j ≤ roundQ q := by
  have hu := ulp_pos q
  have h1 : (n : ℚ) * 2 ^ j / ulp q ≤ q / ulp q := div_le_div_of_nonneg_right h hu.le
  have h2 := roundHalfEven_mono h1
  rw [grid_div_ulp q n j hj, roundHalfEven_intCast] at h2
  have h3 : ((n * 2 ^ (j - (gridExp q - 52)).toNat : Int) : ℚ) ≤ roundHalfEven (q / ulp q) := by
    exact_mod_cast h2
  rw [← grid_div_ulp q n j hj, div_le_iff₀ hu] at h3
  exact h3

theorem roundQ_le {q : ℚ} {n j : Int} (hj : gridExp q - 52 ≤ j) (h : q ≤ (n : ℚ) * 2 ^ j) :
    roundQ q ≤ (n : ℚ) * 2 ^ j := by
  have h1 : (-n : Int) * (2 : ℚ) ^ j ≤ roundQ (-q) := by
    apply le_roundQ
    · rw [gridExp_neg]; exact hj
    · push_cast; linarith
  rw [roundQ_neg] at h1
  push_cast at h1
  linarith

theorem roundQ_nonneg {q : ℚ} (h : 0 ≤ q) : 0 ≤ roundQ q := by
  have := le_roundQ (q := q) (n := 0) (j := gridExp q - 52) le_rfl (by simpa using h)
  simpa using this

theorem roundQ_nonpos {q : ℚ} (h : q ≤ 0) : roundQ q ≤ 0 := by
  have := roundQ_le (q := q) (n := 0) (j := gridExp q - 52) le_rfl (by simpa using h)
  simpa using this

theorem roundQ_le_zpow_succ {q : ℚ} (h : 0 ≤ q) : roundQ q ≤ 2 ^ (gridExp q + 1) := by
  have hlt := abs_lt_zpow_gridExp_succ q
  rw [abs_of_nonneg h] at hlt
  have := roundQ_le (q := q) (n := 1) (j := gridExp q + 1) (by omega) (by simpa using hlt.le)
  simpa using this

theorem zpow_le_roundQ {q : ℚ} (h : 0 < q) (hn : -1022 ≤ ilog2 q) :
    (2 : ℚ) ^ gridExp q ≤ roundQ q := by
  have hg : gridExp q = ilog2 q := by unfold gridExp; omega
  have h1 := zpow_ilog2_le h.ne'
  rw [abs_of_pos h, ← hg] at h1
  have := le_roundQ (q := q) (n := 1) (j := gridExp q) (by omega) (by simpa using h1)
  simpa using this

theorem roundQ_mono_pos {a b : ℚ} (ha : 0 < a) (h : a ≤ b) : roundQ a ≤ roundQ b := by
  have hb : 0 < b := lt_of_lt_of_le ha h
  rcases lt_or_eq_of_le (gridExp_mono ha h) with hlt | heq
  · have h1 := roundQ_le_zpow_succ ha.le
    have hn : -1022 ≤ ilog2 b := by
      by_contra hcon
      have hgb : gridExp b = -1022 := by unfold gridExp; omega
      have hga : -1022 ≤ gridExp a := le_max_right _ _
      omega
    have h2 := zpow_le_roundQ hb hn
    have h3 : (2 : ℚ) ^ (gridExp a + 1) ≤ 2 ^ gridExp b :=
      zpow_le_zpow_right₀ (by norm_num) (by omega)
    linarith
  · unfold roundQ
    have hu : ulp a = ulp b := by rw [ulp_eq, ulp_eq, heq]
    rw [hu]
    have hub := ulp_pos b
    have h1 : a / ulp b ≤ b / ulp b := div_le_div_of_nonneg_right h hub.le
    have h2 := roundHalfEven_mono h1
    have h3 : (roundHalfEven (a / ulp b) : ℚ) ≤ roundHalfEven (b / ulp b) := by exact_mod_cast h2
    exact mul_le_mul_of_nonneg_right h3 hub.le

theorem roundQ_mono {a b : ℚ} (h : a ≤ b) : roundQ a ≤ roundQ b := by
  rcases lt_trichotomy 0 a with ha | ha | ha
  · exact roundQ_mono_pos ha h
  · subst ha
    have h0 : roundQ 0 = 0 := by simp [roundQ, roundHalfEven]
    rw [h0]
    exact roundQ_nonneg h
  · rcases le_or_lt 0 b with hb | hb
    · exact (roundQ_nonpos ha.le).trans (roundQ_nonneg hb)
    · have := roundQ_mono_pos (a := -b) (b := -a) (by linarith) (by linarith)
      rw [roundQ_neg, roundQ_neg] at this
      linarith

/-! ## Exactly representable values and evaluation of the rounding -/

theorem roundQ_zero : roundQ 0 = 0 := by simp [roundQ, roundHalfEven]

theorem roundQ_grid {q : ℚ} {n j : Int} (hj : gridExp q - 52 ≤ j) (h : q = (n : ℚ) * 2 ^ j) :
    roundQ q = q :=
  le_antisymm ((roundQ_le hj h.le).trans h.ge) (h.le.trans (le_roundQ hj h.ge))

theorem ilog2_lt_of_abs_lt {q : ℚ} {e : Int} (hq : q ≠ 0) (h : |q| < (2 : ℚ) ^ e) :
    ilog2 q < e := by
  have h1 := zpow_ilog2_le hq
  have h2 : (2 : ℚ) ^ ilog2 q < 2 ^ e := lt_of_le_of_lt h1 h
  exact (zpow_lt_zpow_iff_right₀ (by norm_num : (1 : ℚ) < 2)).mp h2

/-- A value `m * 2 ^ k` with a significand below `2 ^ 53` and an exponent of at least `-1074`
is on the `float64` grid. -/
theorem roundQ_eq_self {q : ℚ} {m k : Int} (hm : |m| < 2 ^ 53) (hk : -1074 ≤ k)
    (hq : q = (m : ℚ) * 2 ^ k) : roundQ q = q := by
  by_cases h0 : q = 0
  · rw [h0, roundQ_zero]
  · refine roundQ_grid (n := m) (j := k) ?_ hq
    have hlt : |q| < (2 : ℚ) ^ (k + 53) := by
      have hm' : |(m : ℚ)| < 2 ^ (53 : ℕ) := by exact_mod_cast hm
      have hp : (0 : ℚ) < 2 ^ k := by positivity
      rw [hq, abs_mul, abs_of_pos hp, zpow_add₀ (by norm_num : (2 : ℚ) ≠ 0), mul_comm]
      have : ((2 : ℚ) ^ (53 : ℤ)) = 2 ^ (53 : ℕ) := by norm_cast
      rw [this]
      exact mul_lt_mul_of_pos_left hm' hp
    have := ilog2_lt_of_abs_lt h0 hlt
    unfold gridExp
    rcases max_cases (ilog2 q) (-1022) with ⟨h1, _⟩ | ⟨h1, _⟩ <;> omega

theorem round64_eq_fin {q : ℚ} (h : |roundQ q| < (2 : ℚ) ^ (1024 : ℤ)) : round64 q = .fin (roundQ q) := by
  unfold round64
  rw [if_neg (not_le.mpr h)]

theorem round64_eq_self {q : ℚ} {m k : Int} (hm : |m| < 2 ^ 53) (hk : -1074 ≤ k)
    (hq : q = (m : ℚ) * 2 ^ k) (hlt : |q| < (2 : ℚ) ^ (1024 : ℤ)) : round64 q = .fin q := by
  have h := roundQ_eq_self hm hk hq
  rw [round64_eq_fin (by rw [h]; exact hlt), h]

/-- The rounding of a value of the binade `e ≥ -1022` whose quotient by the spacing is within
one half of the integer `m`. -/
theorem roundQ_eq_of_near {q : ℚ} {e m : Int} (he : -1022 ≤ e) (h1 : (2 : ℚ) ^ e ≤ |q|)
    (h2 : |q| < (2 : ℚ) ^ (e + 1)) (hm : |q / 2 ^ (e - 52) - m| < 1 / 2) :
    roundQ q = (m : ℚ) * 2 ^ (e - 52) := by
  have hg : gridExp q = e := by
    unfold gridExp; rw [ilog2_eq h1 h2]; exact max_eq_left he
  unfold roundQ
  rw [ulp_eq, hg, roundHalfEven_eq_of_abs_lt hm]

theorem roundHalfEven_eq_zero {x : ℚ} (h : |x| ≤ 1 / 2) : roundHalfEven x = 0 := by
  rw [abs_le] at h
  rcases lt_or_le x 0 with hx | hx
  · have hf : ⌊x⌋ = -1 := by
      rw [Int.floor_eq_iff]; push_cast; constructor <;> linarith
    unfold roundHalfEven
    rw [hf]
    push_cast
    split_ifs <;> first | omega | (exfalso; linarith)
  · have hf : ⌊x⌋ = 0 := by
      rw [Int.floor_eq_iff]; push_cast; constructor <;> linarith
    unfold roundHalfEven
    rw [hf]
    push_cast
    split_ifs <;> first | omega | (exfalso; linarith)

/-- Underflow: a value of magnitude at most `2 ^ (-1075)`, half the least positive `float64`,
rounds to zero. -/
theorem roundQ_underflow {q : ℚ} (h : |q| ≤ (2 : ℚ) ^ (-1075 : ℤ)) : roundQ q = 0 := by
  by_cases h0 : q = 0
  · rw [h0, roundQ_zero]
  have hg : gridExp q = -1022 := by
    unfold gridExp
    apply max_eq_right
    have : |q| < (2 : ℚ) ^ (-1074 : ℤ) :=
      lt_of_le_of_lt h (zpow_lt_zpow_right₀ (by norm_num) (by norm_num))
    have := ilog2_lt_of_abs_lt h0 this
    omega
  unfold roundQ
  rw [ulp_eq, hg, roundHalfEven_eq_zero]
  · simp
  · have hp : (0 : ℚ) < 2 ^ (-1022 - 52 : ℤ) := by positivity
    rw [abs_div, abs_of_pos hp, div_le_iff₀ hp]
    have : (1 / 2 : ℚ) * 2 ^ (-1022 - 52 : ℤ) = 2 ^ (-1075 : ℤ) := by
      rw [show (-1022 - 52 : ℤ) = -1075 + 1 by norm_num, zpow_add₀ (by norm_num : (2 : ℚ) ≠ 0)]
      rw [zpow_one]
      ring
    rw [this]
    exact h

theorem round64_underflow {q : ℚ} (h : |q| ≤ (2 : ℚ) ^ (-1075 : ℤ)) : round64 q = .fin 0 := by
  have h0 := roundQ_underflow h
  rw [round64_eq_fin (by rw [h0, abs_zero]; positivity), h0]

/-- A bound by a power of two carries over to the rounded value. -/
theorem abs_roundQ_le_zpow {q : ℚ} {k : Int} (hk : -1022 ≤ k) (h : |q| ≤ (2 : ℚ) ^ k) :
    |roundQ q| ≤ (2 : ℚ) ^ k := by
  by_cases h0 : q = 0
  · rw [h0, roundQ_zero]; simp; positivity
  have hg : gridExp q - 52 ≤ k := by
    unfold gridExp
    have h1 := zpow_ilog2_le h0
    have h2 : (2 : ℚ) ^ ilog2 q ≤ 2 ^ k := h1.trans h
    have := (zpow_le_zpow_iff_right₀ (by norm_num : (1 : ℚ) < 2)).mp h2
    rcases max_cases (ilog2 q) (-1022) with ⟨h3, _⟩ | ⟨h3, _⟩ <;> omega
  rw [abs_le] at h ⊢
  constructor
  · have := le_roundQ (q := q) (n := -1) (j := k) hg (by push_cast; linarith [h.1])
    push_cast at this; linarith
  · have := roundQ_le (q := q) (n := 1) (j := k) hg (by push_cast; linarith [h.2])
    push_cast at this; linarith

/-! ## The order of float64 -/

namespace F64

@[simp] theorem fin_le_fin {a b : ℚ} : (fin a ≤ fin b) ↔ a ≤ b := by
  show ble (fin a) (fin b) = true ↔ _
  simp [ble]

@[simp] theorem fin_lt_fin {a b : ℚ} : (fin a < fin b) ↔ a < b := by
  show blt (fin a) (fin b) = true ↔ _
  simp [blt]

@[simp] theorem fin_le_inf {a : ℚ} {n : Bool} : (fin a ≤ inf n) ↔ n = false := by
  show ble (fin a) (inf n) = true ↔ _
  simp [ble]

@[simp] theorem fin_lt_inf {a : ℚ} {n : Bool} : (fin a < inf n) ↔ n = false := by
  show blt (fin a) (inf n) = true ↔ _
  simp [blt]

@[simp] theorem inf_le_fin {a : ℚ} {n : Bool} : (inf n ≤ fin a) ↔ n = true := by
  show ble (inf n) (fin a) = true ↔ _
  simp [ble]

@[simp] theorem inf_lt_fin {a : ℚ} {n : Bool} : (inf n < fin a) ↔ n = true := by
  show blt (inf n) (fin a) = true ↔ _
  simp [blt]

@[simp] theorem inf_le_inf {m n : Bool} : (inf m ≤ inf n) ↔ (m = true ∨ n = false) := by
  show ble (inf m) (inf n) = true ↔ _
  simp [ble]

@[simp] theorem inf_lt_inf {m n : Bool} : (inf m < inf n) ↔ (m = true ∧ n = false) := by
  show blt (inf m) (inf n) = true ↔ _
  simp [blt]

@[simp] theorem not_nan_le (x : F64) : ¬ (nan ≤ x) := by
  show ¬ (ble nan x = true)
  simp [ble]

@[simp] theorem not_le_nan (x : F64) : ¬ (x ≤ nan) := by
  show ¬ (ble x nan = true)
  cases x <;> simp [ble]

@[simp] theorem not_nan_lt (x : F64) : ¬ (nan < x) := by
  show ¬ (blt nan x = true)
  simp [blt]

@[simp] theorem not_lt_nan (x : F64) : ¬ (x < nan) := by
  show ¬ (blt x nan = true)
  cases x <;> simp [blt]

theorem lt_irrefl (x : F64) : ¬ (x < x) := by
  cases x <;> simp

theorem le_of_le_of_le {x y z : F64} (h1 : x ≤ y) (h2 : y ≤ z) : x ≤ z := by
  cases x <;> cases y <;> cases z <;> simp_all
  · rcases h1 with h | h <;> simp_all
  · exact h1.trans h2

theorem not_le_and_lt {x y : F64} : ¬ (x ≤ y ∧ y < x) := by
  cases x <;> cases y <;> simp
  · intro h; rcases h with h | h <;> simp_all

theorem lt_of_not_le {x y : F64} (hx : x ≤ x) (hy : y ≤ y) (h : ¬ (x ≤ y)) : y < x := by
  cases x <;> cases y <;> simp_all

end F64

theorem round64_mono {a b : ℚ} (h : a ≤ b) : round64 a ≤ round64 b := by
  have hr := roundQ_mono h
  unfold round64
  by_cases ha : (2 : ℚ) ^ (1024 : ℤ) ≤ |roundQ a| <;> by_cases hb : (2 : ℚ) ^ (1024 : ℤ) ≤ |roundQ b|
  · rw [if_pos ha, if_pos hb]
    simp only [F64.inf_le_inf, decide_eq_true_eq, decide_eq_false_iff_not, not_lt]
    rcases lt_or_le a 0 with h0 | h0
    · exact Or.inl h0
    · right
      exact h0.trans h
  · rw [if_pos ha, if_neg hb]
    simp only [F64.inf_le_fin, decide_eq_true_eq]
    by_contra h0
    push_neg at h0
    have h1 := roundQ_nonneg h0
    rw [abs_of_nonneg h1] at ha
    have h2 := roundQ_nonneg (h0.trans h)
    rw [abs_of_nonneg h2] at hb
    exact hb (ha.trans hr)
  · rw [if_neg ha, if_pos hb]
    simp only [F64.fin_le_inf, decide_eq_false_iff_not, not_lt]
    by_contra h0
    push_neg at h0
    have h1 := roundQ_nonpos h0.le
    rw [abs_of_nonpos h1] at hb
    have h2 := roundQ_nonpos (h.trans h0.le)
    rw [abs_of_nonpos h2] at ha
    exact ha (by linarith)
  · rw [if_neg ha, if_neg hb]
    simpa using hr

/-! ## Conversions between float64 and int64 -/

theorem wrapInt64_range (z : Int) : IsInt64 (wrapInt64 z) := by
  unfold IsInt64 wrapInt64
  constructor <;> omega

theorem wrapInt64_eq_self {z : Int} (h : IsInt64 z) : wrapInt64 z = z := by
  unfold IsInt64 at h
  unfold wrapInt64
  omega

theorem toInt64_range (P : Platform) (x : F64) : IsInt64 (toInt64 P x) := by
  cases x with
  | nan => exact wrapInt64_range _
  | inf n => exact wrapInt64_range _
  | fin q =>
    unfold toInt64
    simp only
    split_ifs with h1 h2 h2
    · exact h2
    · exact wrapInt64_range _
    · exact h2
    · exact wrapInt64_range _

theorem toInt64_intCast (P : Platform) {n : Int} (h : IsInt64 n) :
    toInt64 P (.fin (n : ℚ)) = n := by
  unfold toInt64
  simp only [Int.floor_intCast, Int.ceil_intCast, ite_self]
  exact if_pos h

theorem MapToIndex_range (P : Platform) (l : LogarithmMapping) (v : F64) :
    IsInt64 (MapToIndex P l v) := toInt64_range P _

theorem two_pow_63_lt : (2 : ℚ) ^ 63 < (2 : ℚ) ^ (1024 : ℤ) := by
  have : (2 : ℚ) ^ (63 : ℤ) < (2 : ℚ) ^ (1024 : ℤ) := zpow_lt_zpow_right₀ (by norm_num) (by norm_num)
  exact_mod_cast this

theorem two_pow_53_lt : (2 : ℚ) ^ 53 < 2 ^ (1024 : ℤ) :=
  lt_trans (by norm_num) two_pow_63_lt

/-- When `math.Log` returns the finite value `x`, the scale factor is the finite value `f`
and the floor of their rounded product fits `int64`, `MapToIndex` is that floor. -/
theorem MapToIndex_eq_floor (P : Platform) (l : LogarithmMapping) (v : F64) {x f : ℚ}
    (hx : P.Log v = .fin x) (hf : l.scaleFactor = .fin f) (hfit : IsInt64 ⌊roundQ (x * f)⌋) :
    MapToIndex P l v = ⌊roundQ (x * f)⌋ := by
  have hlt : |roundQ (x * f)| < (2 : ℚ) ^ (1024 : ℤ) := by
    obtain ⟨h1, h2⟩ := hfit
    have h3 : ((-2 ^ 63 : Int) : ℚ) ≤ roundQ (x * f) := Int.le_floor.mp h1
    have h4 : roundQ (x * f) < ((2 ^ 63 : Int) : ℚ) := Int.floor_lt.mp h2
    push_cast at h3 h4
    rw [abs_lt]
    constructor
    · have := two_pow_63_lt
      linarith
    · have := two_pow_63_lt
      linarith
  unfold MapToIndex
  rw [hx, hf]
  show toInt64 P (F64.floor (round64 (x * f))) = _
  rw [round64_eq_fin hlt]
  exact toInt64_intCast P hfit

/-! ## The scale factor -/

theorem log2e_pos : 0 < log2e := by unfold log2e; norm_num

theorem log2e_lt : log2e < 3 / 2 := by unfold log2e; norm_num

/-- For `-1023 ≤ s ≤ 1023` scaling `Log2E` by `2 ^ s` involves no rounding. -/
theorem scaleFactor_exact {s : Int} (h1 : -1023 ≤ s) (h2 : s ≤ 1023) :
    (NewLogarithmMapping s).scaleFactor = .fin (log2e * 2 ^ s) := by
  show Scalb Log2E s = _
  show round64 (log2e * 2 ^ s) = _
  refine round64_eq_self (m := 3248660424278399) (k := s - 51) (by norm_num) (by omega) ?_ ?_
  · rw [zpow_sub₀ (by norm_num : (2 : ℚ) ≠ 0)]
    unfold log2e
    have : (2 : ℚ) ^ (51 : ℤ) = 2251799813685248 := by norm_num
    rw [this]
    push_cast
    ring
  · have hp : (0 : ℚ) < 2 ^ s := by positivity
    rw [abs_of_pos (mul_pos log2e_pos hp)]
    have h3 : (2 : ℚ) ^ s ≤ 2 ^ (1023 : ℤ) := zpow_le_zpow_right₀ (by norm_num) h2
    have h4 : ((2 : ℚ) ^ (1024 : ℤ)) = 2 * 2 ^ (1023 : ℤ) := by
      rw [show (1024 : ℤ) = 1023 + 1 by norm_num, zpow_add₀ (by norm_num : (2 : ℚ) ≠ 0), zpow_one]
      ring
    rw [h4]
    have := log2e_lt
    nlinarith

theorem roundQ_ln2f_mul_log2e : roundQ (ln2f * log2e) = 1 := by
  have h := roundQ_eq_of_near (q := ln2f * log2e) (e := -1) (m := 2 ^ 53) (by norm_num)
    (by unfold ln2f log2e; norm_num [abs_of_pos]) (by unfold ln2f log2e; norm_num [abs_of_pos])
    (by unfold ln2f log2e; norm_num [abs_lt])
  rw [h]
  norm_num

/-- Claim C1, refuted as stated.  At scale 64 and value 4 the greatest integer below
`ln(4) * log2(e) * 2 ^ 64` is `2 ^ 65`, which no `int64` equals: whatever the runtime computes,
`MapToIndex` does not return it. -/
theorem MapToIndex_ne_real_floor_at_scale_64 :
    ¬ ∃ P : Platform, MapToIndex P (NewLogarithmMapping 64) (.fin 4) =
        ⌊Real.log 4 * Real.logb 2 (Real.exp 1) * 2 ^ (64 : ℤ)⌋ := by
  rintro ⟨P, h⟩
  have hr := MapToIndex_range P (NewLogarithmMapping 64) (.fin 4)
  have h2 : Real.log 2 ≠ 0 := by
    have := Real.log_pos (by norm_num : (1 : ℝ) < 2)
    exact this.ne'
  have hval : Real.log 4 * Real.logb 2 (Real.exp 1) * 2 ^ (64 : ℤ) = ((2 ^ 65 : Int) : ℝ) := by
    have h4 : Real.log 4 = 2 * Real.log 2 := by
      rw [show (4 : ℝ) = 2 ^ 2 by norm_num, Real.log_pow]; norm_num
    rw [h4, Real.logb, Real.log_exp]
    field_simp
    norm_num
  rw [hval, Int.floor_intCast] at h
  rw [h] at hr
  unfold IsInt64 at hr
  omega

/-- For a scale `-1023 ≤ s ≤ 1023` the stored factor is exactly `Log2E * 2 ^ s`, with `Log2E`
the `float64` constant; and when `math.Log(v)` is the finite `float64` `x`, `MapToIndex`
returns the greatest integer below the `float64` product of `x` and the factor (the exact
product rounded to nearest), provided that integer fits `int64`. -/
theorem MapToIndex_eq_floor_of_float_product (P : Platform) (s : Int) (v : F64) (x : ℚ)
    (hs1 : -1023 ≤ s) (hs2 : s ≤ 1023) (hx : P.Log v = .fin x)
    (hfit : IsInt64 ⌊roundQ (x * (log2e * 2 ^ s))⌋) :
    (NewLogarithmMapping s).scaleFactor = .fin (log2e * 2 ^ s) ∧
      MapToIndex P (NewLogarithmMapping s) v = ⌊roundQ (x * (log2e * 2 ^ s))⌋ :=
  ⟨scaleFactor_exact hs1 hs2,
    MapToIndex_eq_floor P _ v hx (scaleFactor_exact hs1 hs2) hfit⟩

/-! ## Order lemmas for the conversions -/

theorem round64_le_inf (q : ℚ) : round64 q ≤ .inf false := by
  unfold round64; split_ifs <;> simp

theorem inf_le_round64 (q : ℚ) : F64.inf true ≤ round64 q := by
  unfold round64; split_ifs <;> simp

theorem round64_intCast_small {i : Int} (h : |i| < 2 ^ 53) : round64 (i : ℚ) = .fin i := by
  refine round64_eq_self (m := i) (k := 0) h (by norm_num) (by simp) ?_
  have h1 : |(i : ℚ)| < 2 ^ 53 := by exact_mod_cast h
  exact h1.trans (lt_trans (by norm_num) two_pow_63_lt)

theorem ofInt64_eq_fin {i : Int} (h : IsInt64 i) : ofInt64 i = .fin (roundQ i) := by
  unfold ofInt64
  apply round64_eq_fin
  have h1 : |(i : ℚ)| ≤ (2 : ℚ) ^ (63 : ℤ) := by
    obtain ⟨ha, hb⟩ := h
    rw [abs_le]
    have ha' : ((-2 ^ 63 : Int) : ℚ) ≤ i := by exact_mod_cast ha
    have hb' : (i : ℚ) < ((2 ^ 63 : Int) : ℚ) := by exact_mod_cast hb
    push_cast at ha' hb'
    norm_num
    constructor <;> linarith
  have h2 := abs_roundQ_le_zpow (by norm_num) h1
  exact lt_of_le_of_lt h2 (zpow_lt_zpow_right₀ (by norm_num) (by norm_num))

theorem ofInt64_mono {i j : Int} (h : i ≤ j) : ofInt64 i ≤ ofInt64 j :=
  round64_mono (by exact_mod_cast h)

theorem Scalb_mono {x y : F64} (n : Int) (h : x ≤ y) : Scalb x n ≤ Scalb y n := by
  cases x with
  | nan => simp at h
  | inf a =>
    cases y with
    | nan => simp at h
    | inf b => simpa [Scalb] using h
    | fin q =>
      simp at h
      subst h
      exact inf_le_round64 _
  | fin p =>
    cases y with
    | nan => simp at h
    | inf b =>
      simp at h
      subst h
      exact round64_le_inf _
    | fin q =>
      simp at h
      have hp : (0 : ℚ) < 2 ^ n := by positivity
      exact round64_mono (mul_le_mul_of_nonneg_right h hp.le)

theorem LowerBoundary_mono (P : Platform) (hm : Exp2Monotone P) (l : LogarithmMapping)
    {i j : Int} (h : i ≤ j) : LowerBoundary P l i ≤ LowerBoundary P l j :=
  hm _ _ (Scalb_mono _ (ofInt64_mono h))

theorem UpperBoundary_eq (P : Platform) (l : LogarithmMapping) {i : Int}
    (h1 : -2 ^ 63 ≤ i + 1) (h2 : i + 1 < 2 ^ 63) :
    UpperBoundary P l i = LowerBoundary P l (i + 1) := by
  unfold UpperBoundary
  rw [wrapInt64_eq_self ⟨h1, h2⟩]

theorem LowerBoundary_scale_zero (P : Platform) {i : Int} (h : |i| < 2 ^ 53) :
    LowerBoundary P (NewLogarithmMapping 0) i = P.Exp2 (.fin i) := by
  unfold LowerBoundary ofInt64
  rw [round64_intCast_small h]
  show P.Exp2 (round64 ((i : ℚ) * 2 ^ wrapInt64 (-0))) = _
  have : wrapInt64 (-0) = 0 := by unfold wrapInt64; norm_num
  rw [this, zpow_zero, mul_one, round64_intCast_small h]

/-- At scale 1200 every boundary is `Exp2(0)`: the scaled index underflows to zero. -/
theorem LowerBoundary_scale_1200 (P : Platform) {i : Int} (h : IsInt64 i) :
    LowerBoundary P (NewLogarithmMapping 1200) i = P.Exp2 (.fin 0) := by
  unfold LowerBoundary
  rw [ofInt64_eq_fin h]
  show P.Exp2 (round64 (roundQ i * 2 ^ wrapInt64 (-1200))) = _
  have hw : wrapInt64 (-1200) = -1200 := by unfold wrapInt64; norm_num
  rw [hw, round64_underflow]
  have h1 : |(i : ℚ)| ≤ (2 : ℚ) ^ (63 : ℤ) := by
    obtain ⟨ha, hb⟩ := h
    rw [abs_le]
    have ha' : ((-2 ^ 63 : Int) : ℚ) ≤ i := by exact_mod_cast ha
    have hb' : (i : ℚ) < ((2 ^ 63 : Int) : ℚ) := by exact_mod_cast hb
    push_cast at ha' hb'
    norm_num
    constructor <;> linarith
  have h2 := abs_roundQ_le_zpow (by norm_num) h1
  have hp : (0 : ℚ) < 2 ^ (-1200 : ℤ) := by positivity
  rw [abs_mul, abs_of_pos hp]
  calc |roundQ (i : ℚ)| * 2 ^ (-1200 : ℤ) ≤ 2 ^ (63 : ℤ) * 2 ^ (-1200 : ℤ) :=
        mul_le_mul_of_nonneg_right h2 hp.le
    _ = 2 ^ (-1137 : ℤ) := by rw [← zpow_add₀ (by norm_num : (2 : ℚ) ≠ 0)]; norm_num
    _ ≤ 2 ^ (-1075 : ℤ) := zpow_le_zpow_right₀ (by norm_num) (by norm_num)

theorem roundQ_ln8f_mul_log2e : roundQ (ln8f * log2e) = 6755399441055743 / 2251799813685248 := by
  have h := roundQ_eq_of_near (q := ln8f * log2e) (e := 1) (m := 6755399441055743) (by norm_num)
    (by unfold ln8f log2e; norm_num [abs_of_pos]) (by unfold ln8f log2e; norm_num [abs_of_pos])
    (by unfold ln8f log2e; norm_num [abs_lt])
  rw [h]
  norm_num

theorem scaleFactor_zero : (NewLogarithmMapping 0).scaleFactor = .fin log2e := by
  have := scaleFactor_exact (s := 0) (by norm_num) (by norm_num)
  simpa using this

/-- The floor of the rounded product with a non-negative factor, for a first factor between
two bounds at which the rounded products are known. -/
theorem floor_roundQ_eq_of_between {x a b f : ℚ} {n : Int} (hf : 0 ≤ f) (ha : a ≤ x)
    (hb : x ≤ b) (hlo : (n : ℚ) ≤ roundQ (a * f)) (hhi : roundQ (b * f) < n + 1) :
    ⌊roundQ (x * f)⌋ = n := by
  have h1 := roundQ_mono (mul_le_mul_of_nonneg_right ha hf)
  have h2 := roundQ_mono (mul_le_mul_of_nonneg_right hb hf)
  rw [Int.floor_eq_iff]
  constructor <;> linarith

/-- Claim C2, refuted as stated, at two inputs.  (1) At scale 1200 every bucket is the empty
interval from `Exp2(0)` to `Exp2(0)`, so on no runtime does the index of `1.0` name a bucket
that contains `1.0`.  (2) At scale 0, on every runtime on which `math.Log(8)` is at most the
`float64` nearest to `ln 8` (which lies below `ln 8`) and `math.Exp2` is exact at 3 and 4, as
in Go, the value `8.0` lies in bucket 3, from 8 to 16, and `MapToIndex(8.0)` is not 3 (it is
at most 2: the `float64` product of the nearest `float64` and `Log2E` is `3 - 2 ^ (-51)`). -/
theorem MapToIndex_names_bucket_fails :
    (¬ ∃ P : Platform, ∀ i : Int, IsInt64 i →
      (MapToIndex P (NewLogarithmMapping 1200) (.fin 1) = i ↔
        (LowerBoundary P (NewLogarithmMapping 1200) i ≤ .fin 1 ∧
          .fin 1 < UpperBoundary P (NewLogarithmMapping 1200) i))) ∧
    (¬ ∃ P : Platform, LogBetween P 8 0 ln8f ∧ P.Exp2 (.fin 3) = .fin 8 ∧
      P.Exp2 (.fin 4) = .fin 16 ∧
      (MapToIndex P (NewLogarithmMapping 0) (.fin 8) = 3 ↔
        (LowerBoundary P (NewLogarithmMapping 0) 3 ≤ .fin 8 ∧
          .fin 8 < UpperBoundary P (NewLogarithmMapping 0) 3))) := by
  constructor
  · rintro ⟨P, h⟩
    have hr := MapToIndex_range P (NewLogarithmMapping 1200) (.fin 1)
    have h1 := (h _ hr).mp rfl
    unfold UpperBoundary at h1
    rw [LowerBoundary_scale_1200 P hr, LowerBoundary_scale_1200 P (wrapInt64_range _)] at h1
    exact F64.not_le_and_lt h1
  · rintro ⟨P, ⟨x, hlog, hx0, hx1⟩, h3, h4, h⟩
    have hlb : LowerBoundary P (NewLogarithmMapping 0) 3 = .fin 8 := by
      have := LowerBoundary_scale_zero P (i := 3) (by norm_num)
      rw [this]; simpa using h3
    have hub : UpperBoundary P (NewLogarithmMapping 0) 3 = .fin 16 := by
      rw [UpperBoundary_eq P _ (by norm_num) (by norm_num)]
      have := LowerBoundary_scale_zero P (i := 3 + 1) (by norm_num)
      rw [this]; simpa using h4
    have h8 : ⌊roundQ (ln8f * log2e)⌋ = 2 := by
      rw [roundQ_ln8f_mul_log2e, Int.floor_eq_iff]; norm_num
    have hup : ⌊roundQ (x * log2e)⌋ ≤ 2 := by
      rw [← h8]
      exact Int.floor_mono (roundQ_mono (mul_le_mul_of_nonneg_right hx1 log2e_pos.le))
    have hdn : 0 ≤ ⌊roundQ (x * log2e)⌋ := by
      apply Int.le_floor.mpr
      have := roundQ_nonneg (mul_nonneg hx0 log2e_pos.le)
      simpa using this
    have hmap : MapToIndex P (NewLogarithmMapping 0) (.fin 8) = ⌊roundQ (x * log2e)⌋ :=
      MapToIndex_eq_floor P _ _ hlog scaleFactor_zero (by unfold IsInt64; omega)
    rw [hmap, hlb, hub] at h
    have := h.mpr ⟨by simp, by simp; norm_num⟩
    omega

/-! ## The buckets tile the positive values -/

/-- Between an index where a property holds and a later index where it fails there is a last
index where it holds. -/
theorem exists_last_index (S : Int → Prop) (n : ℕ) (a : Int) (ha : S a) (hb : ¬ S (a + n)) :
    ∃ i, a ≤ i ∧ i < a + n ∧ S i ∧ ¬ S (i + 1) := by
  induction n with
  | zero => simp at hb; exact absurd ha hb
  | succ k ih =>
    by_cases hk : S (a + k)
    · refine ⟨a + k, by omega, by push_cast; omega, hk, ?_⟩
      have : a + (k : Int) + 1 = a + ((k + 1 : ℕ) : Int) := by push_cast; ring
      rw [this]; exact hb
    · obtain ⟨i, h1, h2, h3, h4⟩ := ih hk
      exact ⟨i, h1, by push_cast; omega, h3, h4⟩

theorem LowerBoundary_min_eq_zero (P : Platform) (hsat : Exp2Saturates P) {s : Int}
    (hs1 : -2 ^ 63 < s) (hs2 : s ≤ 52) :
    LowerBoundary P (NewLogarithmMapping s) (-2 ^ 63) = .fin 0 := by
  apply hsat.2
  show Scalb (ofInt64 (-2 ^ 63)) (wrapInt64 (-s)) ≤ .fin (-1075)
  have hw : wrapInt64 (-s) = -s := wrapInt64_eq_self ⟨by omega, by omega⟩
  have h1 : ofInt64 (-2 ^ 63) = .fin (-2 ^ 63) := by
    unfold ofInt64
    have := round64_eq_self (q := ((-2 ^ 63 : Int) : ℚ)) (m := -1) (k := 63) (by norm_num)
      (by norm_num) (by norm_num) (by
        have := two_pow_63_lt
        rw [abs_lt]; push_cast; constructor <;> linarith)
    rw [this]; norm_num
  rw [hw, h1]
  show round64 (-2 ^ 63 * 2 ^ (-s)) ≤ _
  have h2 : round64 (-1075 : ℚ) = .fin (-1075) := by
    have := round64_intCast_small (i := -1075) (by norm_num)
    simpa using this
  rw [← h2]
  apply round64_mono
  have h3 : (2 : ℚ) ^ (-52 : ℤ) ≤ 2 ^ (-s) := zpow_le_zpow_right₀ (by norm_num) (by omega)
  have h4 : (2 : ℚ) ^ 63 * 2 ^ (-52 : ℤ) = 2048 := by norm_num
  nlinarith

theorem LowerBoundary_max_eq_inf (P : Platform) (hsat : Exp2Saturates P)
    {s : Int} (hs1 : -2 ^ 63 < s) (hs2 : s ≤ 52) :
    LowerBoundary P (NewLogarithmMapping s) (2 ^ 63 - 1) = .inf false := by
  apply hsat.1
  show .fin 1024 ≤ Scalb (ofInt64 (2 ^ 63 - 1)) (wrapInt64 (-s))
  have hw : wrapInt64 (-s) = -s := wrapInt64_eq_self ⟨by omega, by omega⟩
  rw [hw]
  have h1 : ofInt64 (2 ^ 62) = .fin (2 ^ 62) := by
    unfold ofInt64
    have := round64_eq_self (q := ((2 ^ 62 : Int) : ℚ)) (m := 1) (k := 62) (by norm_num)
      (by norm_num) (by norm_num) (by
        have := two_pow_63_lt
        rw [abs_lt]; push_cast; constructor <;> linarith)
    rw [this]; norm_num
  have h2 : Scalb (ofInt64 (2 ^ 62)) (-s) ≤ Scalb (ofInt64 (2 ^ 63 - 1)) (-s) :=
    Scalb_mono _ (ofInt64_mono (by norm_num))
  refine F64.le_of_le_of_le ?_ h2
  rw [h1]
  show _ ≤ round64 (2 ^ 62 * 2 ^ (-s))
  have h3 : round64 (1024 : ℚ) = .fin 1024 := by
    have := round64_intCast_small (i := 1024) (by norm_num)
    simpa using this
  rw [← h3]
  apply round64_mono
  have h4 : (2 : ℚ) ^ (-52 : ℤ) ≤ 2 ^ (-s) := zpow_le_zpow_right₀ (by norm_num) (by omega)
  have h5 : (2 : ℚ) ^ 62 * 2 ^ (-52 : ℤ) = 1024 := by norm_num
  nlinarith

/-- For a scale of at most 52 and a `math.Exp2` that never decreases and saturates, the
buckets tile the positive values exhaustively and without overlap: every finite `v > 0` lies
in exactly one bucket, from `LowerBoundary(i)` to `UpperBoundary(i)`. -/
theorem buckets_tile_positive_values (P : Platform) (hm : Exp2Monotone P)
    (hsat : Exp2Saturates P) (s : Int) (hs1 : -2 ^ 63 < s) (hs2 : s ≤ 52) (v : ℚ) (hv : 0 < v) :
    ∃! i : Int, IsInt64 i ∧ LowerBoundary P (NewLogarithmMapping s) i ≤ .fin v ∧
      .fin v < UpperBoundary P (NewLogarithmMapping s) i := by
  set l := NewLogarithmMapping s with hl
  have hmin := LowerBoundary_min_eq_zero P hsat hs1 hs2
  have hmax := LowerBoundary_max_eq_inf P hsat hs1 hs2
  rw [← hl] at hmin hmax
  have ha : LowerBoundary P l (-2 ^ 63) ≤ .fin v := by rw [hmin]; simpa using hv.le
  have hb : ¬ LowerBoundary P l (-2 ^ 63 + ((2 ^ 64 - 1 : ℕ) : Int)) ≤ .fin v := by
    have : (-2 ^ 63 + ((2 ^ 64 - 1 : ℕ) : Int)) = 2 ^ 63 - 1 := by norm_num
    rw [this, hmax]; simp
  obtain ⟨i, h1, h2, h3, h4⟩ :=
    exists_last_index (fun i => LowerBoundary P l i ≤ .fin v) (2 ^ 64 - 1) (-2 ^ 63) ha hb
  have h2' : i < 2 ^ 63 - 1 := by
    have : (-2 ^ 63 + ((2 ^ 64 - 1 : ℕ) : Int)) = 2 ^ 63 - 1 := by norm_num
    rw [this] at h2; exact h2
  have hself : ∀ j : Int, LowerBoundary P l j ≤ LowerBoundary P l j :=
    fun j => LowerBoundary_mono P hm l le_rfl
  refine ⟨i, ⟨⟨h1, by omega⟩, h3, ?_⟩, ?_⟩
  · rw [UpperBoundary_eq P l (by omega) (by omega)]
    exact F64.lt_of_not_le (hself _) (by simp) h4
  · rintro j ⟨⟨hj1, hj2⟩, hj3, hj4⟩
    have hj : j ≠ 2 ^ 63 - 1 := by
      intro hj
      rw [hj, hmax] at hj3
      simp at hj3
    rw [UpperBoundary_eq P l (by omega) (by omega)] at hj4
    rcases lt_trichotomy j i with hlt | heq | hgt
    · exfalso
      have := LowerBoundary_mono P hm l (show j + 1 ≤ i by omega)
      exact F64.not_le_and_lt ⟨F64.le_of_le_of_le this h3, hj4⟩
    · exact heq
    · exfalso
      have := LowerBoundary_mono P hm l (show i + 1 ≤ j by omega)
      have hlt : F64.fin v < LowerBoundary P l (i + 1) :=
        F64.lt_of_not_le (hself _) (by simp) h4
      exact F64.not_le_and_lt ⟨F64.le_of_le_of_le this hj3, hlt⟩

/-! ## The concrete runtime meets the assumptions -/

theorem roundQ_zpow {k : Int} (hk : -1074 ≤ k) : roundQ ((2 : ℚ) ^ k) = 2 ^ k :=
  roundQ_eq_self (m := 1) (k := k) (by norm_num) hk (by simp)

theorem tablePlatform_Exp2_fin (q : ℚ) : tablePlatform.Exp2 (.fin q) = round64 (2 ^ ⌊q⌋) := rfl

theorem tablePlatform_Exp2Monotone : Exp2Monotone tablePlatform := by
  intro x y h
  have h0 : round64 0 = .fin 0 := round64_underflow (by simp; positivity)
  cases x with
  | nan => simp at h
  | inf a =>
    cases y with
    | nan => simp at h
    | inf b =>
      cases a <;> cases b <;> simp [tablePlatform] at h ⊢
    | fin q =>
      simp at h
      subst h
      show F64.fin 0 ≤ round64 (2 ^ ⌊q⌋)
      rw [← h0]
      exact round64_mono (by positivity)
  | fin p =>
    cases y with
    | nan => simp at h
    | inf b =>
      simp at h
      subst h
      exact round64_le_inf _
    | fin q =>
      simp at h
      show round64 (2 ^ ⌊p⌋) ≤ round64 (2 ^ ⌊q⌋)
      exact round64_mono (zpow_le_zpow_right₀ (by norm_num) (Int.floor_mono h))

theorem tablePlatform_Exp2Saturates : Exp2Saturates tablePlatform := by
  constructor
  · intro x h
    cases x with
    | nan => simp at h
    | inf a => simp at h; subst h; rfl
    | fin q =>
      simp at h
      have hk : (1024 : Int) ≤ ⌊q⌋ := Int.le_floor.mpr (by exact_mod_cast h)
      rw [tablePlatform_Exp2_fin]
      unfold round64
      have hp : (0 : ℚ) < 2 ^ ⌊q⌋ := by positivity
      rw [roundQ_zpow (by omega), abs_of_pos hp,
        if_pos (zpow_le_zpow_right₀ (by norm_num) hk)]
      simp [not_lt.mpr hp.le]
  · intro x h
    cases x with
    | nan => simp at h
    | inf a => simp at h; subst h; rfl
    | fin q =>
      simp at h
      have hk : ⌊q⌋ ≤ (-1075 : Int) := by
        have := Int.floor_mono h
        rw [show ((-1075 : ℚ)) = ((-1075 : Int) : ℚ) by norm_num, Int.floor_intCast] at this
        exact this
      rw [tablePlatform_Exp2_fin]
      apply round64_underflow
      have hp : (0 : ℚ) < 2 ^ ⌊q⌋ := by positivity
      rw [abs_of_pos hp]
      exact zpow_le_zpow_right₀ (by norm_num) hk

theorem ln2f_bounds : 0 < ln2f ∧ ln2f < 1 := by unfold ln2f; norm_num

theorem ln1p5f_bounds : 0 < ln1p5f ∧ ln1p5f < ln2f := by unfold ln1p5f ln2f; norm_num

theorem tablePlatform_LogMonotone : LogMonotone tablePlatform := by
  intro v w _ _ hv hvw
  have hw : 0 < w := lt_of_lt_of_le hv hvw
  obtain ⟨ha, hb⟩ := ln2f_bounds
  obtain ⟨hc, hd⟩ := ln1p5f_bounds
  have key : ∀ u : ℚ, 0 < u → tablePlatform.Log (.fin u) =
      .fin (if u < 1 then -ln2f else if u < 3 / 2 then 0 else if u < 2 then ln1p5f else ln2f) := by
    intro u hu
    simp only [tablePlatform]
    rw [if_neg (not_lt.mpr hu.le), if_neg hu.ne']
    split_ifs <;> rfl
  refine ⟨_, _, key v hv, key w hw, ?_, ?_, ?_⟩
  · split_ifs <;> linarith
  · rw [abs_le]; split_ifs <;> constructor <;> linarith
  · rw [abs_le]; split_ifs <;> constructor <;> linarith

theorem isF64_intCast_small {i : Int} (h : |i| < 2 ^ 53) : IsF64 (i : ℚ) := by
  constructor
  · exact roundQ_eq_self (m := i) (k := 0) h (by norm_num) (by simp)
  · have h1 : |(i : ℚ)| < 2 ^ 53 := by exact_mod_cast h
    exact h1.trans (lt_trans (by norm_num) two_pow_63_lt)

/-! ## Monotonicity of `MapToIndex` -/

theorem gridExp_le_of_abs_lt {q : ℚ} {k : Int} (hk : 0 ≤ k) (h : |q| < (2 : ℚ) ^ (k + 1)) :
    gridExp q ≤ k := by
  unfold gridExp
  by_cases h0 : q = 0
  · rw [h0]; simp [ilog2]; omega
  · have := ilog2_lt_of_abs_lt h0 h
    rcases max_cases (ilog2 q) (-1022) with ⟨h3, _⟩ | ⟨h3, _⟩ <;> omega

/-- For a scale of at most 52 the stored factor is a finite value between 0 and
`3 * 2 ^ 51`. -/
theorem scaleFactor_bounded {s : Int} (hs : s ≤ 52) :
    ∃ f : ℚ, (NewLogarithmMapping s).scaleFactor = .fin f ∧ 0 ≤ f ∧ f ≤ 3 * 2 ^ (51 : ℤ) := by
  have hp : (0 : ℚ) < 2 ^ s := by positivity
  have hq : 0 < log2e * 2 ^ s := mul_pos log2e_pos hp
  have h52 : (2 : ℚ) ^ s ≤ 2 ^ (52 : ℤ) := zpow_le_zpow_right₀ (by norm_num) hs
  have hle : log2e * 2 ^ s ≤ ((3 : Int) : ℚ) * 2 ^ (51 : ℤ) := by
    have := log2e_lt
    have h1 : (2 : ℚ) ^ (52 : ℤ) = 2 * 2 ^ (51 : ℤ) := by norm_num
    push_cast
    nlinarith
  have hg : gridExp (log2e * 2 ^ s) ≤ 52 := by
    apply gridExp_le_of_abs_lt (by norm_num)
    rw [abs_of_pos hq]
    have h1 : (2 : ℚ) ^ (52 + 1 : ℤ) = 2 * 2 ^ (52 : ℤ) := by norm_num
    rw [h1]
    have := log2e_lt
    nlinarith
  have h1 := roundQ_le (q := log2e * 2 ^ s) (n := 3) (j := 51) (by omega) hle
  have h2 := roundQ_nonneg hq.le
  refine ⟨roundQ (log2e * 2 ^ s), ?_, h2, by push_cast at h1; exact h1⟩
  show round64 (log2e * 2 ^ s) = _
  apply round64_eq_fin
  rw [abs_of_nonneg h2]
  refine lt_of_le_of_lt h1 ?_
  have : ((3 : Int) : ℚ) * 2 ^ (51 : ℤ) < 2 ^ (63 : ℤ) := by norm_num
  exact this.trans (zpow_lt_zpow_right₀ (by norm_num) (by norm_num))

/-- The floor of the rounded product of a logarithm of magnitude at most 1024 and a factor of
at most `3 * 2 ^ 51` fits `int64`. -/
theorem floor_product_fits {x f : ℚ} (hx : |x| ≤ 1024) (hf0 : 0 ≤ f)
    (hf : f ≤ 3 * 2 ^ (51 : ℤ)) : IsInt64 ⌊roundQ (x * f)⌋ := by
  have hxf : |x * f| ≤ 3 * 2 ^ (61 : ℤ) := by
    rw [abs_mul, abs_of_nonneg hf0]
    have h1 : (3 : ℚ) * 2 ^ (61 : ℤ) = 1024 * (3 * 2 ^ (51 : ℤ)) := by norm_num
    rw [h1]
    exact mul_le_mul hx hf hf0 (by norm_num)
  have hg : gridExp (x * f) ≤ 62 := by
    apply gridExp_le_of_abs_lt (by norm_num)
    refine lt_of_le_of_lt hxf ?_
    norm_num
  rw [abs_le] at hxf
  have h1 := roundQ_le (q := x * f) (n := 3) (j := 61) (by omega) (by push_cast; exact hxf.2)
  have h2 := le_roundQ (q := x * f) (n := -3) (j := 61) (by omega)
    (by push_cast; linarith [hxf.1])
  push_cast at h1 h2
  constructor
  · apply Int.le_floor.mpr
    push_cast
    have : (-(2 : ℚ) ^ 63) ≤ -3 * 2 ^ (61 : ℤ) := by norm_num
    linarith
  · apply Int.floor_lt.mpr
    push_cast
    have : (3 : ℚ) * 2 ^ (61 : ℤ) < 2 ^ 63 := by norm_num
    linarith

/-- Claim C3.  For every scale of at most 52 (the scales at which no index overflows `int64`)
and a `math.Log` that never decreases, `MapToIndex` never decreases: for finite `float64`
values `0 < v1 < v2`, `MapToIndex(v1) ≤ MapToIndex(v2)`. -/
theorem MapToIndex_monotone (P : Platform) (hlog : LogMonotone P) (s : Int) (hs : s ≤ 52)
    (v1 v2 : ℚ) (h1 : IsF64 v1) (h2 : IsF64 v2) (hpos : 0 < v1) (hlt : v1 < v2) :
    MapToIndex P (NewLogarithmMapping s) (.fin v1) ≤
      MapToIndex P (NewLogarithmMapping s) (.fin v2) := by
  obtain ⟨x, y, hx, hy, hxy, hxb, hyb⟩ := hlog v1 v2 h1 h2 hpos hlt.le
  obtain ⟨f, hf, hf0, hfb⟩ := scaleFactor_bounded hs
  rw [MapToIndex_eq_floor P _ _ hx hf (floor_product_fits hxb hf0 hfb),
    MapToIndex_eq_floor P _ _ hy hf (floor_product_fits hyb hf0 hfb)]
  exact Int.floor_mono (roundQ_mono (mul_le_mul_of_nonneg_right hxy hf0))

theorem MapToIndex_monotone_witness :
    MapToIndex tablePlatform (NewLogarithmMapping 0) (.fin ((1 : Int) : ℚ)) ≤
      MapToIndex tablePlatform (NewLogarithmMapping 0) (.fin ((2 : Int) : ℚ)) :=
  MapToIndex_monotone tablePlatform tablePlatform_LogMonotone 0 (by norm_num) _ _
    (isF64_intCast_small (by norm_num)) (isF64_intCast_small (by norm_num)) (by norm_num)
    (by norm_num)

/-! ## The boundaries in the index -/

theorem roundHalfEven_tie_even {n : Int} (h : n % 2 = 0) :
    roundHalfEven ((n : ℚ) + 1 / 2) = n := by
  have hf : ⌊(n : ℚ) + 1 / 2⌋ = n := by
    rw [Int.floor_eq_iff]; constructor <;> linarith
  unfold roundHalfEven
  rw [hf]
  have h1 : ¬ ((n : ℚ) + 1 / 2 - n < 1 / 2) := by norm_num
  have h2 : ¬ ((1 : ℚ) / 2 < (n : ℚ) + 1 / 2 - n) := by norm_num
  rw [if_neg h1, if_neg h2, if_pos h]

/-- The conversion `float64(2 ^ 53 + 1)` is a tie and rounds to the even neighbour
`2 ^ 53`. -/
theorem ofInt64_two_pow_53_succ : ofInt64 (2 ^ 53 + 1) = .fin (2 ^ 53) := by
  have hg : gridExp (((2 ^ 53 + 1 : Int)) : ℚ) = 53 := by
    unfold gridExp
    rw [ilog2_eq (e := 53) (by norm_num [abs_of_pos]) (by norm_num [abs_of_pos])]
    norm_num
  have hr : roundQ (((2 ^ 53 + 1 : Int)) : ℚ) = 2 ^ 53 := by
    unfold roundQ
    rw [ulp_eq, hg]
    have h1 : (((2 ^ 53 + 1 : Int)) : ℚ) / 2 ^ (53 - 52 : ℤ) = ((2 ^ 52 : Int) : ℚ) + 1 / 2 := by
      norm_num
    rw [h1, roundHalfEven_tie_even (by norm_num)]
    norm_num
  unfold ofInt64
  rw [round64_eq_fin (by rw [hr]; norm_num), hr]

/-- Claim C4, refuted as stated.  At scale 0 the indices `2 ^ 53` and `2 ^ 53 + 1` convert
to the same `float64`, so both boundaries are the same call of `math.Exp2` and, on every
runtime, the first is not below the second. -/
theorem LowerBoundary_not_strictly_increasing :
    ¬ ∃ P : Platform, LowerBoundary P (NewLogarithmMapping 0) (2 ^ 53) <
        LowerBoundary P (NewLogarithmMapping 0) (2 ^ 53 + 1) := by
  rintro ⟨P, h⟩
  have h1 : ofInt64 (2 ^ 53) = .fin (2 ^ 53) := by
    unfold ofInt64
    have := round64_eq_self (q := ((2 ^ 53 : Int) : ℚ)) (m := 1) (k := 53) (by norm_num)
      (by norm_num) (by norm_num) (by norm_num)
    rw [this]; norm_num
  unfold LowerBoundary at h
  rw [ofInt64_two_pow_53_succ, h1] at h
  exact F64.lt_irrefl _ h

/-- With a `math.Exp2` that never decreases, `LowerBoundary` never decreases in the index,
at every scale. -/
theorem LowerBoundary_nondecreasing (P : Platform) (hm : Exp2Monotone P) (s i : Int) :
    LowerBoundary P (NewLogarithmMapping s) i ≤ LowerBoundary P (NewLogarithmMapping s) (i + 1) :=
  LowerBoundary_mono P hm _ (by omega)

/-- Claim C5.  `UpperBoundary(i)` is `LowerBoundary(i + 1)` on the same mapper, for every scale
and every index whose successor is an `int64`.  (At the greatest `int64` the sum wraps in Go,
and `UpperBoundary` is by definition `LowerBoundary` of the wrapped sum.) -/
theorem UpperBoundary_eq_LowerBoundary_succ (P : Platform) (s i : Int) (h : IsInt64 (i + 1)) :
    UpperBoundary P (NewLogarithmMapping s) i = LowerBoundary P (NewLogarithmMapping s) (i + 1) :=
  UpperBoundary_eq P _ h.1 h.2

theorem UpperBoundary_eq_LowerBoundary_succ_witness :
    UpperBoundary tablePlatform (NewLogarithmMapping 0) 0 =
      LowerBoundary tablePlatform (NewLogarithmMapping 0) (0 + 1) :=
  UpperBoundary_eq_LowerBoundary_succ tablePlatform 0 0 (by unfold IsInt64; norm_num)

/-! ## Scale doubling -/

theorem ilog2_two_mul {q : ℚ} (h0 : q ≠ 0) : ilog2 (2 * q) = ilog2 q + 1 := by
  apply ilog2_eq
  · rw [abs_mul, zpow_add₀ (by norm_num : (2 : ℚ) ≠ 0), zpow_one, mul_comm]
    have := zpow_ilog2_le h0
    norm_num
    linarith
  · rw [abs_mul, zpow_add₀ (by norm_num : (2 : ℚ) ≠ 0), zpow_one, mul_comm]
    have := lt_zpow_ilog2_succ q
    norm_num
    linarith

/-- Doubling a value of at least `2 ^ (-1022)` in magnitude doubles its rounding. -/
theorem roundQ_two_mul {q : ℚ} (h0 : q ≠ 0) (h : -1022 ≤ ilog2 q) :
    roundQ (2 * q) = 2 * roundQ q := by
  have hg1 : gridExp q = ilog2 q := by unfold gridExp; exact max_eq_left h
  have hg2 : gridExp (2 * q) = ilog2 q + 1 := by
    unfold gridExp; rw [ilog2_two_mul h0]; exact max_eq_left (by omega)
  unfold roundQ
  rw [ulp_eq, ulp_eq, hg1, hg2]
  have hu : (2 : ℚ) ^ (ilog2 q + 1 - 52) = 2 * 2 ^ (ilog2 q - 52) := by
    rw [show ilog2 q + 1 - 52 = (ilog2 q - 52) + 1 by ring,
      zpow_add₀ (by norm_num : (2 : ℚ) ≠ 0), zpow_one]
    ring
  rw [hu]
  have hp : (0 : ℚ) < 2 ^ (ilog2 q - 52) := by positivity
  have hd : 2 * q / (2 * 2 ^ (ilog2 q - 52)) = q / 2 ^ (ilog2 q - 52) := by
    field_simp
    ring
  rw [hd]
  ring

theorem roundQ_two_mul_intCast (i : Int) : roundQ ((2 * i : Int) : ℚ) = 2 * roundQ (i : ℚ) := by
  by_cases h0 : i = 0
  · subst h0; simp [roundQ_zero]
  · push_cast
    apply roundQ_two_mul (by exact_mod_cast h0)
    have h1 : (1 : ℚ) ≤ |(i : ℚ)| := by
      have : (1 : Int) ≤ |i| := Int.one_le_abs h0
      exact_mod_cast this
    have h2 : (2 : ℚ) ^ (0 : ℤ) ≤ |(i : ℚ)| := by simpa using h1
    have hpos : 0 < |(i : ℚ)| := lt_of_lt_of_le (by norm_num) h1
    have := (Int.zpow_le_iff_le_log (b := 2) (by norm_num) hpos (x := 0)).mp (by simpa using h1)
    unfold ilog2
    omega

/-- Claim C7.  Scale doubling: `LowerBoundary(i)` at scale `s` is `LowerBoundary(2 * i)` at
scale `s + 1`, for every scale and every index `i` whose double is an `int64`; both are the
same call of `math.Exp2`. -/
theorem LowerBoundary_scale_doubling (P : Platform) (s i : Int) (hs1 : -2 ^ 63 < s)
    (hs2 : s + 1 < 2 ^ 63) (hi : IsInt64 (2 * i)) :
    LowerBoundary P (NewLogarithmMapping s) i =
      LowerBoundary P (NewLogarithmMapping (s + 1)) (2 * i) := by
  have hi1 : IsInt64 i := by unfold IsInt64 at hi ⊢; omega
  have hw1 : wrapInt64 (-s) = -s := wrapInt64_eq_self ⟨by omega, by omega⟩
  have hw2 : wrapInt64 (-(s + 1)) = -s - 1 := by
    rw [wrapInt64_eq_self ⟨by omega, by omega⟩]; ring
  unfold LowerBoundary
  rw [ofInt64_eq_fin hi1, ofInt64_eq_fin hi, roundQ_two_mul_intCast]
  show P.Exp2 (round64 (roundQ i * 2 ^ wrapInt64 (-s))) =
    P.Exp2 (round64 (2 * roundQ i * 2 ^ wrapInt64 (-(s + 1))))
  rw [hw1, hw2]
  congr 2
  rw [zpow_sub₀ (by norm_num : (2 : ℚ) ≠ 0), zpow_one]
  ring

theorem LowerBoundary_scale_doubling_witness :
    LowerBoundary tablePlatform (NewLogarithmMapping 2) 3 =
      LowerBoundary tablePlatform (NewLogarithmMapping (2 + 1)) (2 * 3) :=
  LowerBoundary_scale_doubling tablePlatform 2 3 (by norm_num) (by norm_num)
    (by unfold IsInt64; norm_num)

/-! ## The concrete scenarios -/

theorem gridExp_le_zero_of_abs_lt_two {q : ℚ} (h : |q| < 2) : gridExp q ≤ 0 :=
  gridExp_le_of_abs_lt le_rfl (by simpa using h)

theorem isInt64_small {n : Int} (h : |n| < 2 ^ 53) : IsInt64 n := by
  unfold IsInt64
  rw [abs_lt] at h
  omega

/-- Claim C8.  On the mapper of scale 0, on every runtime whose `math.Log` returns `0` at `1`,
at `2` a value from the `float64` nearest to `ln 2` (which lies below `ln 2`) to `0.75`, at
`0.5` a value from the opposite of that `float64` to `-0.5`, and at `1.5` a value from `0` to
`0.5`, and whose `math.Exp2` is exact at `0` and `1`, as in Go: `MapToIndex(1.0) = 0`,
`MapToIndex(2.0) = 1`, `MapToIndex(0.5) = -1`, `MapToIndex(1.5) = 0`, `LowerBoundary(0) = 1.0`
and `UpperBoundary(0) = 2.0`. -/
theorem scale_zero_scenarios (P : Platform) (hLog1 : P.Log (.fin 1) = .fin 0)
    (hLog2 : LogBetween P 2 ln2f (3 / 4)) (hLogHalf : LogBetween P (1 / 2) (-ln2f) (-(1 / 2)))
    (hLog3Half : LogBetween P (3 / 2) 0 (1 / 2)) (hExp0 : P.Exp2 (.fin 0) = .fin 1)
    (hExp1 : P.Exp2 (.fin 1) = .fin 2) :
    MapToIndex P (NewLogarithmMapping 0) (.fin 1) = 0 ∧
      MapToIndex P (NewLogarithmMapping 0) (.fin 2) = 1 ∧
      MapToIndex P (NewLogarithmMapping 0) (.fin (1 / 2)) = -1 ∧
      MapToIndex P (NewLogarithmMapping 0) (.fin (3 / 2)) = 0 ∧
      LowerBoundary P (NewLogarithmMapping 0) 0 = .fin 1 ∧
      UpperBoundary P (NewLogarithmMapping 0) 0 = .fin 2 := by
  obtain ⟨x2, hx2, hx2a, hx2b⟩ := hLog2
  obtain ⟨xh, hxh, hxha, hxhb⟩ := hLogHalf
  obtain ⟨x3, hx3, hx3a, hx3b⟩ := hLog3Half
  have hc := log2e_pos
  have hc2 := log2e_lt
  have f2 : ⌊roundQ (x2 * log2e)⌋ = 1 := by
    apply floor_roundQ_eq_of_between hc.le hx2a hx2b
    · rw [roundQ_ln2f_mul_log2e]; norm_num
    · have hq : (3 : ℚ) / 4 * log2e ≤ ((3 : Int) : ℚ) * 2 ^ (-1 : ℤ) := by norm_num; linarith
      have hg := gridExp_le_zero_of_abs_lt_two (q := 3 / 4 * log2e)
        (by rw [abs_of_pos (by positivity)]; linarith)
      have := roundQ_le (j := -1) (by omega) hq
      norm_num at this ⊢
      linarith
  have fh : ⌊roundQ (xh * log2e)⌋ = -1 := by
    apply floor_roundQ_eq_of_between hc.le hxha hxhb
    · rw [neg_mul, roundQ_neg, roundQ_ln2f_mul_log2e]; norm_num
    · have hq : -((1 : ℚ) / 2) * log2e ≤ ((-1 : Int) : ℚ) * 2 ^ (-1 : ℤ) := by
        norm_num; unfold log2e; norm_num
      have hg := gridExp_le_zero_of_abs_lt_two (q := -((1 : ℚ) / 2) * log2e)
        (by rw [abs_lt]; constructor <;> linarith)
      have := roundQ_le (j := -1) (by omega) hq
      norm_num at this ⊢
      linarith
  have f3 : ⌊roundQ (x3 * log2e)⌋ = 0 := by
    apply floor_roundQ_eq_of_between hc.le hx3a hx3b
    · rw [zero_mul, roundQ_zero]; norm_num
    · have hq : (1 : ℚ) / 2 * log2e ≤ ((3 : Int) : ℚ) * 2 ^ (-2 : ℤ) := by norm_num; linarith
      have hg := gridExp_le_zero_of_abs_lt_two (q := 1 / 2 * log2e)
        (by rw [abs_of_pos (by positivity)]; linarith)
      have := roundQ_le (j := -2) (by omega) hq
      norm_num at this ⊢
      linarith
  refine ⟨?_, ?_, ?_, ?_, ?_, ?_⟩
  · rw [MapToIndex_eq_floor P _ _ hLog1 scaleFactor_zero] <;>
      simp [roundQ_zero, IsInt64]
  · rw [MapToIndex_eq_floor P _ _ hx2 scaleFactor_zero] <;> simp [f2, IsInt64]
  · rw [MapToIndex_eq_floor P _ _ hxh scaleFactor_zero] <;> simp [fh, IsInt64]
  · rw [MapToIndex_eq_floor P _ _ hx3 scaleFactor_zero] <;> simp [f3, IsInt64]
  · rw [LowerBoundary_scale_zero P (by norm_num)]
    simpa using hExp0
  · rw [UpperBoundary_eq P _ (by norm_num) (by norm_num),
      LowerBoundary_scale_zero P (by norm_num)]
    simpa using hExp1

theorem tablePlatform_Exp2_zero : tablePlatform.Exp2 (.fin 0) = .fin 1 := by
  rw [tablePlatform_Exp2_fin]
  have := round64_intCast_small (i := 1) (by norm_num)
  simpa using this

theorem tablePlatform_Exp2_one : tablePlatform.Exp2 (.fin 1) = .fin 2 := by
  rw [tablePlatform_Exp2_fin]
  have := round64_intCast_small (i := 2) (by norm_num)
  simpa using this

theorem tablePlatform_LogBetween_two : LogBetween tablePlatform 2 ln2f (3 / 4) :=
  ⟨ln2f, by simp [tablePlatform]; norm_num, le_rfl, by unfold ln2f; norm_num⟩

theorem scale_zero_scenarios_witness :
    MapToIndex tablePlatform (NewLogarithmMapping 0) (.fin 1) = 0 ∧
      MapToIndex tablePlatform (NewLogarithmMapping 0) (.fin 2) = 1 ∧
      MapToIndex tablePlatform (NewLogarithmMapping 0) (.fin (1 / 2)) = -1 ∧
      MapToIndex tablePlatform (NewLogarithmMapping 0) (.fin (3 / 2)) = 0 ∧
      LowerBoundary tablePlatform (NewLogarithmMapping 0) 0 = .fin 1 ∧
      UpperBoundary tablePlatform (NewLogarithmMapping 0) 0 = .fin 2 :=
  scale_zero_scenarios tablePlatform (by simp [tablePlatform]; norm_num)
    tablePlatform_LogBetween_two
    ⟨-ln2f, by simp [tablePlatform]; norm_num, le_rfl, by unfold ln2f; norm_num⟩
    ⟨ln1p5f, by simp [tablePlatform]; norm_num, by unfold ln1p5f; norm_num,
      by unfold ln1p5f; norm_num⟩
    tablePlatform_Exp2_zero tablePlatform_Exp2_one

theorem roundQ_ln2f_mul_log2e_mul_four : roundQ (ln2f * (log2e * 2 ^ (2 : ℤ))) = 4 := by
  have h := roundQ_eq_of_near (q := ln2f * (log2e * 2 ^ (2 : ℤ))) (e := 1) (m := 2 ^ 53)
    (by norm_num)
    (by unfold ln2f log2e; norm_num [abs_of_pos]) (by unfold ln2f log2e; norm_num [abs_of_pos])
    (by unfold ln2f log2e; norm_num [abs_lt])
  rw [h]
  norm_num

/-- Claim C9.  On the mapper of scale 2, on every runtime whose `math.Log` returns at `2` a
value from the `float64` nearest to `ln 2` (which lies below `ln 2`) to `0.75` and whose
`math.Exp2` is exact at `1`, as in Go: `LowerBoundary(4) = 2.0` and `MapToIndex(2.0) = 4`. -/
theorem scale_two_scenario (P : Platform) (hLog2 : LogBetween P 2 ln2f (3 / 4))
    (hExp1 : P.Exp2 (.fin 1) = .fin 2) :
    LowerBoundary P (NewLogarithmMapping 2) 4 = .fin 2 ∧
      MapToIndex P (NewLogarithmMapping 2) (.fin 2) = 4 := by
  obtain ⟨x, hx, hxa, hxb⟩ := hLog2
  constructor
  · unfold LowerBoundary ofInt64
    have h4 := round64_intCast_small (i := 4) (by norm_num)
    rw [h4]
    show P.Exp2 (round64 (((4 : Int) : ℚ) * 2 ^ wrapInt64 (-2))) = _
    have hw : wrapInt64 (-2) = -2 := by unfold wrapInt64; norm_num
    have h1 := round64_intCast_small (i := 1) (by norm_num)
    have hv : ((4 : Int) : ℚ) * 2 ^ (-2 : ℤ) = ((1 : Int) : ℚ) := by norm_num
    rw [hw, hv, h1]
    simpa using hExp1
  · have hf := scaleFactor_exact (s := 2) (by norm_num) (by norm_num)
    have hc := log2e_pos
    have hc2 := log2e_lt
    have f2 : ⌊roundQ (x * (log2e * 2 ^ (2 : ℤ)))⌋ = 4 := by
      apply floor_roundQ_eq_of_between (by positivity) hxa hxb
      · rw [roundQ_ln2f_mul_log2e_mul_four]; norm_num
      · have hq : (3 : ℚ) / 4 * (log2e * 2 ^ (2 : ℤ)) ≤ ((9 : Int) : ℚ) * 2 ^ (-1 : ℤ) := by
          norm_num; linarith
        have hg : gridExp (3 / 4 * (log2e * 2 ^ (2 : ℤ))) ≤ 2 :=
          gridExp_le_of_abs_lt (by norm_num)
            (by rw [abs_of_pos (by positivity)]; norm_num; linarith)
        have := roundQ_le (j := -1) (by omega) hq
        norm_num at this ⊢
        linarith
    rw [MapToIndex_eq_floor P _ _ hx hf] <;> simp [f2, IsInt64]

theorem scale_two_scenario_witness :
    LowerBoundary tablePlatform (NewLogarithmMapping 2) 4 = .fin 2 ∧
      MapToIndex tablePlatform (NewLogarithmMapping 2) (.fin 2) = 4 :=
  scale_two_scenario tablePlatform tablePlatform_LogBetween_two tablePlatform_Exp2_one

/-! ## The scale factor and `log2(e)` -/

/-- Bounds on `ln 2` to eighteen digits, from sixty terms of the series of `log (1 - x)` at
`x = 1 / 2`. -/
theorem log_two_bounds :
    (693147180559945308 / 10 ^ 18 : ℝ) < Real.log 2 ∧
      Real.log 2 < (693147180559945311 / 10 ^ 18 : ℝ) := by
  have t : |(2⁻¹ : ℝ)| = 2⁻¹ := by rw [abs_of_pos]; norm_num
  have z := Real.abs_log_sub_add_sum_range_le (show |(2⁻¹ : ℝ)| < 1 by rw [t]; norm_num) 60
  rw [t] at z
  norm_num1 at z
  rw [one_div (2 : ℝ), Real.log_inv, ← sub_eq_add_neg, abs_le] at z
  constructor <;> linarith [z.1, z.2]

/-- The `float64` `ln2f` is the one nearest to `ln 2`, and lies below it. -/
theorem ln2f_nearest : ((ln2f : ℚ) : ℝ) < Real.log 2 ∧
    Real.log 2 - ((ln2f : ℚ) : ℝ) ≤ 2 ^ (-54 : ℤ) := by
  obtain ⟨h1, h2⟩ := log_two_bounds
  have hc : ((ln2f : ℚ) : ℝ) = 6243314768165359 / 9007199254740992 := by
    unfold ln2f; push_cast; rfl
  have h54 : (2 : ℝ) ^ (-54 : ℤ) = 1 / 18014398509481984 := by rw [zpow_neg]; norm_num
  rw [hc, h54]
  constructor <;> linarith

/-- The `float64` `ln8f` is the one nearest to `ln 8`, and lies below it. -/
theorem ln8f_nearest : ((ln8f : ℚ) : ℝ) < Real.log 8 ∧
    Real.log 8 - ((ln8f : ℚ) : ℝ) ≤ 2 ^ (-52 : ℤ) := by
  obtain ⟨h1, h2⟩ := log_two_bounds
  have h8 : Real.log 8 = 3 * Real.log 2 := by
    rw [show (8 : ℝ) = 2 ^ 3 by norm_num, Real.log_pow]; norm_num
  have hc : ((ln8f : ℚ) : ℝ) = 4682486076124019 / 2251799813685248 := by
    unfold ln8f; push_cast; rfl
  have h52 : (2 : ℝ) ^ (-52 : ℤ) = 1 / 4503599627370496 := by rw [zpow_neg]; norm_num
  rw [hc, h52, h8]
  constructor <;> linarith

theorem logb_two_exp_one : Real.logb 2 (Real.exp 1) = 1 / Real.log 2 := by
  rw [Real.logb, Real.log_exp]

/-- The `float64` constant `Log2E` lies below `log2(e)`, by at most `2 ^ (-53)`. -/
theorem log2e_near : ((log2e : ℚ) : ℝ) < Real.logb 2 (Real.exp 1) ∧
    Real.logb 2 (Real.exp 1) - ((log2e : ℚ) : ℝ) ≤ 2 ^ (-53 : ℤ) := by
  obtain ⟨h1, h2⟩ := log_two_bounds
  have hpos : 0 < Real.log 2 := by linarith
  rw [logb_two_exp_one]
  have hc : ((log2e : ℚ) : ℝ) = 3248660424278399 / 2251799813685248 := by
    unfold log2e; push_cast; rfl
  rw [hc]
  constructor
  · rw [lt_div_iff₀ hpos]
    nlinarith
  · rw [sub_le_iff_le_add, div_le_iff₀ hpos]
    have h53 : (2 : ℝ) ^ (-53 : ℤ) = 1 / 9007199254740992 := by
      rw [zpow_neg]; norm_num
    rw [h53]
    nlinarith

/-- Claim C10, refuted as stated.  At scale 0 the stored factor is the `float64` constant
`Log2E`, a rational number below `log2(e)`: it is not `log2(e) * 2 ^ 0`. -/
theorem scaleFactor_ne_real_log2e :
    ¬ ∃ f : ℚ, (NewLogarithmMapping 0).scaleFactor = .fin f ∧
        (f : ℝ) = Real.logb 2 (Real.exp 1) * 2 ^ (0 : ℤ) := by
  rintro ⟨f, hf, h⟩
  rw [scaleFactor_zero] at hf
  injection hf with hf
  rw [← hf, zpow_zero, mul_one] at h
  exact log2e_near.1.ne h

/-- Claim C10, amended.  `NewLogarithmMapping(s)` stores the scale `s`, and for
`-1023 ≤ s ≤ 1023` the stored factor is exactly the `float64` constant `Log2E` times `2 ^ s`;
it differs from `log2(e) * 2 ^ s` by at most `2 ^ (s - 53)`, so that `ln(v)` times the factor
differs from the logarithm of `v` to the base `2 ^ (2 ^ (-s))` by at most
`2 ^ (s - 53) * |ln(v)|`. -/
theorem scaleFactor_near_real_log2e (s : Int) (hs1 : -1023 ≤ s) (hs2 : s ≤ 1023) :
    (NewLogarithmMapping s).scale = s ∧
      (NewLogarithmMapping s).scaleFactor = .fin (log2e * 2 ^ s) ∧
      |((log2e * 2 ^ s : ℚ) : ℝ) - Real.logb 2 (Real.exp 1) * 2 ^ s| ≤ 2 ^ (s - 53) ∧
      ∀ v : ℝ, 0 < v →
        |Real.log v * ((log2e * 2 ^ s : ℚ) : ℝ) - Real.logb ((2 : ℝ) ^ ((2 : ℝ) ^ (-s))) v| ≤
          2 ^ (s - 53) * |Real.log v| := by
  obtain ⟨h1, h2⟩ := log2e_near
  have hp : (0 : ℝ) < 2 ^ s := by positivity
  have hsplit : (2 : ℝ) ^ (s - 53) = 2 ^ (-53 : ℤ) * 2 ^ s := by
    rw [← zpow_add₀ (by norm_num : (2 : ℝ) ≠ 0)]; congr 1; ring
  have hd : |((log2e * 2 ^ s : ℚ) : ℝ) - Real.logb 2 (Real.exp 1) * 2 ^ s| ≤ 2 ^ (s - 53) := by
    have : ((log2e * 2 ^ s : ℚ) : ℝ) - Real.logb 2 (Real.exp 1) * 2 ^ s =
        -((Real.logb 2 (Real.exp 1) - ((log2e : ℚ) : ℝ)) * 2 ^ s) := by
      push_cast; ring
    rw [this, abs_neg, abs_mul, abs_of_pos hp, abs_of_pos (by linarith), hsplit]
    exact mul_le_mul_of_nonneg_right h2 hp.le
  refine ⟨rfl, scaleFactor_exact hs1 hs2, hd, ?_⟩
  intro v _
  have hlog2 : 0 < Real.log 2 := Real.log_pos (by norm_num)
  have hb : Real.logb ((2 : ℝ) ^ ((2 : ℝ) ^ (-s))) v =
      Real.log v * (Real.logb 2 (Real.exp 1) * 2 ^ s) := by
    rw [Real.logb, Real.log_rpow (by norm_num), logb_two_exp_one, zpow_neg]
    field_simp
  rw [hb, ← mul_sub, abs_mul, mul_comm]
  exact mul_le_mul_of_nonneg_right hd (abs_nonneg _)

theorem scaleFactor_near_real_log2e_witness :
    (NewLogarithmMapping 0).scale = 0 ∧
      (NewLogarithmMapping 0).scaleFactor = .fin (log2e * 2 ^ (0 : ℤ)) ∧
      |((log2e * 2 ^ (0 : ℤ) : ℚ) : ℝ) - Real.logb 2 (Real.exp 1) * 2 ^ (0 : ℤ)| ≤
        2 ^ ((0 : ℤ) - 53) ∧
      ∀ v : ℝ, 0 < v →
        |Real.log v * ((log2e * 2 ^ (0 : ℤ) : ℚ) : ℝ) -
            Real.logb ((2 : ℝ) ^ ((2 : ℝ) ^ (-(0 : ℤ)))) v| ≤
          2 ^ ((0 : ℤ) - 53) * |Real.log v| :=
  scaleFactor_near_real_log2e 0 (by norm_num) (by norm_num)

/-! ## The round trip through a boundary -/

/-- A value within the relative error `ε ≤ 1/2` of `A > 0` is positive and its logarithm is
within `2 * ε` of `ln A`. -/
theorem log_near {A y ε : ℝ} (hA : 0 < A) (hε0 : 0 ≤ ε) (hε : ε ≤ 1 / 2)
    (hy : |y - A| ≤ ε * A) : 0 < y ∧ |Real.log y - Real.log A| ≤ 2 * ε := by
  rw [abs_le] at hy
  have hypos : 0 < y := by nlinarith
  refine ⟨hypos, ?_⟩
  have hr : 0 < y / A := div_pos hypos hA
  have hlog : Real.log y - Real.log A = Real.log (y / A) := by
    rw [Real.log_div hypos.ne' hA.ne']
  rw [hlog, abs_le]
  have hr1 : y / A ≤ 1 + ε := by rw [div_le_iff₀ hA]; nlinarith
  have hr2 : 1 - ε ≤ y / A := by rw [le_div_iff₀ hA]; nlinarith
  constructor
  · have h1 := Real.one_sub_inv_le_log_of_pos hr
    have h2 : (y / A)⁻¹ ≤ (1 - ε)⁻¹ := inv_anti₀ (by linarith) hr2
    have h3 : (1 - ε)⁻¹ ≤ 1 + 2 * ε := by
      rw [inv_le_iff_one_le_mul₀ (by linarith)]
      nlinarith
    linarith
  · have h1 := Real.log_le_sub_one_of_pos hr
    linarith

/-- The error budget of the round trip, over the reals: with `L` within `2 * ε` of
`(i / S) * t`, `z` within the relative error `ε` of `L`, and `c * t` within `ε / 2` below 1, the
product `z * (c * S)` is within one half of `i`. -/
theorem real_round_trip {i S c t L z ε : ℝ} (hε : ε = 1 / 4503599627370496)
    (hS0 : 0 < S) (hS : S ≤ 2 ^ 48) (hi : |i| ≤ 2 ^ 49)
    (ht0 : 0 < t) (hc0 : 0 < c) (hc3 : c ≤ 3 / 2) (hc1 : c * t ≤ 1) (hc2 : 1 - ε / 2 ≤ c * t)
    (hL : |L - i / S * t| ≤ 2 * ε) (hz : |z - L| ≤ ε * |L|) :
    |z * (c * S) - i| ≤ 1 / 2 := by
  have hε0 : 0 < ε := by rw [hε]; norm_num
  have hI0 : 0 ≤ |i| := abs_nonneg i
  -- the logarithm is bounded
  have hLabs : |L| ≤ |i| / S * t + 2 * ε := by
    have h1 : |L| ≤ |L - i / S * t| + |i / S * t| := by
      have := abs_add (L - i / S * t) (i / S * t)
      simpa using this
    have h2 : |i / S * t| = |i| / S * t := by
      rw [abs_mul, abs_div, abs_of_pos hS0, abs_of_pos ht0]
    linarith
  -- the three error terms
  have hsplit : z * (c * S) - i = (z - L) * (c * S) + (L - i / S * t) * (c * S) + i * (c * t - 1) := by
    field_simp
    ring
  have hcS : 0 < c * S := mul_pos hc0 hS0
  have h1 : |(z - L) * (c * S)| ≤ ε * |i| + 3 * ε ^ 2 * S := by
    rw [abs_mul, abs_of_pos hcS]
    have ha : |z - L| * (c * S) ≤ ε * (|i| / S * t + 2 * ε) * (c * S) :=
      mul_le_mul_of_nonneg_right (hz.trans (mul_le_mul_of_nonneg_left hLabs hε0.le)) hcS.le
    have hb : ε * (|i| / S * t + 2 * ε) * (c * S) = ε * |i| * (c * t) + 2 * ε ^ 2 * (c * S) := by
      field_simp
      ring
    have hd : ε * |i| * (c * t) ≤ ε * |i| :=
      mul_le_of_le_one_right (mul_nonneg hε0.le hI0) hc1
    have he : 2 * ε ^ 2 * (c * S) ≤ 3 * ε ^ 2 * S := by
      have : c * S ≤ 3 / 2 * S := mul_le_mul_of_nonneg_right hc3 hS0.le
      nlinarith [sq_nonneg ε]
    linarith
  have h2 : |(L - i / S * t) * (c * S)| ≤ 3 * ε * S := by
    rw [abs_mul, abs_of_pos hcS]
    have ha : |L - i / S * t| * (c * S) ≤ 2 * ε * (c * S) := mul_le_mul_of_nonneg_right hL hcS.le
    have : c * S ≤ 3 / 2 * S := mul_le_mul_of_nonneg_right hc3 hS0.le
    nlinarith
  have h3 : |i * (c * t - 1)| ≤ |i| * (ε / 2) := by
    rw [abs_mul]
    apply mul_le_mul_of_nonneg_left _ hI0
    rw [abs_le]
    constructor <;> linarith
  rw [hsplit]
  have h4 := abs_add ((z - L) * (c * S) + (L - i / S * t) * (c * S)) (i * (c * t - 1))
  have h5 := abs_add ((z - L) * (c * S)) ((L - i / S * t) * (c * S))
  have h6 : ε * |i| ≤ ε * 2 ^ 49 := mul_le_mul_of_nonneg_left hi hε0.le
  have h7 : 3 * ε * S ≤ 3 * ε * 2 ^ 48 := mul_le_mul_of_nonneg_left hS (by positivity)
  have h8 : 3 * ε ^ 2 * S ≤ 3 * ε ^ 2 * 2 ^ 48 := mul_le_mul_of_nonneg_left hS (by positivity)
  have h9 : |i| * (ε / 2) ≤ 2 ^ 49 * (ε / 2) := mul_le_mul_of_nonneg_right hi (by positivity)
  have h10 : ε * 2 ^ 49 + 3 * ε ^ 2 * 2 ^ 48 + 3 * ε * 2 ^ 48 + 2 ^ 49 * (ε / 2) ≤ 1 / 2 := by
    rw [hε]; norm_num
  linarith

/-- A positive finite `float64` is at least `2 ^ (-1074)`. -/
theorem le_of_isF64_pos {y : ℚ} (hy : IsF64 y) (h0 : 0 < y) : (2 : ℚ) ^ (-1074 : ℤ) ≤ y := by
  by_contra hlt
  push_neg at hlt
  have hg : gridExp y = -1022 := by
    unfold gridExp
    apply max_eq_right
    have := ilog2_lt_of_abs_lt h0.ne' (by rw [abs_of_pos h0]; exact hlt)
    omega
  have hu : ulp y = 2 ^ (-1074 : ℤ) := by rw [ulp_eq, hg]; norm_num
  have hp : (0 : ℚ) < 2 ^ (-1074 : ℤ) := by positivity
  have h1 : 0 < y / ulp y := div_pos h0 (ulp_pos y)
  have h2 : y / ulp y < 1 := by rw [hu, div_lt_one hp]; exact hlt
  have hfl : ⌊y / ulp y⌋ = 0 := by
    rw [Int.floor_eq_iff]; constructor <;> push_cast <;> linarith
  have hr := hy.1
  unfold roundQ at hr
  rcases roundHalfEven_cases (y / ulp y) with h | h
  · rw [h, hfl] at hr
    simp at hr
    exact h0.ne hr
  · rw [h, hfl, hu] at hr
    simp at hr
    rw [← hr] at hlt
    simp at hlt

/-- An index whose boundary is a finite `float64` within one unit in the last place of
`2 ^ (i / 2 ^ s)` satisfies `|i| / 2 ^ s ≤ 1075`. -/
theorem abs_index_le_of_boundary {s i : Int} {y : ℚ} (hy : IsF64 y)
    (hacc : |(y : ℝ) - (2 : ℝ) ^ ((i : ℝ) / 2 ^ s)| ≤
      2 ^ (-52 : ℤ) * (2 : ℝ) ^ ((i : ℝ) / 2 ^ s)) :
    |(i : ℝ)| ≤ 1075 * 2 ^ s := by
  have hε : (2 : ℝ) ^ (-52 : ℤ) = 1 / 4503599627370496 := by rw [zpow_neg]; norm_num
  have hS : (0 : ℝ) < 2 ^ s := by positivity
  set x : ℝ := (i : ℝ) / 2 ^ s with hx
  have hA : (0 : ℝ) < (2 : ℝ) ^ x := Real.rpow_pos_of_pos (by norm_num) _
  rw [hε, abs_le] at hacc
  have hy0 : (0 : ℝ) < (y : ℝ) := by nlinarith
  have hy0q : (0 : ℚ) < y := by exact_mod_cast hy0
  have hlo : ((2 : ℝ) ^ (-1074 : ℤ)) ≤ (y : ℝ) := by
    have := (Rat.cast_le (K := ℝ)).mpr (le_of_isF64_pos hy hy0q)
    push_cast at this
    exact this
  have hhi : (y : ℝ) < (2 : ℝ) ^ (1024 : ℤ) := by
    have := (Rat.cast_lt (K := ℝ)).mpr hy.2
    rw [abs_of_pos hy0q] at this
    push_cast at this
    exact this
  have h1 : (2 : ℝ) ^ x < (2 : ℝ) ^ (1025 : ℝ) := by
    have e : (2 : ℝ) ^ (1025 : ℝ) = 2 * (2 : ℝ) ^ (1024 : ℤ) := by
      rw [show (1025 : ℝ) = ((1025 : ℤ) : ℝ) by norm_num, Real.rpow_intCast,
        show (1025 : ℤ) = 1024 + 1 by norm_num, zpow_add₀ (by norm_num : (2 : ℝ) ≠ 0), zpow_one]
      ring
    rw [e]
    nlinarith
  have h2 : (2 : ℝ) ^ (-1075 : ℝ) < (2 : ℝ) ^ x := by
    have e : (2 : ℝ) ^ (-1074 : ℤ) = 2 * (2 : ℝ) ^ (-1075 : ℝ) := by
      rw [show (-1075 : ℝ) = ((-1075 : ℤ) : ℝ) by norm_num, Real.rpow_intCast,
        show (-1074 : ℤ) = -1075 + 1 by norm_num, zpow_add₀ (by norm_num : (2 : ℝ) ≠ 0), zpow_one]
      ring
    rw [e] at hlo
    have hB : (0 : ℝ) < (2 : ℝ) ^ (-1075 : ℝ) := Real.rpow_pos_of_pos (by norm_num) _
    nlinarith
  have h3 : x < 1025 := (Real.rpow_lt_rpow_left_iff (by norm_num)).mp h1
  have h4 : -1075 < x := (Real.rpow_lt_rpow_left_iff (by norm_num)).mp h2
  rw [hx, div_lt_iff₀ hS] at h3
  rw [hx, lt_div_iff₀ hS] at h4
  rw [abs_le]
  constructor <;> nlinarith

/-- Claim C6, amended.  Approximate round trip.  For every scale `-1023 ≤ s ≤ 38` and every
index `i` whose boundary `LowerBoundary(i)` is a finite `float64` within a relative error of
`2 ^ (-52)` (one unit in the last place) of `2 ^ (i / 2 ^ s)`, which leaves out the boundaries
that fall between two subnormal values, and at which `math.Log` is accurate to one unit in the
last place: `MapToIndex(LowerBoundary(i))` is `i` or `i - 1`. -/
theorem MapToIndex_LowerBoundary_round_trip (P : Platform) (s i : Int) (y z : ℚ)
    (hs1 : -1023 ≤ s) (hs2 : s ≤ 38) (hB : BoundaryWithin P s i y) (hL : LogWithin P y z) :
    MapToIndex P (NewLogarithmMapping s) (LowerBoundary P (NewLogarithmMapping s) i) = i ∨
      MapToIndex P (NewLogarithmMapping s) (LowerBoundary P (NewLogarithmMapping s) i) =
        i - 1 := by
  obtain ⟨hLB, hy, hE2⟩ := hB
  obtain ⟨hL1, hL2⟩ := hL
  have hS0 : (0 : ℝ) < 2 ^ s := by positivity
  have hS : (2 : ℝ) ^ s ≤ 2 ^ 48 := by
    have : (2 : ℝ) ^ s ≤ 2 ^ (48 : ℤ) := zpow_le_zpow_right₀ (by norm_num) (by omega)
    exact_mod_cast this
  -- the index is small
  have hiR : |(i : ℝ)| ≤ 2 ^ 49 := by
    have h1 := abs_index_le_of_boundary hy hE2
    have h2 : (2 : ℝ) ^ s ≤ 2 ^ (38 : ℤ) := zpow_le_zpow_right₀ (by norm_num) hs2
    have h3 : (1075 : ℝ) * 2 ^ (38 : ℤ) ≤ 2 ^ 49 := by norm_num
    nlinarith
  have hi : |i| ≤ 2 ^ 49 := by
    have : ((|i| : Int) : ℝ) ≤ ((2 ^ 49 : Int) : ℝ) := by
      rw [Int.cast_abs]; refine hiR.trans (le_of_eq ?_); norm_num
    exact_mod_cast this
  have hiQ : |(i : ℚ)| ≤ 2 ^ (49 : ℤ) := by
    have : ((|i| : Int) : ℚ) ≤ ((2 ^ 49 : Int) : ℚ) := by exact_mod_cast hi
    rw [Int.cast_abs] at this
    refine this.trans (le_of_eq ?_)
    norm_num
  have hF := scaleFactor_exact (s := s) (by omega) (by omega)
  -- the error budget over the reals
  obtain ⟨hn1, hn2⟩ := log2e_near
  rw [logb_two_exp_one] at hn1 hn2
  have ht0 : 0 < Real.log 2 := Real.log_pos (by norm_num)
  have ht1 : Real.log 2 < 1 := log_two_bounds.2.trans (by norm_num)
  have hc0 : (0 : ℝ) < ((log2e : ℚ) : ℝ) := by exact_mod_cast log2e_pos
  have hc3 : ((log2e : ℚ) : ℝ) ≤ 3 / 2 := by
    have := (Rat.cast_le (K := ℝ)).mpr log2e_lt.le
    push_cast at this
    exact this
  have hε : (2 : ℝ) ^ (-52 : ℤ) = 1 / 4503599627370496 := by rw [zpow_neg]; norm_num
  have h53 : (2 : ℝ) ^ (-53 : ℤ) = 1 / 9007199254740992 := by rw [zpow_neg]; norm_num
  have hc1 : ((log2e : ℚ) : ℝ) * Real.log 2 ≤ 1 := by
    have := (lt_div_iff₀ ht0).mp hn1
    exact this.le
  have hc2 : 1 - (2 : ℝ) ^ (-52 : ℤ) / 2 ≤ ((log2e : ℚ) : ℝ) * Real.log 2 := by
    have h1 : 1 / Real.log 2 ≤ ((log2e : ℚ) : ℝ) + 2 ^ (-53 : ℤ) := by linarith
    have h2 := (div_le_iff₀ ht0).mp h1
    rw [hε]
    rw [h53] at h2
    nlinarith
  have hA : (0 : ℝ) < (2 : ℝ) ^ ((i : ℝ) / 2 ^ s) := Real.rpow_pos_of_pos (by norm_num) _
  obtain ⟨_, hlog⟩ := log_near hA (by positivity) (by rw [hε]; norm_num) hE2
  rw [Real.log_rpow (by norm_num)] at hlog
  have hreal := real_round_trip hε hS0 hS hiR ht0 hc0 hc3 hc1 hc2 hlog hL2
  -- back to the rationals
  have hq : |z * (log2e * 2 ^ s) - (i : ℚ)| ≤ 1 / 2 := by
    have : ((|z * (log2e * 2 ^ s) - (i : ℚ)| : ℚ) : ℝ) ≤ ((1 / 2 : ℚ) : ℝ) := by
      push_cast
      exact hreal
    exact_mod_cast this
  rw [abs_le] at hq hiQ
  have h49 : (2 : ℚ) ^ (49 : ℤ) = 562949953421312 := by norm_num
  have hg : gridExp (z * (log2e * 2 ^ s)) ≤ 51 := by
    apply gridExp_le_of_abs_lt (by norm_num)
    rw [abs_lt]
    have : (2 : ℚ) ^ (51 + 1 : ℤ) = 4503599627370496 := by norm_num
    rw [this]
    constructor <;> linarith [hq.1, hq.2, hiQ.1, hiQ.2]
  have hlo := le_roundQ (q := z * (log2e * 2 ^ s)) (n := 2 * i - 1) (j := -1) (by omega)
    (by push_cast; rw [zpow_neg, zpow_one]; linarith [hq.1])
  have hhi := roundQ_le (q := z * (log2e * 2 ^ s)) (n := 2 * i + 1) (j := -1) (by omega)
    (by push_cast; rw [zpow_neg, zpow_one]; linarith [hq.2])
  push_cast at hlo hhi
  rw [zpow_neg, zpow_one] at hlo hhi
  have hf1 : i - 1 ≤ ⌊roundQ (z * (log2e * 2 ^ s))⌋ := by
    apply Int.le_floor.mpr
    push_cast
    linarith
  have hf2 : ⌊roundQ (z * (log2e * 2 ^ s))⌋ < i + 1 := by
    apply Int.floor_lt.mpr
    push_cast
    linarith
  have hfit : IsInt64 ⌊roundQ (z * (log2e * 2 ^ s))⌋ := by
    unfold IsInt64
    rw [abs_le] at hi
    omega
  rw [hLB, MapToIndex_eq_floor P _ _ hL1 hF hfit]
  omega

theorem MapToIndex_LowerBoundary_round_trip_witness :
    MapToIndex tablePlatform (NewLogarithmMapping 0)
        (LowerBoundary tablePlatform (NewLogarithmMapping 0) 1) = 1 ∨
      MapToIndex tablePlatform (NewLogarithmMapping 0)
        (LowerBoundary tablePlatform (NewLogarithmMapping 0) 1) = 1 - 1 :=
  MapToIndex_LowerBoundary_round_trip tablePlatform 0 1 2 ln2f (by norm_num) (by norm_num)
    ⟨by
      rw [LowerBoundary_scale_zero tablePlatform (by norm_num)]
      simpa using tablePlatform_Exp2_one,
     by simpa using isF64_intCast_small (i := 2) (by norm_num),
     by norm_num⟩
    ⟨by simp [tablePlatform]; norm_num, by
      obtain ⟨h1, h2⟩ := log_two_bounds
      have hpos : 0 < Real.log 2 := by linarith
      have hε : (2 : ℝ) ^ (-52 : ℤ) = 1 / 4503599627370496 := by rw [zpow_neg]; norm_num
      have hc : ((ln2f : ℚ) : ℝ) = 6243314768165359 / 9007199254740992 := by
        unfold ln2f; push_cast; rfl
      rw [hε, hc]
      push_cast
      rw [abs_of_pos hpos, abs_le]
      constructor <;> nlinarith⟩

/-! ## Strict order of the boundaries inside the supported range -/

/-- Claim C4, amended.  For every scale of at most 38 and every index `i` such that
`LowerBoundary(i)` and `LowerBoundary(i + 1)` are finite `float64`, each within one unit in
the last place of its boundary `2 ^ (i / 2 ^ s)`: `LowerBoundary(i) < LowerBoundary(i + 1)`. -/
theorem LowerBoundary_strictly_increasing_in_range (P : Platform) (s i : Int) (y1 y2 : ℚ)
    (hs : s ≤ 38) (h1 : BoundaryWithin P s i y1) (h2 : BoundaryWithin P s (i + 1) y2) :
    LowerBoundary P (NewLogarithmMapping s) i < LowerBoundary P (NewLogarithmMapping s) (i + 1) := by
  obtain ⟨hL1, _, ha1⟩ := h1
  obtain ⟨hL2, _, ha2⟩ := h2
  rw [hL1, hL2, F64.fin_lt_fin]
  have hε : (2 : ℝ) ^ (-52 : ℤ) = 1 / 4503599627370496 := by rw [zpow_neg]; norm_num
  have hS0 : (0 : ℝ) < 2 ^ s := by positivity
  have hS : (2 : ℝ) ^ s ≤ 2 ^ (38 : ℤ) := zpow_le_zpow_right₀ (by norm_num) hs
  have h38 : (2 : ℝ) ^ (38 : ℤ) = 274877906944 := by norm_num
  set B : ℝ := (2 : ℝ) ^ ((i : ℝ) / 2 ^ s) with hB
  have hB0 : 0 < B := Real.rpow_pos_of_pos (by norm_num) _
  -- the ratio of two consecutive boundaries
  have hr : (2 : ℝ) ^ (((i + 1 : Int) : ℝ) / 2 ^ s) = B * (2 : ℝ) ^ ((1 : ℝ) / 2 ^ s) := by
    rw [hB, ← Real.rpow_add (by norm_num)]
    congr 1
    push_cast
    ring
  have hln : (693147180559945308 / 10 ^ 18 : ℝ) < Real.log 2 := log_two_bounds.1
  have hquot : 1 + 1 / 2 ^ (40 : ℕ) ≤ (2 : ℝ) ^ ((1 : ℝ) / 2 ^ s) := by
    rw [Real.rpow_def_of_pos (by norm_num)]
    have h3 := Real.add_one_le_exp (Real.log 2 * (1 / 2 ^ s))
    have h4 : (1 : ℝ) / 2 ^ (38 : ℤ) ≤ 1 / 2 ^ s := one_div_le_one_div_of_le hS0 hS
    rw [h38] at h4
    have h5 : (1 : ℝ) / 2 ^ (40 : ℕ) ≤ Real.log 2 * (1 / 2 ^ s) := by
      have : (1 : ℝ) / 2 ^ (40 : ℕ) ≤ 693147180559945308 / 10 ^ 18 * (1 / 274877906944) := by
        norm_num
      nlinarith
    linarith
  rw [hr, hε] at ha2
  rw [hε] at ha1
  rw [abs_le] at ha1 ha2
  have hlt : (y1 : ℝ) < (y2 : ℝ) := by
    have hR0 : 0 < B * (2 : ℝ) ^ ((1 : ℝ) / 2 ^ s) :=
      mul_pos hB0 (Real.rpow_pos_of_pos (by norm_num) _)
    have hBr : B * (1 + 1 / 2 ^ (40 : ℕ)) ≤ B * (2 : ℝ) ^ ((1 : ℝ) / 2 ^ s) :=
      mul_le_mul_of_nonneg_left hquot hB0.le
    nlinarith [ha1.2, ha2.1]
  exact_mod_cast hlt

theorem LowerBoundary_strictly_increasing_in_range_witness :
    LowerBoundary tablePlatform (NewLogarithmMapping 0) 0 <
      LowerBoundary tablePlatform (NewLogarithmMapping 0) (0 + 1) :=
  LowerBoundary_strictly_increasing_in_range tablePlatform 0 0 1 2 (by norm_num)
    ⟨by
      rw [LowerBoundary_scale_zero tablePlatform (by norm_num)]
      simpa using tablePlatform_Exp2_zero,
     by simpa using isF64_intCast_small (i := 1) (by norm_num),
     by norm_num⟩
    ⟨by
      rw [LowerBoundary_scale_zero tablePlatform (by norm_num)]
      simpa using tablePlatform_Exp2_one,
     by simpa using isF64_intCast_small (i := 2) (by norm_num),
     by norm_num⟩

/-! ## `MapToIndex` and the real index -/

/-- The floor of a rounded value of magnitude below `2 ^ 51` is within one half below and one
above the exact value. -/
theorem floor_roundQ_bounds {q : ℚ} (h : |q| < 2 ^ (51 : ℤ)) :
    (⌊roundQ q⌋ : ℚ) - 1 / 2 ≤ q ∧ q < ⌊roundQ q⌋ + 1 := by
  have hg : gridExp q ≤ 50 := gridExp_le_of_abs_lt (by norm_num) (by simpa using h)
  constructor
  · by_contra hcon
    push_neg at hcon
    have h1 := roundQ_le (q := q) (n := 2 * ⌊roundQ q⌋ - 1) (j := -1) (by omega)
      (by push_cast; rw [zpow_neg, zpow_one]; linarith)
    push_cast at h1
    rw [zpow_neg, zpow_one] at h1
    have h2 := Int.floor_le (roundQ q)
    linarith
  · by_contra hcon
    push_neg at hcon
    have h1 := le_roundQ (q := q) (n := ⌊roundQ q⌋ + 1) (j := 0) (by omega)
      (by push_cast; rw [zpow_zero, mul_one]; exact hcon)
    push_cast at h1
    rw [zpow_zero, mul_one] at h1
    have h2 := Int.lt_floor_add_one (roundQ q)
    linarith

/-- The logarithm of a positive finite `float64` lies between `-1074 * ln 2` and
`1024 * ln 2`. -/
theorem log_bounds_of_isF64 {v : ℚ} (hv : IsF64 v) (h0 : 0 < v) :
    -1074 * Real.log 2 ≤ Real.log (v : ℝ) ∧ Real.log (v : ℝ) ≤ 1024 * Real.log 2 := by
  have hv0 : (0 : ℝ) < (v : ℝ) := by exact_mod_cast h0
  have hlo : ((2 : ℝ) ^ (-1074 : ℤ)) ≤ (v : ℝ) := by
    have := (Rat.cast_le (K := ℝ)).mpr (le_of_isF64_pos hv h0)
    push_cast at this
    exact this
  have hhi : (v : ℝ) ≤ (2 : ℝ) ^ (1024 : ℤ) := by
    have := (Rat.cast_lt (K := ℝ)).mpr hv.2
    rw [abs_of_pos h0] at this
    push_cast at this
    exact this.le
  constructor
  · have := Real.log_le_log (by positivity) hlo
    rw [Real.log_zpow] at this
    push_cast at this
    linarith
  · have := Real.log_le_log hv0 hhi
    rw [Real.log_zpow] at this
    push_cast at this
    linarith

/-- For a scale `-1023 ≤ s ≤ 38` and a positive finite `float64` `v` at which `math.Log` is
accurate to one unit in the last place, the exact product of `math.Log(v)` and the scale
factor is within one eighth of the real index `ln(v) / ln(2) * 2 ^ s`. -/
theorem product_near_real_index (P : Platform) {s : Int} {v z : ℚ} (hs2 : s ≤ 38)
    (hv : IsF64 v) (h0 : 0 < v) (hL : LogWithin P v z) :
    |((z * (log2e * 2 ^ s) : ℚ) : ℝ) - Real.log (v : ℝ) / Real.log 2 * 2 ^ s| ≤ 1 / 8 := by
  obtain ⟨_, hL2⟩ := hL
  obtain ⟨hb1, hb2⟩ := log_bounds_of_isF64 hv h0
  obtain ⟨hn1, hn2⟩ := log2e_near
  rw [logb_two_exp_one] at hn1 hn2
  set L := Real.log (v : ℝ) with hLdef
  set t := Real.log 2 with ht
  set c := ((log2e : ℚ) : ℝ) with hc
  have ht0 : 0 < t := Real.log_pos (by norm_num)
  have ht1 : t < 1 := log_two_bounds.2.trans (by norm_num)
  have hc0 : 0 < c := by rw [hc]; exact_mod_cast log2e_pos
  have hε : (2 : ℝ) ^ (-52 : ℤ) = 1 / 4503599627370496 := by rw [zpow_neg]; norm_num
  have h53 : (2 : ℝ) ^ (-53 : ℤ) = 1 / 9007199254740992 := by rw [zpow_neg]; norm_num
  rw [hε] at hL2
  rw [h53] at hn2
  have hS0 : (0 : ℝ) < 2 ^ s := by positivity
  have hS : (2 : ℝ) ^ s ≤ 274877906944 := by
    have : (2 : ℝ) ^ s ≤ 2 ^ (38 : ℤ) := zpow_le_zpow_right₀ (by norm_num) hs2
    refine this.trans (le_of_eq ?_)
    norm_num
  have hct : c * t ≤ 1 := ((lt_div_iff₀ ht0).mp hn1).le
  have hct2 : 1 - 1 / 9007199254740992 ≤ c * t := by
    have h1 : 1 / t ≤ c + 1 / 9007199254740992 := by linarith
    have h2 := (div_le_iff₀ ht0).mp h1
    nlinarith
  have hLabs : |L| ≤ 1074 * t := by rw [abs_le]; constructor <;> linarith
  have hcast : ((z * (log2e * 2 ^ s) : ℚ) : ℝ) = (z : ℝ) * (c * 2 ^ s) := by push_cast; rfl
  rw [hcast]
  have hsplit : (z : ℝ) * (c * 2 ^ s) - L / t * 2 ^ s =
      ((z : ℝ) - L) * (c * 2 ^ s) + L / t * (c * t - 1) * 2 ^ s := by
    field_simp
    ring
  rw [hsplit]
  have hcS : 0 < c * 2 ^ s := mul_pos hc0 hS0
  have hLt : |L / t| ≤ 1074 := by
    rw [abs_div, abs_of_pos ht0, div_le_iff₀ ht0]; exact hLabs
  have hLc : |L| * c ≤ 1074 := by
    have : |L| * c ≤ 1074 * t * c := mul_le_mul_of_nonneg_right hLabs hc0.le
    nlinarith
  have h1 : |((z : ℝ) - L) * (c * 2 ^ s)| ≤ 1 / 4503599627370496 * 1074 * 2 ^ s := by
    rw [abs_mul, abs_of_pos hcS]
    have ha : |(z : ℝ) - L| * (c * 2 ^ s) ≤ 1 / 4503599627370496 * |L| * (c * 2 ^ s) :=
      mul_le_mul_of_nonneg_right hL2 hcS.le
    have hb : 1 / 4503599627370496 * |L| * (c * 2 ^ s) =
        1 / 4503599627370496 * (|L| * c) * 2 ^ s := by ring
    have hd : 1 / 4503599627370496 * (|L| * c) * 2 ^ s ≤ 1 / 4503599627370496 * 1074 * 2 ^ s := by
      apply mul_le_mul_of_nonneg_right _ hS0.le
      exact mul_le_mul_of_nonneg_left hLc (by norm_num)
    linarith
  have h2 : |L / t * (c * t - 1) * 2 ^ s| ≤ 1074 * (1 / 9007199254740992) * 2 ^ s := by
    rw [abs_mul, abs_mul, abs_of_pos hS0]
    apply mul_le_mul_of_nonneg_right _ hS0.le
    have : |c * t - 1| ≤ 1 / 9007199254740992 := by
      rw [abs_le]; constructor <;> linarith
    exact mul_le_mul hLt this (abs_nonneg _) (by norm_num)
  have h3 := abs_add (((z : ℝ) - L) * (c * 2 ^ s)) (L / t * (c * t - 1) * 2 ^ s)
  nlinarith

/-- For a scale `-1023 ≤ s ≤ 38` and a positive finite `float64` `v` at which `math.Log` is
accurate to one unit in the last place, `MapToIndex(v)` is the floor of the `float64` product,
and the real index `ln(v) / ln(2) * 2 ^ s` lies from `MapToIndex(v) - 5/8` to
`MapToIndex(v) + 9/8`. -/
theorem MapToIndex_near_real_index (P : Platform) (s : Int) (v z : ℚ)
    (hs1 : -1023 ≤ s) (hs2 : s ≤ 38) (hv : IsF64 v) (h0 : 0 < v) (hL : LogWithin P v z) :
    MapToIndex P (NewLogarithmMapping s) (.fin v) = ⌊roundQ (z * (log2e * 2 ^ s))⌋ ∧
      |MapToIndex P (NewLogarithmMapping s) (.fin v)| < 2 ^ 50 ∧
      ((MapToIndex P (NewLogarithmMapping s) (.fin v) : Int) : ℝ) - 5 / 8 ≤
        Real.log (v : ℝ) / Real.log 2 * 2 ^ s ∧
      Real.log (v : ℝ) / Real.log 2 * 2 ^ s <
        ((MapToIndex P (NewLogarithmMapping s) (.fin v) : Int) : ℝ) + 9 / 8 := by
  have hnear := product_near_real_index P hs2 hv h0 hL
  obtain ⟨hb1, hb2⟩ := log_bounds_of_isF64 hv h0
  set q : ℚ := z * (log2e * 2 ^ s) with hq
  set L := Real.log (v : ℝ) with hLdef
  set t := Real.log 2 with ht
  have ht0 : 0 < t := Real.log_pos (by norm_num)
  have hS0 : (0 : ℝ) < 2 ^ s := by positivity
  have hS : (2 : ℝ) ^ s ≤ 274877906944 := by
    have : (2 : ℝ) ^ s ≤ 2 ^ (38 : ℤ) := zpow_le_zpow_right₀ (by norm_num) hs2
    refine this.trans (le_of_eq ?_)
    norm_num
  -- the real index and the product are small
  have hl : |L / t * 2 ^ s| ≤ 1074 * 274877906944 := by
    rw [abs_mul, abs_of_pos hS0, abs_div, abs_of_pos ht0]
    have h1 : |L| / t ≤ 1074 := by
      rw [div_le_iff₀ ht0, abs_le]; constructor <;> linarith
    exact mul_le_mul h1 hS (by positivity) (by norm_num)
  have hqR : |(q : ℝ)| < 2 ^ (49 : ℤ) := by
    have h1 := abs_sub_abs_le_abs_sub (q : ℝ) (L / t * 2 ^ s)
    have h2 : (1074 : ℝ) * 274877906944 + 1 / 8 < 2 ^ (49 : ℤ) := by norm_num
    linarith
  have hqQ : |q| < 2 ^ (49 : ℤ) := by
    have : ((|q| : ℚ) : ℝ) < (((2 : ℚ) ^ (49 : ℤ) : ℚ) : ℝ) := by push_cast; exact hqR
    exact_mod_cast this
  have hq51 : |q| < 2 ^ (51 : ℤ) :=
    hqQ.trans (zpow_lt_zpow_right₀ (by norm_num) (by norm_num))
  obtain ⟨hf1, hf2⟩ := floor_roundQ_bounds hq51
  -- the index fits
  have h49 : (2 : ℚ) ^ (49 : ℤ) = 562949953421312 := by norm_num
  have hi1 : -2 ^ 50 < ⌊roundQ q⌋ := by
    have : ((-2 ^ 50 : Int) : ℚ) < (⌊roundQ q⌋ : ℚ) := by
      rw [abs_lt, h49] at hqQ
      push_cast
      linarith [hqQ.1]
    exact_mod_cast this
  have hi2 : ⌊roundQ q⌋ < 2 ^ 50 := by
    have : (⌊roundQ q⌋ : ℚ) < ((2 ^ 50 : Int) : ℚ) := by
      rw [abs_lt, h49] at hqQ
      push_cast
      linarith [hqQ.2]
    exact_mod_cast this
  have hfit : IsInt64 ⌊roundQ q⌋ := by unfold IsInt64; omega
  have hmap : MapToIndex P (NewLogarithmMapping s) (.fin v) = ⌊roundQ q⌋ :=
    MapToIndex_eq_floor P _ _ hL.1 (scaleFactor_exact hs1 (by omega)) hfit
  rw [hmap]
  have hf1R : ((⌊roundQ q⌋ : Int) : ℝ) - 1 / 2 ≤ (q : ℝ) := by
    have := (Rat.cast_le (K := ℝ)).mpr hf1
    push_cast at this
    exact this
  have hf2R : (q : ℝ) < ((⌊roundQ q⌋ : Int) : ℝ) + 1 := by
    have := (Rat.cast_lt (K := ℝ)).mpr hf2
    push_cast at this
    exact this
  rw [abs_le] at hnear
  refine ⟨rfl, by rw [abs_lt]; omega, by linarith [hnear.2], by linarith [hnear.1]⟩

/-- For a scale `-1023 ≤ s ≤ 38`, on a runtime accurate to one unit in the last place at the
calls involved, `MapToIndex(v)` names the bucket of the positive finite `float64` `v` or one
of its two neighbours: `v` lies from `LowerBoundary(MapToIndex(v) - 1)` to
`UpperBoundary(MapToIndex(v) + 1)`. -/
theorem MapToIndex_names_bucket_or_neighbour (P : Platform) (s : Int) (v z y1 y2 : ℚ)
    (hs1 : -1023 ≤ s) (hs2 : s ≤ 38) (hv : IsF64 v) (h0 : 0 < v) (hL : LogWithin P v z)
    (hB1 : BoundaryWithin P s (MapToIndex P (NewLogarithmMapping s) (.fin v) - 1) y1)
    (hB2 : BoundaryWithin P s (MapToIndex P (NewLogarithmMapping s) (.fin v) + 2) y2) :
    LowerBoundary P (NewLogarithmMapping s) (MapToIndex P (NewLogarithmMapping s) (.fin v) - 1) ≤
        .fin v ∧
      .fin v <
        UpperBoundary P (NewLogarithmMapping s)
          (MapToIndex P (NewLogarithmMapping s) (.fin v) + 1) := by
  obtain ⟨_, hib, hlo', hhi'⟩ := MapToIndex_near_real_index P s v z hs1 hs2 hv h0 hL
  have hv0 : (0 : ℝ) < (v : ℝ) := by exact_mod_cast h0
  set i : Int := MapToIndex P (NewLogarithmMapping s) (.fin v) with hi
  rw [abs_lt] at hib
  set L := Real.log (v : ℝ) with hLdef
  set t := Real.log 2 with ht
  have ht0 : 0 < t := Real.log_pos (by norm_num)
  have ht2 : (693147180559945308 / 10 ^ 18 : ℝ) < t := log_two_bounds.1
  have hε : (2 : ℝ) ^ (-52 : ℤ) = 1 / 4503599627370496 := by rw [zpow_neg]; norm_num
  have hS0 : (0 : ℝ) < 2 ^ s := by positivity
  have hS : (2 : ℝ) ^ s ≤ 274877906944 := by
    have : (2 : ℝ) ^ s ≤ 2 ^ (38 : ℤ) := zpow_le_zpow_right₀ (by norm_num) hs2
    refine this.trans (le_of_eq ?_)
    norm_num
  -- the logarithm of `v` in units of `ln 2 / 2 ^ s`
  set w := t / 2 ^ s with hw
  have hw0 : 0 < w := div_pos ht0 hS0
  have hwlo : (1 : ℝ) / 2 ^ (39 : ℕ) ≤ w := by
    rw [hw, le_div_iff₀ hS0]
    have : (1 : ℝ) / 2 ^ (39 : ℕ) * 274877906944 = 1 / 2 := by norm_num
    nlinarith
  have hLw : L = L / t * 2 ^ s * w := by
    rw [hw]; field_simp
  have hlo : ((i : ℝ) - 5 / 8) * w ≤ L := by
    rw [hLw]
    exact mul_le_mul_of_nonneg_right hlo' hw0.le
  have hhi : L < ((i : ℝ) + 9 / 8) * w := by
    rw [hLw]
    exact mul_lt_mul_of_pos_right hhi' hw0
  obtain ⟨hLB1, _, ha1⟩ := hB1
  obtain ⟨hLB2, _, ha2⟩ := hB2
  have hA1 : (0 : ℝ) < (2 : ℝ) ^ (((i - 1 : Int) : ℝ) / 2 ^ s) :=
    Real.rpow_pos_of_pos (by norm_num) _
  have hA2 : (0 : ℝ) < (2 : ℝ) ^ (((i + 2 : Int) : ℝ) / 2 ^ s) :=
    Real.rpow_pos_of_pos (by norm_num) _
  obtain ⟨hy1, hl1⟩ := log_near hA1 (by positivity) (by rw [hε]; norm_num) ha1
  obtain ⟨hy2, hl2⟩ := log_near hA2 (by positivity) (by rw [hε]; norm_num) ha2
  rw [Real.log_rpow (by norm_num), hε, abs_le] at hl1 hl2
  have e1 : ((i - 1 : Int) : ℝ) / 2 ^ s * Real.log 2 = ((i : ℝ) - 1) * w := by
    rw [hw]; push_cast; field_simp
  have e2 : ((i + 2 : Int) : ℝ) / 2 ^ s * Real.log 2 = ((i : ℝ) + 2) * w := by
    rw [hw]; push_cast; field_simp
  rw [e1] at hl1
  rw [e2] at hl2
  constructor
  · rw [hLB1, F64.fin_le_fin]
    have : (y1 : ℝ) ≤ (v : ℝ) := by
      rw [← Real.log_le_log_iff hy1 hv0]
      have h39 : (1 : ℝ) / 2 ^ (39 : ℕ) = 1 / 549755813888 := by norm_num
      rw [h39] at hwlo
      have e3 : ((i : ℝ) - 1) * w = (i : ℝ) * w - w := by ring
      have e4 : ((i : ℝ) - 5 / 8) * w = (i : ℝ) * w - 5 / 8 * w := by ring
      rw [e3] at hl1
      rw [e4] at hlo
      linarith [hl1.2]
    exact_mod_cast this
  · rw [UpperBoundary_eq P _ (by omega) (by omega), show i + 1 + 1 = i + 2 by ring, hLB2,
      F64.fin_lt_fin]
    have : (v : ℝ) < (y2 : ℝ) := by
      rw [← Real.log_lt_log_iff hv0 hy2]
      have h39 : (1 : ℝ) / 2 ^ (39 : ℕ) = 1 / 549755813888 := by norm_num
      rw [h39] at hwlo
      have e3 : ((i : ℝ) + 2) * w = (i : ℝ) * w + 2 * w := by ring
      have e4 : ((i : ℝ) + 9 / 8) * w = (i : ℝ) * w + 9 / 8 * w := by ring
      rw [e3] at hl2
      rw [e4] at hhi
      linarith [hl2.1]
    exact_mod_cast this

/-- Claim C2, amended.  For a scale `-1023 ≤ s ≤ 38`, a `math.Exp2` that never decreases and
saturates, and a positive finite `float64` `v` at which the runtime is accurate to one unit in
the last place: `v` lies in exactly one bucket `j`, from `LowerBoundary(j)` to
`UpperBoundary(j)`, and `MapToIndex(v)` is `j - 1`, `j` or `j + 1`. -/
theorem buckets_tile_and_MapToIndex_names_neighbour (P : Platform) (hm : Exp2Monotone P)
    (hsat : Exp2Saturates P) (s : Int) (v z y1 y2 : ℚ) (hs1 : -1023 ≤ s) (hs2 : s ≤ 38)
    (hv : IsF64 v) (h0 : 0 < v) (hL : LogWithin P v z)
    (hB1 : BoundaryWithin P s (MapToIndex P (NewLogarithmMapping s) (.fin v) - 1) y1)
    (hB2 : BoundaryWithin P s (MapToIndex P (NewLogarithmMapping s) (.fin v) + 2) y2) :
    ∃ j : Int, (IsInt64 j ∧ LowerBoundary P (NewLogarithmMapping s) j ≤ .fin v ∧
        .fin v < UpperBoundary P (NewLogarithmMapping s) j) ∧
      (∀ k : Int, IsInt64 k → LowerBoundary P (NewLogarithmMapping s) k ≤ .fin v →
        .fin v < UpperBoundary P (NewLogarithmMapping s) k → k = j) ∧
      MapToIndex P (NewLogarithmMapping s) (.fin v) - 1 ≤ j ∧
      j ≤ MapToIndex P (NewLogarithmMapping s) (.fin v) + 1 := by
  obtain ⟨j, ⟨hj, hj1, hj2⟩, huniq⟩ :=
    buckets_tile_positive_values P hm hsat s (by omega) (by omega) v h0
  obtain ⟨hn1, hn2⟩ :=
    MapToIndex_names_bucket_or_neighbour P s v z y1 y2 hs1 hs2 hv h0 hL hB1 hB2
  have hr := MapToIndex_range P (NewLogarithmMapping s) (.fin v)
  set m := MapToIndex P (NewLogarithmMapping s) (.fin v) with hmdef
  have hmax : j ≠ 2 ^ 63 - 1 := by
    intro h
    rw [h, LowerBoundary_max_eq_inf P hsat (by omega) (by omega)] at hj1
    simp at hj1
  refine ⟨j, ⟨hj, hj1, hj2⟩, fun k hk hk1 hk2 => huniq k ⟨hk, hk1, hk2⟩, ?_, ?_⟩
  · by_contra hcon
    push_neg at hcon
    have hmono := LowerBoundary_mono P hm (NewLogarithmMapping s) (show j + 1 ≤ m - 1 by omega)
    have hj' := hj
    unfold IsInt64 at hj'
    rw [UpperBoundary_eq P _ (by omega) (by omega)] at hj2
    exact F64.not_le_and_lt ⟨F64.le_of_le_of_le hmono hn1, hj2⟩
  · by_contra hcon
    push_neg at hcon
    have hmono := LowerBoundary_mono P hm (NewLogarithmMapping s) (show m + 1 + 1 ≤ j by omega)
    unfold IsInt64 at hj hr
    rw [UpperBoundary_eq P _ (by omega) (by omega)] at hn2
    exact F64.not_le_and_lt ⟨F64.le_of_le_of_le hmono hj1, hn2⟩

theorem tablePlatform_LogWithin_two : LogWithin tablePlatform 2 ln2f := by
  refine ⟨by simp [tablePlatform]; norm_num, ?_⟩
  obtain ⟨h1, h2⟩ := log_two_bounds
  have hpos : 0 < Real.log 2 := by linarith
  have hε : (2 : ℝ) ^ (-52 : ℤ) = 1 / 4503599627370496 := by rw [zpow_neg]; norm_num
  have hc : ((ln2f : ℚ) : ℝ) = 6243314768165359 / 9007199254740992 := by
    unfold ln2f; push_cast; rfl
  rw [hε, hc]
  push_cast
  rw [abs_of_pos hpos, abs_le]
  constructor <;> nlinarith

theorem tablePlatform_MapToIndex_two :
    MapToIndex tablePlatform (NewLogarithmMapping 0) (.fin 2) = 1 := by
  rw [MapToIndex_eq_floor tablePlatform _ _ tablePlatform_LogWithin_two.1 scaleFactor_zero] <;>
    simp [roundQ_ln2f_mul_log2e, IsInt64]

theorem tablePlatform_BoundaryWithin (i : Int) (h0 : 0 ≤ i) (h1 : i ≤ 10) :
    BoundaryWithin tablePlatform 0 i (2 ^ i) := by
  have hi : |i| < 2 ^ 53 := by rw [abs_of_nonneg h0]; omega
  have hp : (2 : ℚ) ^ i = (((2 ^ i.toNat : ℕ) : Int) : ℚ) := by
    push_cast
    rw [← zpow_natCast, Int.toNat_of_nonneg h0]
  have hsmall : |((2 ^ i.toNat : ℕ) : Int)| < 2 ^ 53 := by
    rw [abs_of_nonneg (by positivity)]
    have : i.toNat ≤ 10 := by omega
    have h2 : (2 : ℕ) ^ i.toNat ≤ 2 ^ 10 := Nat.pow_le_pow_right (by norm_num) this
    have h3 : ((2 ^ i.toNat : ℕ) : Int) ≤ ((2 ^ 10 : ℕ) : Int) := by exact_mod_cast h2
    omega
  refine ⟨?_, ?_, ?_⟩
  · rw [LowerBoundary_scale_zero tablePlatform hi, tablePlatform_Exp2_fin, Int.floor_intCast, hp]
    exact round64_intCast_small hsmall
  · rw [hp]; exact isF64_intCast_small hsmall
  · have : ((2 ^ i : ℚ) : ℝ) = (2 : ℝ) ^ ((i : ℝ) / 2 ^ (0 : ℤ)) := by
      rw [zpow_zero, div_one, Real.rpow_intCast]
      push_cast
      rfl
    rw [this, sub_self, abs_zero]
    positivity

theorem buckets_tile_and_MapToIndex_names_neighbour_witness :
    ∃ j : Int, (IsInt64 j ∧ LowerBoundary tablePlatform (NewLogarithmMapping 0) j ≤ .fin 2 ∧
        .fin 2 < UpperBoundary tablePlatform (NewLogarithmMapping 0) j) ∧
      (∀ k : Int, IsInt64 k → LowerBoundary tablePlatform (NewLogarithmMapping 0) k ≤ .fin 2 →
        .fin 2 < UpperBoundary tablePlatform (NewLogarithmMapping 0) k → k = j) ∧
      MapToIndex tablePlatform (NewLogarithmMapping 0) (.fin 2) - 1 ≤ j ∧
      j ≤ MapToIndex tablePlatform (NewLogarithmMapping 0) (.fin 2) + 1 :=
  buckets_tile_and_MapToIndex_names_neighbour tablePlatform tablePlatform_Exp2Monotone
    tablePlatform_Exp2Saturates 0 2 ln2f (2 ^ (0 : ℤ)) (2 ^ (3 : ℤ)) (by norm_num) (by norm_num)
    (by simpa using isF64_intCast_small (i := 2) (by norm_num)) (by norm_num)
    tablePlatform_LogWithin_two
    (by
      rw [tablePlatform_MapToIndex_two]
      exact tablePlatform_BoundaryWithin 0 (by norm_num) (by norm_num))
    (by
      rw [tablePlatform_MapToIndex_two]
      exact tablePlatform_BoundaryWithin 3 (by norm_num) (by norm_num))

/-- Claim C1, amended.  For a scale `-1023 ≤ s ≤ 38` and a positive finite `float64` `v` at
which `math.Log` is accurate to one unit in the last place: the stored factor is exactly the
`float64` constant `Log2E` times `2 ^ s`, `MapToIndex(v)` is the greatest integer below the
`float64` product of `math.Log(v)` and the factor, and it differs by at most one from the
greatest integer below `ln(v) * log2(e) * 2 ^ s`. -/
theorem MapToIndex_within_one_of_real_floor (P : Platform) (s : Int) (v z : ℚ)
    (hs1 : -1023 ≤ s) (hs2 : s ≤ 38) (hv : IsF64 v) (h0 : 0 < v) (hL : LogWithin P v z) :
    (NewLogarithmMapping s).scaleFactor = .fin (log2e * 2 ^ s) ∧
      MapToIndex P (NewLogarithmMapping s) (.fin v) = ⌊roundQ (z * (log2e * 2 ^ s))⌋ ∧
      |MapToIndex P (NewLogarithmMapping s) (.fin v) -
          ⌊Real.log (v : ℝ) * Real.logb 2 (Real.exp 1) * 2 ^ s⌋| ≤ 1 := by
  obtain ⟨hmap, _, hlo, hhi⟩ := MapToIndex_near_real_index P s v z hs1 hs2 hv h0 hL
  refine ⟨scaleFactor_exact hs1 (by omega), hmap, ?_⟩
  have he : Real.log (v : ℝ) * Real.logb 2 (Real.exp 1) * 2 ^ s =
      Real.log (v : ℝ) / Real.log 2 * 2 ^ s := by
    rw [logb_two_exp_one]; ring
  rw [he]
  set i := MapToIndex P (NewLogarithmMapping s) (.fin v)
  set l := Real.log (v : ℝ) / Real.log 2 * 2 ^ s
  have h1 : i - 1 ≤ ⌊l⌋ := by
    apply Int.le_floor.mpr
    push_cast
    linarith
  have h2 : ⌊l⌋ < i + 2 := by
    apply Int.floor_lt.mpr
    push_cast
    linarith
  rw [abs_le]
  constructor <;> omega

theorem MapToIndex_within_one_of_real_floor_witness :
    (NewLogarithmMapping 0).scaleFactor = .fin (log2e * 2 ^ (0 : ℤ)) ∧
      MapToIndex tablePlatform (NewLogarithmMapping 0) (.fin 2) =
        ⌊roundQ (ln2f * (log2e * 2 ^ (0 : ℤ)))⌋ ∧
      |MapToIndex tablePlatform (NewLogarithmMapping 0) (.fin 2) -
          ⌊Real.log ((2 : ℚ) : ℝ) * Real.logb 2 (Real.exp 1) * 2 ^ (0 : ℤ)⌋| ≤ 1 :=
  MapToIndex_within_one_of_real_floor tablePlatform 0 2 ln2f (by norm_num) (by norm_num)
    (by simpa using isF64_intCast_small (i := 2) (by norm_num)) (by norm_num)
    tablePlatform_LogWithin_two

/-! ## The argument of `math.Exp2` -/

/-- For a scale `-971 ≤ s ≤ 1074` and an index of magnitude below `2 ^ 53`, the conversion of
the index and its scaling by `2 ^ (-s)` are exact: `LowerBoundary(i)` is `math.Exp2` at
`i * 2 ^ (-s)`. -/
theorem LowerBoundary_eq_Exp2 (P : Platform) {s i : Int} (hs1 : -971 ≤ s) (hs2 : s ≤ 1074)
    (hi : |i| < 2 ^ 53) :
    LowerBoundary P (NewLogarithmMapping s) i = P.Exp2 (.fin ((i : ℚ) * 2 ^ (-s))) := by
  unfold LowerBoundary ofInt64
  rw [round64_intCast_small hi]
  show P.Exp2 (round64 ((i : ℚ) * 2 ^ wrapInt64 (-s))) = _
  have hw : wrapInt64 (-s) = -s := wrapInt64_eq_self ⟨by omega, by omega⟩
  rw [hw]
  congr 1
  refine round64_eq_self (m := i) (k := -s) hi (by omega) rfl ?_
  have h1 : |(i : ℚ)| < 2 ^ (53 : ℤ) := by
    have : |(i : ℚ)| < ((2 ^ 53 : Int) : ℚ) := by exact_mod_cast hi
    refine this.trans_le (le_of_eq ?_)
    norm_num
  have h2 : (2 : ℚ) ^ (-s) ≤ 2 ^ (971 : ℤ) := zpow_le_zpow_right₀ (by norm_num) (by omega)
  have h3 : (0 : ℚ) < 2 ^ (-s) := by positivity
  rw [abs_mul, abs_of_pos h3]
  have h4 : (2 : ℚ) ^ (1024 : ℤ) = 2 ^ (53 : ℤ) * 2 ^ (971 : ℤ) := by
    rw [← zpow_add₀ (by norm_num : (2 : ℚ) ≠ 0)]; norm_num
  rw [h4]
  exact mul_lt_mul_of_pos_of_nonneg' h1 h2 h3 (by positivity)

/-- The real boundary `2 ^ (i / 2 ^ s)` is the `i`-th power of the base `2 ^ (2 ^ (-s))`. -/
theorem real_boundary_eq_base_pow (s i : Int) :
    (2 : ℝ) ^ ((i : ℝ) / 2 ^ s) = ((2 : ℝ) ^ ((2 : ℝ) ^ (-s))) ^ i := by
  rw [← Real.rpow_intCast ((2 : ℝ) ^ ((2 : ℝ) ^ (-s))) i, ← Real.rpow_mul (by norm_num)]
  congr 1
  rw [zpow_neg]
  field_simp

theorem rat_scaled_index_cast (s i : Int) :
    ((((i : ℚ) * 2 ^ (-s) : ℚ)) : ℝ) = (i : ℝ) / 2 ^ s := by
  push_cast
  rw [zpow_neg]
  field_simp

/-- Claim C11, refuted as stated.  At scale 1 the boundary `2 ^ (1 / 2)` of index 1 is
irrational, so on no runtime is `LowerBoundary(1)`, a `float64`, equal to it. -/
theorem LowerBoundary_ne_real_boundary :
    ¬ ∃ (P : Platform) (y : ℚ), LowerBoundary P (NewLogarithmMapping 1) 1 = .fin y ∧
      (y : ℝ) = (2 : ℝ) ^ (((1 : Int) : ℝ) / 2 ^ (1 : Int)) := by
  rintro ⟨P, y, -, h⟩
  have h2 : (2 : ℝ) ^ (((1 : Int) : ℝ) / 2 ^ (1 : Int)) = √2 := by
    rw [Real.sqrt_eq_rpow]
    norm_num
  rw [h2] at h
  exact irrational_sqrt_two.ne_rat y h.symm

/-- Claim C11, amended.  For a scale `-971 ≤ s ≤ 1074` and an index `i` of magnitude below
`2 ^ 53`, `LowerBoundary(i)` is `math.Exp2` at the exactly computed exponent `i * 2 ^ (-s)`;
when `math.Exp2` is accurate there to one unit in the last place, `LowerBoundary(i)` is within
a relative error of `2 ^ (-52)` of `2 ^ (i / 2 ^ s)`, the `i`-th power of the base
`2 ^ (2 ^ (-s))`. -/
theorem LowerBoundary_near_real_boundary (P : Platform) (s i : Int) (y : ℚ)
    (hs1 : -971 ≤ s) (hs2 : s ≤ 1074) (hi : |i| < 2 ^ 53)
    (hE : Exp2Within P ((i : ℚ) * 2 ^ (-s)) y) :
    LowerBoundary P (NewLogarithmMapping s) i = P.Exp2 (.fin ((i : ℚ) * 2 ^ (-s))) ∧
      LowerBoundary P (NewLogarithmMapping s) i = .fin y ∧
      |(y : ℝ) - ((2 : ℝ) ^ ((2 : ℝ) ^ (-s))) ^ i| ≤
        2 ^ (-52 : ℤ) * ((2 : ℝ) ^ ((2 : ℝ) ^ (-s))) ^ i ∧
      ((2 : ℝ) ^ ((2 : ℝ) ^ (-s))) ^ i = (2 : ℝ) ^ ((i : ℝ) / 2 ^ s) := by
  have h1 := LowerBoundary_eq_Exp2 P hs1 hs2 hi
  obtain ⟨hE1, hE2⟩ := hE
  rw [rat_scaled_index_cast, real_boundary_eq_base_pow] at hE2
  exact ⟨h1, h1.trans hE1, hE2, (real_boundary_eq_base_pow s i).symm⟩

theorem tablePlatform_Exp2Within_int (k : Int) (h0 : 0 ≤ k) (h1 : k ≤ 52) :
    Exp2Within tablePlatform (k : ℚ) (2 ^ k) := by
  constructor
  · rw [tablePlatform_Exp2_fin, Int.floor_intCast]
    refine round64_eq_self (m := 1) (k := k) (by norm_num) (by omega) (by simp) ?_
    rw [abs_of_pos (by positivity)]
    exact zpow_lt_zpow_right₀ (by norm_num) (by omega)
  · push_cast
    rw [Real.rpow_intCast, sub_self, abs_zero]
    positivity

theorem LowerBoundary_near_real_boundary_witness :
    LowerBoundary tablePlatform (NewLogarithmMapping 0) 3 =
        tablePlatform.Exp2 (.fin (((3 : Int) : ℚ) * 2 ^ (-(0 : Int)))) ∧
      LowerBoundary tablePlatform (NewLogarithmMapping 0) 3 = .fin 8 ∧
      |((8 : ℚ) : ℝ) - ((2 : ℝ) ^ ((2 : ℝ) ^ (-(0 : Int)))) ^ (3 : Int)| ≤
        2 ^ (-52 : ℤ) * ((2 : ℝ) ^ ((2 : ℝ) ^ (-(0 : Int)))) ^ (3 : Int) ∧
      ((2 : ℝ) ^ ((2 : ℝ) ^ (-(0 : Int)))) ^ (3 : Int) =
        (2 : ℝ) ^ (((3 : Int) : ℝ) / 2 ^ (0 : Int)) :=
  LowerBoundary_near_real_boundary tablePlatform 0 3 8 (by norm_num) (by norm_num)
    (by norm_num)
    (by
      have h := tablePlatform_Exp2Within_int 3 (by norm_num) (by norm_num)
      have e1 : ((3 : Int) : ℚ) * 2 ^ (-(0 : Int)) = ((3 : Int) : ℚ) := by norm_num
      have e2 : (8 : ℚ) = 2 ^ (3 : Int) := by norm_num
      rw [e1, e2]
      exact h)

/-! ## Rounding toward negative infinity -/

/-- A value above half the least positive `float64` rounds to the least positive `float64` or
above. -/
theorem le_roundQ_of_half_least_lt {q : ℚ} (h : (2 : ℚ) ^ (-1075 : ℤ) < q) :
    (2 : ℚ) ^ (-1074 : ℤ) ≤ roundQ q := by
  rcases le_or_lt ((2 : ℚ) ^ (-1074 : ℤ)) q with h1 | h1
  · have := roundQ_mono h1
    rwa [roundQ_zpow (by norm_num)] at this
  · have hpos : 0 < q := lt_trans (by positivity) h
    have hg : gridExp q = -1022 := by
      unfold gridExp
      apply max_eq_right
      have := ilog2_lt_of_abs_lt hpos.ne' (by rw [abs_of_pos hpos]; exact h1)
      omega
    have hu : (0 : ℚ) < 2 ^ (-1022 - 52 : ℤ) := by positivity
    have e1 : (2 : ℚ) ^ (-1022 - 52 : ℤ) = 2 ^ (-1074 : ℤ) := by norm_num
    have e2 : (2 : ℚ) ^ (-1074 : ℤ) = 2 * 2 ^ (-1075 : ℤ) := by
      rw [show (-1074 : ℤ) = 1 + -1075 by norm_num, zpow_add₀ (by norm_num : (2 : ℚ) ≠ 0),
        zpow_one]
    have key : ∀ a : ℚ, 0 < a → a < q → q < 2 * a → |q / (2 * a) - ((1 : Int) : ℚ)| < 1 / 2 := by
      intro a ha h2 h3
      have h2a : 0 < 2 * a := by linarith
      rw [abs_lt]
      push_cast
      constructor
      · rw [lt_sub_iff_add_lt, lt_div_iff₀ h2a]
        linarith
      · rw [sub_lt_iff_lt_add, div_lt_iff₀ h2a]
        linarith
    unfold roundQ
    rw [ulp_eq, hg, e1, e2, roundHalfEven_eq_of_abs_lt (key _ (by positivity) h (by rw [← e2]; exact h1))]
    simp

/-- A value below minus half the least positive `float64` rounds to a negative value. -/
theorem roundQ_neg_of_lt {q : ℚ} (h : q < -(2 : ℚ) ^ (-1075 : ℤ)) : roundQ q < 0 := by
  have h1 := le_roundQ_of_half_least_lt (q := -q) (by linarith)
  rw [roundQ_neg] at h1
  have : (0 : ℚ) < 2 ^ (-1074 : ℤ) := by positivity
  linarith

/-- The greatest `float64` below one is `1 - 2 ^ (-53)`. -/
theorem le_pred_one_of_isF64 {v : ℚ} (hv : IsF64 v) (h0 : 0 < v) (h1 : v < 1) :
    v ≤ 1 - 2 ^ (-53 : ℤ) := by
  have e53 : (2 : ℚ) ^ (-53 : ℤ) = 1 / 9007199254740992 := by rw [zpow_neg]; norm_num
  rcases lt_or_le v (1 / 2) with h2 | h2
  · rw [e53]; linarith
  · have hi : ilog2 v = -1 := by
      apply ilog2_eq
      · rw [abs_of_pos h0]; norm_num; linarith
      · rw [abs_of_pos h0]; simpa using h1
    have hg : gridExp v = -1 := by unfold gridExp; rw [hi]; rfl
    have hr := hv.1
    unfold roundQ at hr
    rw [ulp_eq, hg] at hr
    have e : (2 : ℚ) ^ (-1 - 52 : ℤ) = 1 / 9007199254740992 := by
      rw [show (-1 - 52 : ℤ) = -53 by norm_num]; exact e53
    rw [e] at hr
    set m := roundHalfEven (v / (1 / 9007199254740992)) with hm
    have hlt : (m : ℚ) < ((9007199254740992 : Int) : ℚ) := by
      push_cast
      linarith
    have hle : m ≤ 9007199254740991 := by
      have : m < 9007199254740992 := by exact_mod_cast hlt
      omega
    have hle' : (m : ℚ) ≤ ((9007199254740991 : Int) : ℚ) := by exact_mod_cast hle
    push_cast at hle'
    rw [e53, ← hr]
    linarith

/-- On a runtime accurate to one unit in the last place, the value of `math.Log` at a positive
finite `float64` has magnitude at most 1024; it is at most `-(1 - 2 ^ (-52)) * 2 ^ (-53)` below
one, and nonnegative from one on. -/
theorem logWithin_bounds (P : Platform) {v z : ℚ} (hv : IsF64 v) (h0 : 0 < v)
    (hL : LogWithin P v z) :
    |z| ≤ 1024 ∧ (v < 1 → z ≤ -(4503599627370495 / 4503599627370496) * 2 ^ (-53 : ℤ)) ∧
      (1 ≤ v → 0 ≤ z) := by
  obtain ⟨_, hL2⟩ := hL
  obtain ⟨hb1, hb2⟩ := log_bounds_of_isF64 hv h0
  obtain ⟨ht1, ht2⟩ := log_two_bounds
  have hε : (2 : ℝ) ^ (-52 : ℤ) = 1 / 4503599627370496 := by rw [zpow_neg]; norm_num
  rw [hε] at hL2
  have hv0 : (0 : ℝ) < (v : ℝ) := by exact_mod_cast h0
  set L := Real.log (v : ℝ) with hLdef
  have hLabs : |L| ≤ 745 := by rw [abs_le]; constructor <;> linarith
  have hzl := abs_le.mp hL2
  refine ⟨?_, ?_, ?_⟩
  · have h1 : |(z : ℝ)| ≤ 1024 := by
      have := abs_sub_abs_le_abs_sub (z : ℝ) L
      linarith
    have h2 : ((|z| : ℚ) : ℝ) ≤ ((1024 : ℚ) : ℝ) := by push_cast; exact h1
    exact_mod_cast h2
  · intro h1
    have h2 := le_pred_one_of_isF64 hv h0 h1
    have h3 : (v : ℝ) ≤ 1 - 1 / 9007199254740992 := by
      have := (Rat.cast_le (K := ℝ)).mpr h2
      push_cast at this
      rw [zpow_neg] at this
      norm_num at this
      linarith
    have h4 : L ≤ (v : ℝ) - 1 := Real.log_le_sub_one_of_pos hv0
    have h5 : L ≤ -(1 / 9007199254740992) := by linarith
    have h6 : |L| = -L := abs_of_neg (by linarith)
    rw [h6] at hzl
    have h7 : (z : ℝ) ≤ -(4503599627370495 / 4503599627370496) * (1 / 9007199254740992) := by
      nlinarith [hzl.2]
    have h8 : ((z : ℚ) : ℝ) ≤
        ((-(4503599627370495 / 4503599627370496) * 2 ^ (-53 : ℤ) : ℚ) : ℝ) := by
      push_cast
      rw [zpow_neg]
      norm_num
      linarith
    exact_mod_cast h8
  · intro h1
    have h2 : 0 ≤ L := Real.log_nonneg (by exact_mod_cast h1)
    rw [abs_of_nonneg h2] at hzl
    have h3 : (0 : ℝ) ≤ (z : ℝ) := by nlinarith [hzl.1]
    exact_mod_cast h3


theorem scaleFactor_neg_1200 : (NewLogarithmMapping (-1200)).scaleFactor = .fin 0 := by
  show round64 (log2e * 2 ^ (-1200 : ℤ)) = _
  apply round64_underflow
  have hp : (0 : ℚ) < 2 ^ (-1200 : ℤ) := by positivity
  rw [abs_of_pos (mul_pos log2e_pos hp)]
  have h1 : log2e * 2 ^ (-1200 : ℤ) ≤ 2 * 2 ^ (-1200 : ℤ) :=
    mul_le_mul_of_nonneg_right (by linarith [log2e_lt]) hp.le
  have h2 : (2 : ℚ) * 2 ^ (-1200 : ℤ) = 2 ^ (-1199 : ℤ) := by
    rw [show (-1199 : ℤ) = 1 + -1200 by norm_num, zpow_add₀ (by norm_num : (2 : ℚ) ≠ 0),
      zpow_one]
  have h3 : (2 : ℚ) ^ (-1199 : ℤ) ≤ 2 ^ (-1075 : ℤ) :=
    zpow_le_zpow_right₀ (by norm_num) (by norm_num)
  linarith

theorem isF64_half : IsF64 (1 / 2) := by
  constructor
  · exact roundQ_eq_self (m := 1) (k := -1) (by norm_num) (by norm_num) (by norm_num)
  · rw [abs_of_pos (by norm_num)]
    exact lt_of_lt_of_le (by norm_num) (one_le_zpow₀ (by norm_num) (by norm_num))

theorem tablePlatform_LogWithin_one : LogWithin tablePlatform 1 0 := by
  refine ⟨by simp [tablePlatform]; norm_num, ?_⟩
  simp

theorem tablePlatform_LogWithin_half : LogWithin tablePlatform (1 / 2) (-ln2f) := by
  refine ⟨by simp [tablePlatform]; norm_num, ?_⟩
  obtain ⟨h1, h2⟩ := ln2f_nearest
  have hpos : 0 < Real.log 2 := Real.log_pos (by norm_num)
  have hl := log_two_bounds.1
  have hε : (2 : ℝ) ^ (-52 : ℤ) = 1 / 4503599627370496 := by rw [zpow_neg]; norm_num
  have h54 : (2 : ℝ) ^ (-54 : ℤ) = 1 / 18014398509481984 := by rw [zpow_neg]; norm_num
  rw [h54] at h2
  have e : Real.log (((1 / 2 : ℚ)) : ℝ) = -Real.log 2 := by
    push_cast
    rw [one_div, Real.log_inv]
  rw [e, hε, abs_neg, abs_of_pos hpos]
  push_cast
  rw [abs_le]
  constructor <;> linarith

/-- Claim C12, refuted as stated.  At scale -1200 the scale factor is zero and
`MapToIndex(0.5)` is 0 on every runtime where `math.Log(0.5)` is finite; at scale -1023 the
product underflows and `MapToIndex(1 - 2 ^ (-53))` is 0 when `math.Log` is between
`-1.25 * 2 ^ (-53)` and 0 there.  Neither index is at most `-1`. -/
theorem MapToIndex_below_one_not_negative :
    (¬ ∃ (P : Platform) (x : ℚ), P.Log (.fin (1 / 2)) = .fin x ∧
        MapToIndex P (NewLogarithmMapping (-1200)) (.fin (1 / 2)) ≤ -1) ∧
      (¬ ∃ P : Platform, LogBetween P (1 - 2 ^ (-53 : ℤ)) (-(5 / 4) * 2 ^ (-53 : ℤ)) 0 ∧
        MapToIndex P (NewLogarithmMapping (-1023)) (.fin (1 - 2 ^ (-53 : ℤ))) ≤ -1) := by
  constructor
  · rintro ⟨P, x, hx, h⟩
    rw [MapToIndex_eq_floor P _ _ hx scaleFactor_neg_1200
      (by simp [roundQ_zero, IsInt64])] at h
    simp [roundQ_zero] at h
  · rintro ⟨P, ⟨x, hx, hx1, hx2⟩, h⟩
    have hund : roundQ (x * (log2e * 2 ^ (-1023 : ℤ))) = 0 := by
      apply roundQ_underflow
      have hA : (0 : ℚ) < 2 ^ (-1075 : ℤ) := by positivity
      have e1 : (2 : ℚ) ^ (-53 : ℤ) * 2 ^ (-1023 : ℤ) = 1 / 2 * 2 ^ (-1075 : ℤ) := by
        rw [← zpow_add₀ (by norm_num : (2 : ℚ) ≠ 0),
          show (-53 + -1023 : ℤ) = -1 + -1075 by norm_num,
          zpow_add₀ (by norm_num : (2 : ℚ) ≠ 0)]
        norm_num
      have hp : (0 : ℚ) < 2 ^ (-1023 : ℤ) := by positivity
      have hF : 0 < log2e * 2 ^ (-1023 : ℤ) := mul_pos log2e_pos hp
      rw [abs_mul, abs_of_nonpos hx2, abs_of_pos hF]
      have h1 : -x ≤ 5 / 4 * 2 ^ (-53 : ℤ) := by linarith
      have h2 : -x * (log2e * 2 ^ (-1023 : ℤ)) ≤
          5 / 4 * 2 ^ (-53 : ℤ) * (log2e * 2 ^ (-1023 : ℤ)) :=
        mul_le_mul_of_nonneg_right h1 hF.le
      have h3 : 5 / 4 * (2 : ℚ) ^ (-53 : ℤ) * (log2e * 2 ^ (-1023 : ℤ)) =
          5 / 8 * log2e * 2 ^ (-1075 : ℤ) := by
        rw [show 5 / 4 * (2 : ℚ) ^ (-53 : ℤ) * (log2e * 2 ^ (-1023 : ℤ)) =
          5 / 4 * log2e * ((2 : ℚ) ^ (-53 : ℤ) * 2 ^ (-1023 : ℤ)) by ring, e1]
        ring
      have h4 : 5 / 8 * log2e * (2 : ℚ) ^ (-1075 : ℤ) ≤ 1 * 2 ^ (-1075 : ℤ) :=
        mul_le_mul_of_nonneg_right (by unfold log2e; norm_num) hA.le
      calc -x * (log2e * 2 ^ (-1023 : ℤ))
          ≤ 5 / 4 * 2 ^ (-53 : ℤ) * (log2e * 2 ^ (-1023 : ℤ)) := h2
        _ = 5 / 8 * log2e * 2 ^ (-1075 : ℤ) := h3
        _ ≤ 1 * 2 ^ (-1075 : ℤ) := h4
        _ = 2 ^ (-1075 : ℤ) := one_mul _
    rw [MapToIndex_eq_floor P _ _ hx (scaleFactor_exact (by norm_num) (by norm_num))
      (by rw [hund]; simp [IsInt64])] at h
    rw [hund] at h
    simp at h

/-- Claim C12, amended.  For a scale `-1022 ≤ s ≤ 52` and a positive finite `float64` `v` at
which `math.Log` is accurate to one unit in the last place, `MapToIndex(v)` is the floor of the
`float64` product `p` of `math.Log(v)` and the scale factor, so that `p` lies from
`MapToIndex(v)` to below `MapToIndex(v) + 1`; the index is at most `-1` for `v < 1` and at
least 0 for `v ≥ 1`. -/
theorem MapToIndex_rounds_down (P : Platform) (s : Int) (v z : ℚ)
    (hs1 : -1022 ≤ s) (hs2 : s ≤ 52) (hv : IsF64 v) (h0 : 0 < v) (hL : LogWithin P v z) :
    MapToIndex P (NewLogarithmMapping s) (.fin v) = ⌊roundQ (z * (log2e * 2 ^ s))⌋ ∧
      ((MapToIndex P (NewLogarithmMapping s) (.fin v) : Int) : ℚ) ≤
        roundQ (z * (log2e * 2 ^ s)) ∧
      roundQ (z * (log2e * 2 ^ s)) <
        ((MapToIndex P (NewLogarithmMapping s) (.fin v) : Int) : ℚ) + 1 ∧
      (v < 1 → MapToIndex P (NewLogarithmMapping s) (.fin v) ≤ -1) ∧
      (1 ≤ v → 0 ≤ MapToIndex P (NewLogarithmMapping s) (.fin v)) := by
  obtain ⟨hz, hneg, hpos⟩ := logWithin_bounds P hv h0 hL
  have hS0 : (0 : ℚ) < 2 ^ s := by positivity
  have hF0 : 0 < log2e * 2 ^ s := mul_pos log2e_pos hS0
  have hF1 : log2e * 2 ^ s ≤ 3 * 2 ^ (51 : ℤ) := by
    have h1 : (2 : ℚ) ^ s ≤ 2 ^ (52 : ℤ) := zpow_le_zpow_right₀ (by norm_num) hs2
    have h2 : log2e * 2 ^ s ≤ 3 / 2 * 2 ^ (52 : ℤ) :=
      mul_le_mul log2e_lt.le h1 hS0.le (by norm_num)
    refine h2.trans (le_of_eq ?_)
    norm_num
  have hfit := floor_product_fits hz hF0.le hF1
  have hmap : MapToIndex P (NewLogarithmMapping s) (.fin v) = ⌊roundQ (z * (log2e * 2 ^ s))⌋ :=
    MapToIndex_eq_floor P _ _ hL.1 (scaleFactor_exact (by omega) (by omega)) hfit
  rw [hmap]
  refine ⟨rfl, Int.floor_le _, Int.lt_floor_add_one _, ?_, ?_⟩
  · intro h1
    have hz1 := hneg h1
    have hA : (0 : ℚ) < 2 ^ (-1075 : ℤ) := by positivity
    have e1 : (2 : ℚ) ^ (-53 : ℤ) * 2 ^ (-1022 : ℤ) = 2 ^ (-1075 : ℤ) := by
      rw [← zpow_add₀ (by norm_num : (2 : ℚ) ≠ 0)]; norm_num
    have hS1 : (2 : ℚ) ^ (-1022 : ℤ) ≤ 2 ^ s := zpow_le_zpow_right₀ (by norm_num) hs1
    have hp : (0 : ℚ) < 2 ^ (-1022 : ℤ) := by positivity
    have h53 : (0 : ℚ) < 2 ^ (-53 : ℤ) := by positivity
    have hF : log2e * 2 ^ (-1022 : ℤ) ≤ log2e * 2 ^ s :=
      mul_le_mul_of_nonneg_left hS1 log2e_pos.le
    have h2 : 4503599627370495 / 4503599627370496 * 2 ^ (-53 : ℤ) *
        (log2e * 2 ^ (-1022 : ℤ)) ≤ -z * (log2e * 2 ^ s) :=
      mul_le_mul (by linarith) hF (mul_pos log2e_pos hp).le (by linarith)
    have h3 : 4503599627370495 / 4503599627370496 * (2 : ℚ) ^ (-53 : ℤ) *
        (log2e * 2 ^ (-1022 : ℤ)) =
        4503599627370495 / 4503599627370496 * log2e * 2 ^ (-1075 : ℤ) := by
      rw [← e1]; ring
    have h4 : 1 * (2 : ℚ) ^ (-1075 : ℤ) <
        4503599627370495 / 4503599627370496 * log2e * 2 ^ (-1075 : ℤ) :=
      mul_lt_mul_of_pos_right (by unfold log2e; norm_num) hA
    have h5 : (2 : ℚ) ^ (-1075 : ℤ) < -z * (log2e * 2 ^ s) :=
      calc (2 : ℚ) ^ (-1075 : ℤ) = 1 * 2 ^ (-1075 : ℤ) := (one_mul _).symm
        _ < 4503599627370495 / 4503599627370496 * log2e * 2 ^ (-1075 : ℤ) := h4
        _ = _ := h3.symm
        _ ≤ _ := h2
    rw [neg_mul] at h5
    have h5 : roundQ (z * (log2e * 2 ^ s)) < 0 := roundQ_neg_of_lt (lt_neg.mp h5)
    have h6 : ⌊roundQ (z * (log2e * 2 ^ s))⌋ < 0 := Int.floor_lt.mpr (by simpa using h5)
    omega
  · intro h1
    have hz1 := hpos h1
    exact Int.floor_nonneg.mpr (roundQ_nonneg (mul_nonneg hz1 hF0.le))

theorem MapToIndex_rounds_down_witness :
    MapToIndex tablePlatform (NewLogarithmMapping 0) (.fin (1 / 2)) =
        ⌊roundQ (-ln2f * (log2e * 2 ^ (0 : Int)))⌋ ∧
      ((MapToIndex tablePlatform (NewLogarithmMapping 0) (.fin (1 / 2)) : Int) : ℚ) ≤
        roundQ (-ln2f * (log2e * 2 ^ (0 : Int))) ∧
      roundQ (-ln2f * (log2e * 2 ^ (0 : Int))) <
        ((MapToIndex tablePlatform (NewLogarithmMapping 0) (.fin (1 / 2)) : Int) : ℚ) + 1 ∧
      ((1 / 2 : ℚ) < 1 → MapToIndex tablePlatform (NewLogarithmMapping 0) (.fin (1 / 2)) ≤ -1) ∧
      (1 ≤ (1 / 2 : ℚ) →
        0 ≤ MapToIndex tablePlatform (NewLogarithmMapping 0) (.fin (1 / 2))) :=
  MapToIndex_rounds_down tablePlatform 0 (1 / 2) (-ln2f) (by norm_num) (by norm_num)
    isF64_half (by norm_num) tablePlatform_LogWithin_half

/-! ## The ratio of the bucket boundaries -/

/-- The quotient of two values within a relative error `ε ≤ 1 / 2` of `B` and of `b * B`
lies between `b * (1 - 2 * ε)` and `b * (1 + 4 * ε)`. -/
theorem ratio_bounds {B b y1 y2 ε : ℝ} (hB : 0 < B) (hb : 0 < b) (hε0 : 0 ≤ ε)
    (hε : ε ≤ 1 / 2) (h1 : |y1 - B| ≤ ε * B) (h2 : |y2 - b * B| ≤ ε * (b * B)) :
    0 < y1 ∧ b * (1 - 2 * ε) ≤ y2 / y1 ∧ y2 / y1 ≤ b * (1 + 4 * ε) := by
  rw [abs_le] at h1 h2
  have hy1 : 0 < y1 := by nlinarith
  have hbB : 0 < b * B := mul_pos hb hB
  refine ⟨hy1, ?_, ?_⟩
  · rw [le_div_iff₀ hy1]
    have e1 : b * (1 - 2 * ε) * (B * (1 + ε)) = b * B * (1 - ε) - b * B * (2 * ε * ε) := by
      ring
    rcases le_or_lt 0 (b * (1 - 2 * ε)) with hc | hc
    · have h3 : b * (1 - 2 * ε) * y1 ≤ b * (1 - 2 * ε) * (B * (1 + ε)) :=
        mul_le_mul_of_nonneg_left (by linarith) hc
      have h4 : 0 ≤ b * B * (2 * ε * ε) := by positivity
      linarith
    · have h3 : b * (1 - 2 * ε) * y1 < 0 := mul_neg_of_neg_of_pos hc hy1
      have h4 : 0 ≤ b * B * (1 - ε) := mul_nonneg hbB.le (by linarith)
      linarith
  · rw [div_le_iff₀ hy1]
    have e1 : b * (1 + 4 * ε) * (B * (1 - ε)) =
        b * B * (1 + ε) + b * B * (2 * ε * (1 - 2 * ε)) := by ring
    have h3 : b * (1 + 4 * ε) * (B * (1 - ε)) ≤ b * (1 + 4 * ε) * y1 :=
      mul_le_mul_of_nonneg_left (by linarith) (by positivity)
    have h4 : 0 ≤ b * B * (2 * ε * (1 - 2 * ε)) :=
      mul_nonneg hbB.le (mul_nonneg (by linarith) (by linarith))
    linarith

/-- The real boundary of index `i + 1` is the base `2 ^ (2 ^ (-s))` times that of index `i`. -/
theorem real_boundary_succ (s i : Int) :
    (2 : ℝ) ^ (((i + 1 : Int) : ℝ) / 2 ^ s) =
      (2 : ℝ) ^ ((2 : ℝ) ^ (-s)) * (2 : ℝ) ^ ((i : ℝ) / 2 ^ s) := by
  rw [← Real.rpow_add (by norm_num)]
  congr 1
  push_cast
  rw [zpow_neg]
  field_simp
  ring

/-- The base of scale `s` is the square of the base of scale `s + 1`. -/
theorem real_base_sq (s : Int) :
    (2 : ℝ) ^ ((2 : ℝ) ^ (-(s + 1))) * (2 : ℝ) ^ ((2 : ℝ) ^ (-(s + 1))) =
      (2 : ℝ) ^ ((2 : ℝ) ^ (-s)) := by
  rw [← Real.rpow_add (by norm_num)]
  congr 1
  rw [neg_add, zpow_add₀ (by norm_num : (2 : ℝ) ≠ 0)]
  norm_num
  ring

/-- Up to scale 38 the base exceeds `1 + 2 ^ (-39)`. -/
theorem real_base_gt {s : Int} (hs : s ≤ 38) :
    1 + (2 : ℝ) ^ (-39 : ℤ) < (2 : ℝ) ^ ((2 : ℝ) ^ (-s)) := by
  have hx : (2 : ℝ) ^ (-38 : ℤ) ≤ (2 : ℝ) ^ (-s) :=
    zpow_le_zpow_right₀ (by norm_num) (by omega)
  have ht := log_two_bounds.1
  have h1 : (2 : ℝ) ^ ((2 : ℝ) ^ (-s)) = Real.exp (Real.log 2 * (2 : ℝ) ^ (-s)) :=
    Real.rpow_def_of_pos (by norm_num) _
  have h2 := Real.add_one_le_exp (Real.log 2 * (2 : ℝ) ^ (-s))
  have h3 : Real.log 2 * (2 : ℝ) ^ (-38 : ℤ) ≤ Real.log 2 * (2 : ℝ) ^ (-s) :=
    mul_le_mul_of_nonneg_left hx (by linarith)
  have h4 : (2 : ℝ) ^ (-39 : ℤ) = 1 / 2 * (2 : ℝ) ^ (-38 : ℤ) := by
    rw [show (-39 : ℤ) = -1 + -38 by norm_num, zpow_add₀ (by norm_num : (2 : ℝ) ≠ 0)]
    norm_num
  have h5 : (0 : ℝ) < (2 : ℝ) ^ (-38 : ℤ) := by positivity
  have h6 : 1 / 2 * (2 : ℝ) ^ (-38 : ℤ) < Real.log 2 * (2 : ℝ) ^ (-38 : ℤ) :=
    mul_lt_mul_of_pos_right (by linarith) h5
  rw [h1, h4]
  calc 1 + 1 / 2 * (2 : ℝ) ^ (-38 : ℤ) < 1 + Real.log 2 * (2 : ℝ) ^ (-38 : ℤ) :=
        add_lt_add_left h6 1
    _ ≤ 1 + Real.log 2 * (2 : ℝ) ^ (-s) := add_le_add_left h3 1
    _ = Real.log 2 * (2 : ℝ) ^ (-s) + 1 := add_comm _ _
    _ ≤ _ := h2

/-- An index whose boundary is a finite `float64` at a scale up to 38 is far inside the
range of `int64`. -/
theorem isInt64_succ_of_boundary {s i : Int} {y : ℚ} (hs : s ≤ 38) (hy : IsF64 y)
    (hacc : |(y : ℝ) - (2 : ℝ) ^ ((i : ℝ) / 2 ^ s)| ≤
      2 ^ (-52 : ℤ) * (2 : ℝ) ^ ((i : ℝ) / 2 ^ s)) :
    |i| < 2 ^ 50 := by
  have h1 := abs_index_le_of_boundary hy hacc
  have hS : (2 : ℝ) ^ s ≤ 274877906944 := by
    have : (2 : ℝ) ^ s ≤ 2 ^ (38 : ℤ) := zpow_le_zpow_right₀ (by norm_num) hs
    refine this.trans (le_of_eq ?_)
    norm_num
  have h2 : |(i : ℝ)| < ((2 ^ 50 : Int) : ℝ) := by
    push_cast
    have : (1075 : ℝ) * 274877906944 < 2 ^ 50 := by norm_num
    nlinarith
  rw [← Int.cast_abs] at h2
  exact_mod_cast h2

/-- Claim C13, refuted as stated.  At scale 1 the base `2 ^ (1 / 2)` is irrational, so on no
runtime is the quotient of the two `float64` boundaries of bucket 0 equal to it. -/
theorem bucket_ratio_ne_base :
    ¬ ∃ (P : Platform) (y1 y2 : ℚ), LowerBoundary P (NewLogarithmMapping 1) 0 = .fin y1 ∧
      UpperBoundary P (NewLogarithmMapping 1) 0 = .fin y2 ∧
      (y2 : ℝ) / (y1 : ℝ) = (2 : ℝ) ^ ((2 : ℝ) ^ (-(1 : Int))) := by
  rintro ⟨P, y1, y2, -, -, h⟩
  have h2 : (2 : ℝ) ^ ((2 : ℝ) ^ (-(1 : Int))) = √2 := by
    rw [Real.sqrt_eq_rpow]
    norm_num
  rw [h2] at h
  have h3 : (((y2 / y1 : ℚ)) : ℝ) = √2 := by push_cast; exact h
  exact irrational_sqrt_two.ne_rat _ h3.symm

/-- Claim C13, amended.  For a scale `s ≤ 37`, on a runtime accurate to one unit in the last
place at the four boundaries involved, the quotient `UpperBoundary(i) / LowerBoundary(i)` is
within a relative error of `2 ^ (-50)` of the base `2 ^ (2 ^ (-s))`, whatever the index, the
same holds at scale `s + 1`, whose base is the square root of that of scale `s`, and the
quotient at scale `s + 1` is strictly smaller than the quotient at scale `s`. -/
theorem bucket_ratio_near_base (P : Platform) (s i j : Int) (y1 y2 y3 y4 : ℚ) (hs : s ≤ 37)
    (h1 : BoundaryWithin P s i y1) (h2 : BoundaryWithin P s (i + 1) y2)
    (h3 : BoundaryWithin P (s + 1) j y3) (h4 : BoundaryWithin P (s + 1) (j + 1) y4) :
    UpperBoundary P (NewLogarithmMapping s) i = .fin y2 ∧
      UpperBoundary P (NewLogarithmMapping (s + 1)) j = .fin y4 ∧
      |(y2 : ℝ) / (y1 : ℝ) - (2 : ℝ) ^ ((2 : ℝ) ^ (-s))| ≤
        2 ^ (-50 : ℤ) * (2 : ℝ) ^ ((2 : ℝ) ^ (-s)) ∧
      |(y4 : ℝ) / (y3 : ℝ) - (2 : ℝ) ^ ((2 : ℝ) ^ (-(s + 1)))| ≤
        2 ^ (-50 : ℤ) * (2 : ℝ) ^ ((2 : ℝ) ^ (-(s + 1))) ∧
      (2 : ℝ) ^ ((2 : ℝ) ^ (-(s + 1))) * (2 : ℝ) ^ ((2 : ℝ) ^ (-(s + 1))) =
        (2 : ℝ) ^ ((2 : ℝ) ^ (-s)) ∧
      (y4 : ℝ) / (y3 : ℝ) < (y2 : ℝ) / (y1 : ℝ) := by
  obtain ⟨_, _, a1⟩ := h1
  obtain ⟨e2, f2, a2⟩ := h2
  obtain ⟨_, _, a3⟩ := h3
  obtain ⟨e4, f4, a4⟩ := h4
  have hi := isInt64_succ_of_boundary (by omega : s ≤ 38) f2 a2
  have hj := isInt64_succ_of_boundary (by omega : s + 1 ≤ 38) f4 a4
  rw [abs_lt] at hi hj
  have u2 := UpperBoundary_eq P (NewLogarithmMapping s) (i := i) (by omega) (by omega)
  have u4 := UpperBoundary_eq P (NewLogarithmMapping (s + 1)) (i := j) (by omega) (by omega)
  rw [real_boundary_succ] at a2 a4
  have hε : (2 : ℝ) ^ (-52 : ℤ) = 1 / 4503599627370496 := by rw [zpow_neg]; norm_num
  have h50 : (2 : ℝ) ^ (-50 : ℤ) = 1 / 1125899906842624 := by rw [zpow_neg]; norm_num
  have h39 : (2 : ℝ) ^ (-39 : ℤ) = 1 / 549755813888 := by rw [zpow_neg]; norm_num
  have hsq := real_base_sq s
  have hgt := real_base_gt (by omega : s + 1 ≤ 38)
  rw [h39] at hgt
  rw [hε] at a1 a2 a3 a4
  set b := (2 : ℝ) ^ ((2 : ℝ) ^ (-s)) with hb
  set c := (2 : ℝ) ^ ((2 : ℝ) ^ (-(s + 1))) with hc
  have hb0 : 0 < b := by positivity
  have hc0 : 0 < c := by positivity
  obtain ⟨_, r1, r2⟩ := ratio_bounds (by positivity) hb0 (by norm_num) (by norm_num) a1 a2
  obtain ⟨_, r3, r4⟩ := ratio_bounds (by positivity) hc0 (by norm_num) (by norm_num) a3 a4
  refine ⟨u2.trans e2, u4.trans e4, ?_, ?_, hsq, ?_⟩
  · rw [h50, abs_le]
    constructor <;> linarith
  · rw [h50, abs_le]
    constructor <;> linarith
  · have h5 : c * (1 + 4 * (1 / 4503599627370496)) <
        c * c * (1 - 2 * (1 / 4503599627370496)) := by
      have : (1 : ℝ) + 4 * (1 / 4503599627370496) <
          c * (1 - 2 * (1 / 4503599627370496)) := by nlinarith
      nlinarith
    rw [hsq] at h5
    linarith



theorem BoundaryWithin_of_Exp2Within (P : Platform) {s i : Int} {y : ℚ} (hs1 : -971 ≤ s)
    (hs2 : s ≤ 1074) (hi : |i| < 2 ^ 53) (hy : IsF64 y)
    (hE : Exp2Within P ((i : ℚ) * 2 ^ (-s)) y) : BoundaryWithin P s i y := by
  obtain ⟨hE1, hE2⟩ := hE
  rw [rat_scaled_index_cast] at hE2
  exact ⟨(LowerBoundary_eq_Exp2 P hs1 hs2 hi).trans hE1, hy, hE2⟩

theorem isF64_zpow {k : Int} (h0 : -1074 ≤ k) (h1 : k < 1024) : IsF64 ((2 : ℚ) ^ k) := by
  refine ⟨roundQ_zpow h0, ?_⟩
  rw [abs_of_pos (by positivity)]
  exact zpow_lt_zpow_right₀ (by norm_num) h1

theorem tablePlatform_BoundaryWithin_neg_one (i : Int) (h0 : 0 ≤ i) (h1 : i ≤ 5) :
    BoundaryWithin tablePlatform (-1) i (2 ^ (2 * i)) := by
  apply BoundaryWithin_of_Exp2Within _ (by norm_num) (by norm_num)
    (by rw [abs_of_nonneg h0]; omega) (isF64_zpow (by omega) (by omega))
  have h := tablePlatform_Exp2Within_int (2 * i) (by omega) (by omega)
  have e : (i : ℚ) * 2 ^ (-(-1 : Int)) = ((2 * i : Int) : ℚ) := by
    push_cast
    norm_num
    ring
  rw [e]
  exact h

theorem bucket_ratio_near_base_witness :
    UpperBoundary tablePlatform (NewLogarithmMapping (-1)) 0 = .fin (2 ^ (2 * (0 + 1) : Int)) ∧
      UpperBoundary tablePlatform (NewLogarithmMapping (-1 + 1)) 0 =
        .fin (2 ^ (0 + 1 : Int)) ∧
      |(((2 : ℚ) ^ (2 * (0 + 1) : Int) : ℚ) : ℝ) / (((2 : ℚ) ^ (2 * 0 : Int) : ℚ) : ℝ) -
          (2 : ℝ) ^ ((2 : ℝ) ^ (-(-1 : Int)))| ≤
        2 ^ (-50 : ℤ) * (2 : ℝ) ^ ((2 : ℝ) ^ (-(-1 : Int))) ∧
      |(((2 : ℚ) ^ (0 + 1 : Int) : ℚ) : ℝ) / (((2 : ℚ) ^ (0 : Int) : ℚ) : ℝ) -
          (2 : ℝ) ^ ((2 : ℝ) ^ (-(-1 + 1 : Int)))| ≤
        2 ^ (-50 : ℤ) * (2 : ℝ) ^ ((2 : ℝ) ^ (-(-1 + 1 : Int))) ∧
      (2 : ℝ) ^ ((2 : ℝ) ^ (-(-1 + 1 : Int))) * (2 : ℝ) ^ ((2 : ℝ) ^ (-(-1 + 1 : Int))) =
        (2 : ℝ) ^ ((2 : ℝ) ^ (-(-1 : Int))) ∧
      (((2 : ℚ) ^ (0 + 1 : Int) : ℚ) : ℝ) / (((2 : ℚ) ^ (0 : Int) : ℚ) : ℝ) <
        (((2 : ℚ) ^ (2 * (0 + 1) : Int) : ℚ) : ℝ) / (((2 : ℚ) ^ (2 * 0 : Int) : ℚ) : ℝ) :=
  bucket_ratio_near_base tablePlatform (-1) 0 0 _ _ _ _ (by norm_num)
    (tablePlatform_BoundaryWithin_neg_one 0 (by norm_num) (by norm_num))
    (tablePlatform_BoundaryWithin_neg_one (0 + 1) (by norm_num) (by norm_num))
    (tablePlatform_BoundaryWithin 0 (by norm_num) (by norm_num))
    (tablePlatform_BoundaryWithin (0 + 1) (by norm_num) (by norm_num))

/-! ## From one scale to the next -/

theorem le_ilog2_of_zpow_le {q : ℚ} {e : Int} (h : (2 : ℚ) ^ e ≤ |q|) : e ≤ ilog2 q := by
  by_contra hcon
  push_neg at hcon
  have h1 := lt_zpow_ilog2_succ q
  have h2 : (2 : ℚ) ^ (ilog2 q + 1) ≤ 2 ^ e := zpow_le_zpow_right₀ (by norm_num) (by omega)
  linarith

/-- Half the floor of the double is the floor. -/
theorem floor_two_mul_fdiv_two (p : ℚ) : Int.fdiv ⌊2 * p⌋ 2 = ⌊p⌋ := by
  rw [Int.fdiv_eq_ediv _ (by norm_num)]
  have h1 : 2 * ⌊p⌋ ≤ ⌊2 * p⌋ := by
    apply Int.le_floor.mpr
    push_cast
    linarith [Int.floor_le p]
  have h2 : ⌊2 * p⌋ < 2 * ⌊p⌋ + 2 := by
    apply Int.floor_lt.mpr
    push_cast
    linarith [Int.lt_floor_add_one p]
  omega

/-- When the product of `math.Log(v)` and the scale factor is `2 ^ 63` or more, the
conversion to `int64` is out of range and `MapToIndex(v)` is what the platform delivers. -/
theorem MapToIndex_of_overflow (P : Platform) (l : LogarithmMapping) (v : F64) {x f : ℚ}
    {c : Int} (hc : ∀ y : F64, .fin (2 ^ (63 : ℤ)) ≤ y → P.convOverflow y = c)
    (hx : P.Log v = .fin x) (hf : l.scaleFactor = .fin f)
    (hbig : (2 : ℚ) ^ (63 : ℤ) ≤ x * f) : MapToIndex P l v = wrapInt64 c := by
  unfold MapToIndex
  rw [hx, hf]
  show toInt64 P (F64.floor (round64 (x * f))) = _
  have h1 : (2 : ℚ) ^ (63 : ℤ) ≤ roundQ (x * f) := by
    have := roundQ_mono hbig
    rwa [roundQ_zpow (by norm_num)] at this
  have hpos : ¬ x * f < 0 := not_lt.mpr (le_trans (by positivity) hbig)
  unfold round64
  split_ifs with h
  · simp only [hpos, decide_False, F64.floor, toInt64]
    rw [hc _ (by simp)]
  · have h2 : (2 ^ 63 : Int) ≤ ⌊roundQ (x * f)⌋ :=
      Int.le_floor.mpr (by push_cast; exact_mod_cast h1)
    have h3 : ((2 : ℚ) ^ (63 : ℤ)) ≤ ((⌊roundQ (x * f)⌋ : Int) : ℚ) := by
      have : (((2 ^ 63 : Int)) : ℚ) ≤ ((⌊roundQ (x * f)⌋ : Int) : ℚ) := by exact_mod_cast h2
      refine le_trans (le_of_eq ?_) this
      norm_num
    show toInt64 P (.fin ((⌊roundQ (x * f)⌋ : Int) : ℚ)) = _
    unfold toInt64
    simp only [Int.floor_intCast, Int.ceil_intCast, ite_self]
    rw [if_neg (by omega), hc _ (by simpa using h3)]

/-- Claim C14, refuted as stated.  At scales 63 and 64 the product for the value 4 exceeds
`2 ^ 63`; on a platform whose out-of-range conversion delivers one value `c`, neither 0 nor
`-1` (the least `int64` on amd64), both indices are `c`, and `c` is not the floor of
`c / 2`. -/
theorem MapToIndex_halving_fails_at_scale_63 :
    ¬ ∃ (P : Platform) (c : Int), LogBetween P 4 1 2 ∧
      (∀ y : F64, .fin (2 ^ (63 : ℤ)) ≤ y → P.convOverflow y = c) ∧
      IsInt64 c ∧ c ≠ 0 ∧ c ≠ -1 ∧
      MapToIndex P (NewLogarithmMapping 63) (.fin 4) =
        Int.fdiv (MapToIndex P (NewLogarithmMapping 64) (.fin 4)) 2 := by
  rintro ⟨P, c, ⟨x, hx, hx1, hx2⟩, hc, hci, hc0, hc1, h⟩
  have hl : (1 : ℚ) ≤ log2e := by unfold log2e; norm_num
  have hb : ∀ s : Int, 63 ≤ s → (2 : ℚ) ^ (63 : ℤ) ≤ x * (log2e * 2 ^ s) := by
    intro s hs
    have h1 : (2 : ℚ) ^ (63 : ℤ) ≤ 2 ^ s := zpow_le_zpow_right₀ (by norm_num) hs
    have h2 : (0 : ℚ) < 2 ^ (63 : ℤ) := by positivity
    calc (2 : ℚ) ^ (63 : ℤ) = 1 * (1 * 2 ^ (63 : ℤ)) := by ring
      _ ≤ x * (log2e * 2 ^ s) :=
        mul_le_mul hx1 (mul_le_mul hl h1 h2.le (by linarith)) (by positivity) (by linarith)
  rw [MapToIndex_of_overflow P _ _ hc hx (scaleFactor_exact (by norm_num) (by norm_num))
      (hb 63 le_rfl),
    MapToIndex_of_overflow P _ _ hc hx (scaleFactor_exact (by norm_num) (by norm_num))
      (hb 64 (by norm_num)),
    wrapInt64_eq_self hci, Int.fdiv_eq_ediv _ (by norm_num)] at h
  omega

/-- Claim C14, amended.  For a scale `-960 ≤ s ≤ 51` and a value `v` at which `math.Log` is
zero or of magnitude from `2 ^ (-60)` to 1024, `MapToIndex(v)` at scale `s` is exactly the
floor of half of `MapToIndex(v)` at scale `s + 1`, on every runtime. -/
theorem MapToIndex_scale_succ (P : Platform) (s : Int) (v z : ℚ) (hs1 : -960 ≤ s)
    (hs2 : s ≤ 51) (hL : LogSized P v z) :
    MapToIndex P (NewLogarithmMapping s) (.fin v) =
      Int.fdiv (MapToIndex P (NewLogarithmMapping (s + 1)) (.fin v)) 2 := by
  obtain ⟨hx, hz0, hz⟩ := hL
  have hS0 : (0 : ℚ) < 2 ^ s := by positivity
  have hF0 : 0 < log2e * 2 ^ s := mul_pos log2e_pos hS0
  have hF1 : log2e * 2 ^ (s + 1) ≤ 3 * 2 ^ (51 : ℤ) := by
    have h1 : (2 : ℚ) ^ (s + 1) ≤ 2 ^ (52 : ℤ) := zpow_le_zpow_right₀ (by norm_num) (by omega)
    have h2 : log2e * 2 ^ (s + 1) ≤ 3 / 2 * 2 ^ (52 : ℤ) :=
      mul_le_mul log2e_lt.le h1 (by positivity) (by norm_num)
    refine h2.trans (le_of_eq ?_)
    norm_num
  have e2 : log2e * (2 : ℚ) ^ (s + 1) = 2 * (log2e * 2 ^ s) := by
    rw [zpow_add₀ (by norm_num : (2 : ℚ) ≠ 0), zpow_one]; ring
  have hfit2 := floor_product_fits hz (by rw [e2]; linarith) hF1
  have hfit1 := floor_product_fits hz hF0.le (by rw [e2] at hF1; linarith)
  rw [MapToIndex_eq_floor P _ _ hx (scaleFactor_exact (by omega) (by omega)) hfit1,
    MapToIndex_eq_floor P _ _ hx (scaleFactor_exact (by omega) (by omega)) hfit2]
  have e3 : z * (log2e * (2 : ℚ) ^ (s + 1)) = 2 * (z * (log2e * 2 ^ s)) := by
    rw [e2]; ring
  rw [e3]
  rcases hz0 with h0 | h0
  · subst h0
    simp [roundQ_zero, Int.fdiv_eq_ediv]
  · have hzpos : 0 < |z| := lt_of_lt_of_le (by positivity) h0
    have hz_ne : z ≠ 0 := abs_pos.mp hzpos
    have hq0 : z * (log2e * 2 ^ s) ≠ 0 := mul_ne_zero hz_ne hF0.ne'
    have hlog : (1 : ℚ) ≤ log2e := by unfold log2e; norm_num
    have hS1 : (2 : ℚ) ^ (-960 : ℤ) ≤ 2 ^ s := zpow_le_zpow_right₀ (by norm_num) hs1
    have hbig : (2 : ℚ) ^ (-1022 : ℤ) ≤ |z * (log2e * 2 ^ s)| := by
      rw [abs_mul, abs_of_pos hF0]
      have h1 : (2 : ℚ) ^ (-1022 : ℤ) ≤ 2 ^ (-1020 : ℤ) :=
        zpow_le_zpow_right₀ (by norm_num) (by norm_num)
      have h2 : (2 : ℚ) ^ (-1020 : ℤ) = 2 ^ (-60 : ℤ) * (1 * 2 ^ (-960 : ℤ)) := by
        rw [one_mul, ← zpow_add₀ (by norm_num : (2 : ℚ) ≠ 0)]; norm_num
      calc (2 : ℚ) ^ (-1022 : ℤ) ≤ 2 ^ (-1020 : ℤ) := h1
        _ = 2 ^ (-60 : ℤ) * (1 * 2 ^ (-960 : ℤ)) := h2
        _ ≤ |z| * (log2e * 2 ^ s) :=
          mul_le_mul h0 (mul_le_mul hlog hS1 (by positivity) (by linarith))
            (by positivity) (abs_nonneg z)
    rw [roundQ_two_mul hq0 (le_ilog2_of_zpow_le hbig)]
    exact (floor_two_mul_fdiv_two _).symm

/-- The least `float64` above one is `1 + 2 ^ (-52)`. -/
theorem succ_one_le_of_isF64 {v : ℚ} (hv : IsF64 v) (h1 : 1 < v) :
    1 + 2 ^ (-52 : ℤ) ≤ v := by
  have e52 : (2 : ℚ) ^ (-52 : ℤ) = 1 / 4503599627370496 := by rw [zpow_neg]; norm_num
  have h0 : 0 < v := by linarith
  rcases le_or_lt 2 v with h2 | h2
  · rw [e52]; linarith
  · have hi : ilog2 v = 0 := by
      apply ilog2_eq
      · rw [abs_of_pos h0]; simpa using h1.le
      · rw [abs_of_pos h0]; simpa using h2
    have hg : gridExp v = 0 := by unfold gridExp; rw [hi]; rfl
    have hr := hv.1
    unfold roundQ at hr
    rw [ulp_eq, hg] at hr
    have e : (2 : ℚ) ^ (0 - 52 : ℤ) = 1 / 4503599627370496 := by
      rw [show (0 - 52 : ℤ) = -52 by norm_num]; exact e52
    rw [e] at hr
    set m := roundHalfEven (v / (1 / 4503599627370496)) with hm
    have hlt : ((4503599627370496 : Int) : ℚ) < (m : ℚ) := by
      push_cast
      linarith
    have hle : 4503599627370497 ≤ m := by
      have : 4503599627370496 < m := by exact_mod_cast hlt
      omega
    have hle' : ((4503599627370497 : Int) : ℚ) ≤ (m : ℚ) := by exact_mod_cast hle
    push_cast at hle'
    rw [e52, ← hr]
    linarith

/-- On a runtime accurate to one unit in the last place, the value of `math.Log` at a positive
finite `float64` is zero or of magnitude from `2 ^ (-60)` to 1024. -/
theorem logSized_of_logWithin (P : Platform) {v z : ℚ} (hv : IsF64 v) (h0 : 0 < v)
    (hL : LogWithin P v z) : LogSized P v z := by
  obtain ⟨hz, hneg, hpos⟩ := logWithin_bounds P hv h0 hL
  have e53 : (2 : ℚ) ^ (-53 : ℤ) = 1 / 9007199254740992 := by rw [zpow_neg]; norm_num
  have e60 : (2 : ℚ) ^ (-60 : ℤ) = 1 / 1152921504606846976 := by rw [zpow_neg]; norm_num
  refine ⟨hL.1, ?_, hz⟩
  rcases lt_trichotomy v 1 with h1 | h1 | h1
  · right
    have h2 := hneg h1
    rw [e53] at h2
    rw [e60, abs_of_neg (by linarith)]
    linarith
  · left
    subst h1
    have h2 := hL.2
    simp only [Rat.cast_one, Real.log_one, abs_zero, mul_zero, sub_zero] at h2
    have h3 : (z : ℝ) = 0 := abs_eq_zero.mp (le_antisymm h2 (abs_nonneg _))
    exact_mod_cast h3
  · right
    have h2 := succ_one_le_of_isF64 hv h1
    have hε : (2 : ℝ) ^ (-52 : ℤ) = 1 / 4503599627370496 := by rw [zpow_neg]; norm_num
    have h3 : (1 : ℝ) + 1 / 4503599627370496 ≤ (v : ℝ) := by
      have := (Rat.cast_le (K := ℝ)).mpr h2
      push_cast at this
      rw [hε] at this
      exact this
    have hv0 : (0 : ℝ) < (v : ℝ) := by linarith
    have h4 : 1 - ((v : ℝ))⁻¹ ≤ Real.log (v : ℝ) := Real.one_sub_inv_le_log_of_pos hv0
    have h5 : ((v : ℝ))⁻¹ ≤ 1 - 1 / 9007199254740992 := by
      rw [inv_le_comm₀ hv0 (by norm_num)]
      refine le_trans ?_ h3
      norm_num
    have h6 : (1 : ℝ) / 9007199254740992 ≤ Real.log (v : ℝ) := by linarith
    have hLpos : 0 < Real.log (v : ℝ) := lt_of_lt_of_le (by norm_num) h6
    have h7 := hL.2
    rw [hε, abs_of_pos hLpos, abs_le] at h7
    have h8 : (1 : ℝ) / 1152921504606846976 ≤ (z : ℝ) := by nlinarith [h7.1]
    have h9 : ((((1 : ℚ) / 1152921504606846976 : ℚ)) : ℝ) ≤ (z : ℝ) := by
      push_cast; exact h8
    have h10 : (1 : ℚ) / 1152921504606846976 ≤ z := by exact_mod_cast h9
    rw [e60, abs_of_pos (by linarith)]
    exact h10

theorem tablePlatform_LogSized_two : LogSized tablePlatform 2 ln2f := by
  have hpos : (0 : ℚ) < ln2f := by unfold ln2f; norm_num
  refine ⟨by simp [tablePlatform]; norm_num, Or.inr ?_, ?_⟩
  · rw [abs_of_pos hpos]
    have h1 : (2 : ℚ) ^ (-60 : ℤ) ≤ 1 / 2 := by rw [zpow_neg]; norm_num
    have h2 : (1 / 2 : ℚ) ≤ ln2f := by unfold ln2f; norm_num
    exact h1.trans h2
  · rw [abs_of_pos hpos]
    unfold ln2f; norm_num

theorem MapToIndex_scale_succ_witness :
    MapToIndex tablePlatform (NewLogarithmMapping 0) (.fin 2) =
      Int.fdiv (MapToIndex tablePlatform (NewLogarithmMapping (0 + 1)) (.fin 2)) 2 :=
  MapToIndex_scale_succ tablePlatform 0 2 ln2f (by norm_num) (by norm_num)
    tablePlatform_LogSized_two

/-! ## Octaves -/

/-- The real index of `2 * v` is that of `v` plus `2 ^ s`. -/
theorem real_index_two_mul {v : ℝ} (h0 : 0 < v) (S : ℝ) :
    Real.log (2 * v) / Real.log 2 * S = Real.log v / Real.log 2 * S + S := by
  have ht : 0 < Real.log 2 := Real.log_pos (by norm_num)
  rw [Real.log_mul (by norm_num) h0.ne']
  field_simp
  ring

/-- The real boundary of index `i + 2 ^ s` is twice that of index `i`. -/
theorem real_boundary_octave {s : Int} (hs : 0 ≤ s) (i : Int) :
    (2 : ℝ) ^ (((i + 2 ^ s.toNat : Int) : ℝ) / 2 ^ s) = 2 * (2 : ℝ) ^ ((i : ℝ) / 2 ^ s) := by
  have hS : (2 : ℝ) ^ s ≠ 0 := by positivity
  have e : (((i + 2 ^ s.toNat : Int) : ℝ)) / 2 ^ s = 1 + (i : ℝ) / 2 ^ s := by
    push_cast
    rw [← zpow_natCast (2 : ℝ) s.toNat, Int.toNat_of_nonneg hs]
    field_simp
    ring
  rw [e, Real.rpow_add (by norm_num), Real.rpow_one]

/-- Claim C15, refuted as stated.  At scale 64 the step `2 ^ 64` exceeds the distance between
any two `int64`, on every runtime; at scale 0, when `math.Log(4)` is at least twice the
`float64` nearest to `ln 2` and `math.Log(8)` at most the `float64` nearest to `ln 8`,
`MapToIndex(4)` is at least 2 and `MapToIndex(8)` at most 2. -/
theorem MapToIndex_two_mul_fails :
    (¬ ∃ P : Platform, MapToIndex P (NewLogarithmMapping 64) (.fin (2 * 1)) =
        MapToIndex P (NewLogarithmMapping 64) (.fin 1) + 2 ^ (64 : Int).toNat) ∧
      (¬ ∃ P : Platform, LogBetween P 4 (2 * ln2f) 2 ∧ LogBetween P (2 * 4) 0 ln8f ∧
        MapToIndex P (NewLogarithmMapping 0) (.fin (2 * 4)) =
          MapToIndex P (NewLogarithmMapping 0) (.fin 4) + 2 ^ (0 : Int).toNat) := by
  constructor
  · rintro ⟨P, h⟩
    have h1 := MapToIndex_range P (NewLogarithmMapping 64) (.fin (2 * 1))
    have h2 := MapToIndex_range P (NewLogarithmMapping 64) (.fin 1)
    unfold IsInt64 at h1 h2
    have e : (2 : Int) ^ (64 : Int).toNat = 2 ^ 64 := rfl
    rw [e] at h
    omega
  · rintro ⟨P, ⟨x, hx, hx1, hx2⟩, ⟨w, hw, hw1, hw2⟩, h⟩
    have hl0 := log2e_pos
    have hl1 := log2e_lt
    have hln : (0 : ℚ) < ln2f := by unfold ln2f; norm_num
    have hl8 : ln8f ≤ 1024 := by unfold ln8f; norm_num
    have hl3 : log2e ≤ 3 * 2 ^ (51 : ℤ) :=
      hl1.le.trans (by norm_num)
    have hx0 : |x| ≤ 1024 := by
      rw [abs_le]; constructor <;> linarith
    have hw0 : |w| ≤ 1024 := by
      rw [abs_le]; constructor <;> linarith
    have hfx : IsInt64 ⌊roundQ (x * log2e)⌋ := floor_product_fits hx0 hl0.le hl3
    have hfw : IsInt64 ⌊roundQ (w * log2e)⌋ := floor_product_fits hw0 hl0.le hl3
    rw [MapToIndex_eq_floor P _ _ hw scaleFactor_zero hfw,
      MapToIndex_eq_floor P _ _ hx scaleFactor_zero hfx] at h
    have e : (2 : Int) ^ (0 : Int).toNat = 1 := rfl
    rw [e] at h
    -- the index of 4 is at least 2
    have h4 : (2 : Int) ≤ ⌊roundQ (x * log2e)⌋ := by
      apply Int.le_floor.mpr
      have h5 := roundQ_mono (mul_le_mul_of_nonneg_right hx1 hl0.le)
      have hq : (1 / 2 : ℚ) ≤ ln2f * log2e := by unfold ln2f log2e; norm_num
      have hm : (2 : ℚ) ^ (-1022 : ℤ) ≤ 1 / 2 := by
        have : (2 : ℚ) ^ (-1022 : ℤ) ≤ 2 ^ (-1 : ℤ) :=
          zpow_le_zpow_right₀ (by norm_num) (by norm_num)
        refine this.trans (le_of_eq ?_)
        norm_num
      have h6 : roundQ (2 * ln2f * log2e) = 2 := by
        rw [mul_assoc, roundQ_two_mul (mul_ne_zero hln.ne' hl0.ne')
          (le_ilog2_of_zpow_le (by
            rw [abs_of_pos (mul_pos hln hl0)]
            exact hm.trans hq)), roundQ_ln2f_mul_log2e]
        norm_num
      rw [h6] at h5
      exact_mod_cast h5
    -- the index of 8 is at most 2
    have h8 : ⌊roundQ (w * log2e)⌋ < 3 := by
      apply Int.floor_lt.mpr
      have h5 := roundQ_mono (mul_le_mul_of_nonneg_right hw2 hl0.le)
      rw [roundQ_ln8f_mul_log2e] at h5
      push_cast
      refine lt_of_le_of_lt h5 ?_
      norm_num
    omega

/-- Claim C15, amended.  For a scale `0 ≤ s ≤ 38`, an index `i` such that `LowerBoundary(i)`
and `LowerBoundary(i + 2 ^ s)` are finite `float64` within one unit in the last place of their
real boundaries, and a positive finite `float64` `v` with `2 * v` finite such that `math.Log`
is accurate to one unit in the last place at `v` and at `2 * v`: the exponents passed to
`math.Exp2` for the indices `i` and `i + 2 ^ s` are exactly `i * 2 ^ (-s)` and
`i * 2 ^ (-s) + 1`, `LowerBoundary(i + 2 ^ s)` is within a relative error of `2 ^ (-50)` of
`2 * LowerBoundary(i)`, and `MapToIndex(2 * v)` differs from `MapToIndex(v) + 2 ^ s` by at
most one. -/
theorem octave_shift (P : Platform) (s i : Int) (v z1 z2 y1 y2 : ℚ) (hs1 : 0 ≤ s)
    (hs2 : s ≤ 38) (hv : IsF64 v) (hv2 : IsF64 (2 * v)) (h0 : 0 < v)
    (hL1 : LogWithin P v z1) (hL2 : LogWithin P (2 * v) z2)
    (hB1 : BoundaryWithin P s i y1) (hB2 : BoundaryWithin P s (i + 2 ^ s.toNat) y2) :
    LowerBoundary P (NewLogarithmMapping s) i = P.Exp2 (.fin ((i : ℚ) * 2 ^ (-s))) ∧
      LowerBoundary P (NewLogarithmMapping s) (i + 2 ^ s.toNat) =
        P.Exp2 (.fin ((i : ℚ) * 2 ^ (-s) + 1)) ∧
      |(y2 : ℝ) - 2 * (y1 : ℝ)| ≤ 2 ^ (-50 : ℤ) * (2 * (y1 : ℝ)) ∧
      |MapToIndex P (NewLogarithmMapping s) (.fin (2 * v)) -
        MapToIndex P (NewLogarithmMapping s) (.fin v) - 2 ^ s.toNat| ≤ 1 := by
  obtain ⟨_, f1, a1⟩ := hB1
  obtain ⟨_, f2, a2⟩ := hB2
  have hi1 := isInt64_succ_of_boundary hs2 f1 a1
  have hi2 := isInt64_succ_of_boundary hs2 f2 a2
  have hv0 : (0 : ℝ) < (v : ℝ) := by exact_mod_cast h0
  obtain ⟨-, -, m1, m2⟩ := MapToIndex_near_real_index P s v z1 (by omega) hs2 hv h0 hL1
  obtain ⟨-, -, n1, n2⟩ :=
    MapToIndex_near_real_index P s (2 * v) z2 (by omega) hs2 hv2
      (mul_pos (by norm_num) h0) hL2
  have ecast : (((2 * v : ℚ)) : ℝ) = 2 * (v : ℝ) := by push_cast; rfl
  rw [ecast, real_index_two_mul hv0] at n1 n2
  have eS : (2 : ℝ) ^ s = (((2 ^ s.toNat : Int)) : ℝ) := by
    push_cast
    rw [← zpow_natCast (2 : ℝ) s.toNat, Int.toNat_of_nonneg hs1]
  rw [real_boundary_octave hs1] at a2
  have hε : (2 : ℝ) ^ (-52 : ℤ) = 1 / 4503599627370496 := by rw [zpow_neg]; norm_num
  have h50 : (2 : ℝ) ^ (-50 : ℤ) = 1 / 1125899906842624 := by rw [zpow_neg]; norm_num
  rw [hε] at a1 a2
  refine ⟨LowerBoundary_eq_Exp2 P (by omega) (by omega) (by omega), ?_, ?_, ?_⟩
  · rw [LowerBoundary_eq_Exp2 P (by omega) (by omega) (by omega)]
    congr 2
    push_cast
    rw [← zpow_natCast (2 : ℚ) s.toNat, Int.toNat_of_nonneg hs1, zpow_neg]
    field_simp
  · set B := (2 : ℝ) ^ ((i : ℝ) / 2 ^ s) with hB
    have hB0 : 0 < B := by positivity
    rw [abs_le] at a1 a2
    rw [h50, abs_le]
    constructor <;> nlinarith
  · rw [eS] at n1 n2 m1 m2
    set a := MapToIndex P (NewLogarithmMapping s) (.fin v) with ha
    set b := MapToIndex P (NewLogarithmMapping s) (.fin (2 * v)) with hb
    set S : Int := 2 ^ s.toNat with hS
    have k1 : ((b - a - S : Int) : ℝ) < 2 := by push_cast; linarith
    have k2 : ((-2 : Int) : ℝ) < ((b - a - S : Int) : ℝ) := by push_cast; linarith
    have k3 : b - a - S < 2 := by exact_mod_cast k1
    have k4 : -2 < b - a - S := by exact_mod_cast k2
    rw [abs_le]
    omega

theorem octave_shift_witness :
    LowerBoundary tablePlatform (NewLogarithmMapping 0) 0 =
        tablePlatform.Exp2 (.fin (((0 : Int) : ℚ) * 2 ^ (-(0 : Int)))) ∧
      LowerBoundary tablePlatform (NewLogarithmMapping 0) (0 + 2 ^ (0 : Int).toNat) =
        tablePlatform.Exp2 (.fin (((0 : Int) : ℚ) * 2 ^ (-(0 : Int)) + 1)) ∧
      |(((2 : ℚ) ^ (0 + 2 ^ (0 : Int).toNat : Int) : ℚ) : ℝ) -
          2 * (((2 : ℚ) ^ (0 : Int) : ℚ) : ℝ)| ≤
        2 ^ (-50 : ℤ) * (2 * (((2 : ℚ) ^ (0 : Int) : ℚ) : ℝ)) ∧
      |MapToIndex tablePlatform (NewLogarithmMapping 0) (.fin (2 * 1)) -
        MapToIndex tablePlatform (NewLogarithmMapping 0) (.fin 1) - 2 ^ (0 : Int).toNat| ≤ 1 :=
  octave_shift tablePlatform 0 0 1 0 ln2f _ _ (by norm_num) (by norm_num)
    (by simpa using isF64_intCast_small (i := 1) (by norm_num))
    (by simpa using isF64_intCast_small (i := 2) (by norm_num))
    (by norm_num) tablePlatform_LogWithin_one
    (by rw [mul_one]; exact tablePlatform_LogWithin_two)
    (tablePlatform_BoundaryWithin 0 (by norm_num) (by norm_num))
    (tablePlatform_BoundaryWithin (0 + 2 ^ (0 : Int).toNat) (by norm_num) (by norm_num))

/-! ## The bucket of index zero and the sign of the boundaries -/

/-- At every scale the exponent computed for index 0 is zero. -/
theorem LowerBoundary_index_zero (P : Platform) (s : Int) :
    LowerBoundary P (NewLogarithmMapping s) 0 = P.Exp2 (.fin 0) := by
  have h0 : round64 0 = .fin 0 := round64_underflow (by simp; positivity)
  unfold LowerBoundary ofInt64
  rw [Int.cast_zero, h0]
  show P.Exp2 (round64 (0 * 2 ^ wrapInt64 (-s))) = _
  rw [zero_mul, h0]

/-- Up to scale 52, where the scale factor is finite, a zero logarithm gives index 0. -/
theorem MapToIndex_of_log_zero (P : Platform) {s : Int} (hs : s ≤ 52) {v : F64}
    (h : P.Log v = .fin 0) : MapToIndex P (NewLogarithmMapping s) v = 0 := by
  obtain ⟨f, hf, -, -⟩ := scaleFactor_bounded hs
  rw [MapToIndex_eq_floor P _ _ h hf (by simp [roundQ_zero, IsInt64])]
  simp [roundQ_zero]

/-- Up to scale 38 the real boundary of a positive index exceeds `1 + 2 ^ (-39)` and the
real boundary of a negative index is below its inverse. -/
theorem real_boundary_sign {s : Int} (hs : s ≤ 38) (i : Int) :
    (1 ≤ i → 1 + (2 : ℝ) ^ (-39 : ℤ) < (2 : ℝ) ^ ((i : ℝ) / 2 ^ s)) ∧
      (i ≤ -1 → (2 : ℝ) ^ ((i : ℝ) / 2 ^ s) * (1 + (2 : ℝ) ^ (-39 : ℤ)) < 1) := by
  have hb := real_base_gt hs
  have hS : (0 : ℝ) < 2 ^ s := by positivity
  have e : (2 : ℝ) ^ (-s) = 1 / 2 ^ s := by rw [zpow_neg, one_div]
  rw [e] at hb
  constructor
  · intro hi
    have h1 : (1 : ℝ) ≤ (i : ℝ) := by exact_mod_cast hi
    have h2 : (1 : ℝ) / 2 ^ s ≤ (i : ℝ) / 2 ^ s := div_le_div_of_nonneg_right h1 hS.le
    exact lt_of_lt_of_le hb (Real.rpow_le_rpow_of_exponent_le (by norm_num) h2)
  · intro hi
    have h1 : (i : ℝ) ≤ -1 := by exact_mod_cast hi
    have h2 : (i : ℝ) / 2 ^ s ≤ -(1 / 2 ^ s) := by
      rw [← neg_div]
      exact div_le_div_of_nonneg_right h1 hS.le
    have h3 : (2 : ℝ) ^ ((i : ℝ) / 2 ^ s) ≤ (2 : ℝ) ^ (-((1 : ℝ) / 2 ^ s)) :=
      Real.rpow_le_rpow_of_exponent_le (by norm_num) h2
    rw [Real.rpow_neg (by norm_num)] at h3
    set b := (2 : ℝ) ^ ((1 : ℝ) / 2 ^ s) with hbdef
    have hb0 : 0 < b := by positivity
    have hpos : (0 : ℝ) < 1 + (2 : ℝ) ^ (-39 : ℤ) := by positivity
    calc (2 : ℝ) ^ ((i : ℝ) / 2 ^ s) * (1 + (2 : ℝ) ^ (-39 : ℤ))
        ≤ b⁻¹ * (1 + (2 : ℝ) ^ (-39 : ℤ)) := mul_le_mul_of_nonneg_right h3 hpos.le
      _ < b⁻¹ * b := mul_lt_mul_of_pos_left hb (inv_pos.mpr hb0)
      _ = 1 := inv_mul_cancel₀ hb0.ne'

/-- Claim C16, refuted as stated.  At scale 1200 the scaled index `-1` underflows to zero, so
that `LowerBoundary(-1)` is `LowerBoundary(0)` on every runtime and cannot be below 1 while
`LowerBoundary(0)` is 1; at scale 0, when `math.Exp2` underflows to zero from `-1075` down,
`LowerBoundary(-1075)` is zero and not strictly positive. -/
theorem LowerBoundary_sign_fails :
    (¬ ∃ P : Platform, LowerBoundary P (NewLogarithmMapping 1200) 0 = .fin 1 ∧
        (.fin 1 ≤ LowerBoundary P (NewLogarithmMapping 1200) (-1) ↔ (0 : Int) ≤ -1)) ∧
      (¬ ∃ P : Platform, Exp2Saturates P ∧
        .fin 0 < LowerBoundary P (NewLogarithmMapping 0) (-1075)) := by
  constructor
  · rintro ⟨P, h1, h2⟩
    rw [LowerBoundary_scale_1200 P (by unfold IsInt64; norm_num)] at h1 h2
    rw [h1] at h2
    have h3 : ¬ ((0 : Int) ≤ -1) := by norm_num
    exact h3 (h2.mp (by simp))
  · rintro ⟨P, hsat, h⟩
    rw [LowerBoundary_scale_zero P (by norm_num), hsat.2 _ (by simp)] at h
    simp at h

/-- Claim C16, amended.  For a scale `s ≤ 38`, on a runtime where `math.Exp2(0)` is 1 and
`math.Log(1)` is 0, `LowerBoundary(0)` is 1 and `MapToIndex(1)` is 0; for an index `i` whose
`LowerBoundary` is a finite `float64` within one unit in the last place of `2 ^ (i / 2 ^ s)`,
`LowerBoundary(i)` is strictly positive, and it is at least 1 exactly when `i ≥ 0`. -/
theorem LowerBoundary_zero_and_sign (P : Platform) (s i : Int) (y : ℚ) (hs : s ≤ 38)
    (hE : P.Exp2 (.fin 0) = .fin 1) (hLg : P.Log (.fin 1) = .fin 0)
    (hB : BoundaryWithin P s i y) :
    LowerBoundary P (NewLogarithmMapping s) 0 = .fin 1 ∧
      MapToIndex P (NewLogarithmMapping s) (.fin 1) = 0 ∧
      .fin 0 < LowerBoundary P (NewLogarithmMapping s) i ∧
      (.fin 1 ≤ LowerBoundary P (NewLogarithmMapping s) i ↔ 0 ≤ i) := by
  have hz : LowerBoundary P (NewLogarithmMapping s) 0 = .fin 1 :=
    (LowerBoundary_index_zero P s).trans hE
  obtain ⟨e1, _, a1⟩ := hB
  have hε : (2 : ℝ) ^ (-52 : ℤ) = 1 / 4503599627370496 := by rw [zpow_neg]; norm_num
  have h39 : (2 : ℝ) ^ (-39 : ℤ) = 1 / 549755813888 := by rw [zpow_neg]; norm_num
  obtain ⟨hp, hn⟩ := real_boundary_sign hs i
  rw [hε] at a1
  rw [h39] at hp hn
  set B := (2 : ℝ) ^ ((i : ℝ) / 2 ^ s) with hBdef
  have hB0 : 0 < B := by positivity
  rw [abs_le] at a1
  have hy0 : (0 : ℝ) < (y : ℝ) := by nlinarith
  refine ⟨hz, MapToIndex_of_log_zero P (by omega) hLg, ?_, ?_⟩
  · rw [e1]
    have : (0 : ℚ) < y := by exact_mod_cast hy0
    simpa using this
  · rcases lt_trichotomy i 0 with hi | hi | hi
    · have h1 := hn (by omega)
      have h2 : (y : ℝ) < 1 := by nlinarith
      have h3 : ¬ (1 : ℚ) ≤ y := by
        intro h4
        have : (1 : ℝ) ≤ (y : ℝ) := by exact_mod_cast h4
        linarith
      rw [e1]
      constructor
      · intro h4
        exact absurd (by simpa using h4) h3
      · intro h4
        omega
    · subst hi
      rw [hz]
      simp
    · have h1 := hp (by omega)
      have h2 : (1 : ℝ) ≤ (y : ℝ) := by nlinarith
      have h3 : (1 : ℚ) ≤ y := by exact_mod_cast h2
      rw [e1]
      constructor
      · intro _
        omega
      · intro _
        simpa using h3

theorem LowerBoundary_zero_and_sign_witness :
    LowerBoundary tablePlatform (NewLogarithmMapping 0) 0 = .fin 1 ∧
      MapToIndex tablePlatform (NewLogarithmMapping 0) (.fin 1) = 0 ∧
      .fin 0 < LowerBoundary tablePlatform (NewLogarithmMapping 0) 3 ∧
      (.fin 1 ≤ LowerBoundary tablePlatform (NewLogarithmMapping 0) 3 ↔ (0 : Int) ≤ 3) :=
  LowerBoundary_zero_and_sign tablePlatform 0 3 (2 ^ (3 : Int)) (by norm_num)
    tablePlatform_Exp2_zero tablePlatform_LogWithin_one.1
    (tablePlatform_BoundaryWithin 3 (by norm_num) (by norm_num))

/-! ## Scales of zero and below -/

/-- For a divisor `2 ^ (-s)` with `s ≤ 0`, flooring before dividing changes nothing. -/
theorem floor_floor_div_zpow {s : Int} (hs : s ≤ 0) (x : ℝ) :
    ⌊((⌊x⌋ : Int) : ℝ) / (2 : ℝ) ^ (-s)⌋ = ⌊x * (2 : ℝ) ^ s⌋ := by
  have eK : (2 : ℝ) ^ (-s) = (((2 ^ (-s).toNat : Int)) : ℝ) := by
    push_cast
    rw [← zpow_natCast (2 : ℝ) (-s).toNat, Int.toNat_of_nonneg (by omega)]
  have hK : (0 : ℝ) < (2 : ℝ) ^ (-s) := by positivity
  have ex : x * (2 : ℝ) ^ s = x / (2 : ℝ) ^ (-s) := by
    rw [zpow_neg, div_eq_mul_inv, inv_inv]
  rw [ex]
  set t := ⌊x / (2 : ℝ) ^ (-s)⌋ with ht
  have h1 : (t : ℝ) ≤ x / (2 : ℝ) ^ (-s) := Int.floor_le _
  have h2 : x / (2 : ℝ) ^ (-s) < (t : ℝ) + 1 := Int.lt_floor_add_one _
  rw [le_div_iff₀ hK] at h1
  rw [div_lt_iff₀ hK] at h2
  rw [Int.floor_eq_iff]
  constructor
  · rw [le_div_iff₀ hK]
    have h3 : t * 2 ^ (-s).toNat ≤ ⌊x⌋ := by
      apply Int.le_floor.mpr
      push_cast
      rw [eK] at h1
      push_cast at h1
      exact h1
    have h4 : ((t * 2 ^ (-s).toNat : Int) : ℝ) ≤ ((⌊x⌋ : Int) : ℝ) := by exact_mod_cast h3
    rw [eK]
    push_cast at h4 ⊢
    exact h4
  · rw [div_lt_iff₀ hK]
    exact lt_of_le_of_lt (Int.floor_le x) h2

/-- For a positive finite `float64` `v` at which `math.Log` is accurate to one unit in the
last place, the exact product of `math.Log(v)` and the scale factor is within
`1611 * 2 ^ (s - 52)` of the real index `ln(v) / ln(2) * 2 ^ s`. -/
theorem product_near_real_index_scaled (P : Platform) (s : Int) {v z : ℚ}
    (hv : IsF64 v) (h0 : 0 < v) (hL : LogWithin P v z) :
    |((z * (log2e * 2 ^ s) : ℚ) : ℝ) - Real.log (v : ℝ) / Real.log 2 * 2 ^ s| ≤
      1611 / 4503599627370496 * 2 ^ s := by
  obtain ⟨_, hL2⟩ := hL
  obtain ⟨hb1, hb2⟩ := log_bounds_of_isF64 hv h0
  obtain ⟨hn1, hn2⟩ := log2e_near
  rw [logb_two_exp_one] at hn1 hn2
  set L := Real.log (v : ℝ) with hLdef
  set t := Real.log 2 with ht
  set c := ((log2e : ℚ) : ℝ) with hc
  have ht0 : 0 < t := Real.log_pos (by norm_num)
  have ht1 : t < 1 := log_two_bounds.2.trans (by norm_num)
  have hc0 : 0 < c := by rw [hc]; exact_mod_cast log2e_pos
  have hε : (2 : ℝ) ^ (-52 : ℤ) = 1 / 4503599627370496 := by rw [zpow_neg]; norm_num
  have h53 : (2 : ℝ) ^ (-53 : ℤ) = 1 / 9007199254740992 := by rw [zpow_neg]; norm_num
  rw [hε] at hL2
  rw [h53] at hn2
  have hS0 : (0 : ℝ) < 2 ^ s := by positivity
  have hct : c * t ≤ 1 := ((lt_div_iff₀ ht0).mp hn1).le
  have hct2 : 1 - 1 / 9007199254740992 ≤ c * t := by
    have h1 : 1 / t ≤ c + 1 / 9007199254740992 := by linarith
    have h2 := (div_le_iff₀ ht0).mp h1
    nlinarith
  have hLabs : |L| ≤ 1074 * t := by rw [abs_le]; constructor <;> linarith
  have hcast : ((z * (log2e * 2 ^ s) : ℚ) : ℝ) = (z : ℝ) * (c * 2 ^ s) := by push_cast; rfl
  rw [hcast]
  have hsplit : (z : ℝ) * (c * 2 ^ s) - L / t * 2 ^ s =
      ((z : ℝ) - L) * (c * 2 ^ s) + L / t * (c * t - 1) * 2 ^ s := by
    field_simp
    ring
  rw [hsplit]
  have hcS : 0 < c * 2 ^ s := mul_pos hc0 hS0
  have hLt : |L / t| ≤ 1074 := by
    rw [abs_div, abs_of_pos ht0, div_le_iff₀ ht0]; exact hLabs
  have hLc : |L| * c ≤ 1074 := by
    have : |L| * c ≤ 1074 * t * c := mul_le_mul_of_nonneg_right hLabs hc0.le
    nlinarith
  have h1 : |((z : ℝ) - L) * (c * 2 ^ s)| ≤ 1 / 4503599627370496 * 1074 * 2 ^ s := by
    rw [abs_mul, abs_of_pos hcS]
    have ha : |(z : ℝ) - L| * (c * 2 ^ s) ≤ 1 / 4503599627370496 * |L| * (c * 2 ^ s) :=
      mul_le_mul_of_nonneg_right hL2 hcS.le
    have hb : 1 / 4503599627370496 * |L| * (c * 2 ^ s) =
        1 / 4503599627370496 * (|L| * c) * 2 ^ s := by ring
    have hd : 1 / 4503599627370496 * (|L| * c) * 2 ^ s ≤ 1 / 4503599627370496 * 1074 * 2 ^ s := by
      apply mul_le_mul_of_nonneg_right _ hS0.le
      exact mul_le_mul_of_nonneg_left hLc (by norm_num)
    linarith
  have h2 : |L / t * (c * t - 1) * 2 ^ s| ≤ 1074 * (1 / 9007199254740992) * 2 ^ s := by
    rw [abs_mul, abs_mul, abs_of_pos hS0]
    apply mul_le_mul_of_nonneg_right _ hS0.le
    have : |c * t - 1| ≤ 1 / 9007199254740992 := by
      rw [abs_le]; constructor <;> linarith
    exact mul_le_mul hLt this (abs_nonneg _) (by norm_num)
  have h3 := abs_add (((z : ℝ) - L) * (c * 2 ^ s)) (L / t * (c * t - 1) * 2 ^ s)
  have h4 : 1 / 4503599627370496 * 1074 * (2 : ℝ) ^ s + 1074 * (1 / 9007199254740992) * 2 ^ s =
      1611 / 4503599627370496 * 2 ^ s := by ring
  linarith

/-- Claim C17, refuted as stated.  At scale 0, when `math.Log(8)` is at most the `float64`
nearest to `ln 8`, `MapToIndex(8)` is at most 2, while `floor(log2(8))` is 3. -/
theorem MapToIndex_ne_floor_log2 :
    ¬ ∃ P : Platform, LogBetween P 8 0 ln8f ∧
      MapToIndex P (NewLogarithmMapping 0) (.fin 8) =
        ⌊((⌊Real.logb 2 ((8 : ℚ) : ℝ)⌋ : Int) : ℝ) / (2 : ℝ) ^ (-(0 : Int))⌋ := by
  rintro ⟨P, ⟨w, hw, hw1, hw2⟩, h⟩
  have hl0 := log2e_pos
  have hl1 := log2e_lt
  have hl8 : ln8f ≤ 1024 := by unfold ln8f; norm_num
  have hw0 : |w| ≤ 1024 := by
    rw [abs_le]; constructor <;> linarith
  have hfw : IsInt64 ⌊roundQ (w * log2e)⌋ :=
    floor_product_fits hw0 hl0.le (hl1.le.trans (by norm_num))
  rw [MapToIndex_eq_floor P _ _ hw scaleFactor_zero hfw] at h
  have h8 : ⌊roundQ (w * log2e)⌋ < 3 := by
    apply Int.floor_lt.mpr
    have h5 := roundQ_mono (mul_le_mul_of_nonneg_right hw2 hl0.le)
    rw [roundQ_ln8f_mul_log2e] at h5
    push_cast
    refine lt_of_le_of_lt h5 ?_
    norm_num
  have e1 : Real.logb 2 ((8 : ℚ) : ℝ) = 3 := by
    have : (((8 : ℚ)) : ℝ) = (2 : ℝ) ^ (3 : ℝ) := by norm_num
    rw [this, Real.logb_rpow (by norm_num) (by norm_num)]
  have e2 : ⌊((⌊Real.logb 2 ((8 : ℚ) : ℝ)⌋ : Int) : ℝ) / (2 : ℝ) ^ (-(0 : Int))⌋ = 3 := by
    rw [e1]
    norm_num
  rw [e2] at h
  omega



/-- Claim C17, amended.  For a scale `-1023 ≤ s ≤ 0` and a positive finite `float64` `v` at
which `math.Log` is accurate to one unit in the last place, `MapToIndex(v)` differs by at most
one from `floor(floor(log2(v)) / 2 ^ (-s))`, which is the floor of the real index
`log2(v) * 2 ^ s`, and equals it whenever the fractional part of the real index lies from
`2 ^ (-40)` to `1 - 2 ^ (-40)`. -/
theorem MapToIndex_near_floor_log2 (P : Platform) (s : Int) (v z : ℚ) (hs1 : -1023 ≤ s)
    (hs2 : s ≤ 0) (hv : IsF64 v) (h0 : 0 < v) (hL : LogWithin P v z) :
    ⌊((⌊Real.logb 2 (v : ℝ)⌋ : Int) : ℝ) / (2 : ℝ) ^ (-s)⌋ = ⌊Real.logb 2 (v : ℝ) * 2 ^ s⌋ ∧
      |MapToIndex P (NewLogarithmMapping s) (.fin v) -
        ⌊((⌊Real.logb 2 (v : ℝ)⌋ : Int) : ℝ) / (2 : ℝ) ^ (-s)⌋| ≤ 1 ∧
      (2 ^ (-40 : ℤ) ≤ Int.fract (Real.logb 2 (v : ℝ) * 2 ^ s) →
        Int.fract (Real.logb 2 (v : ℝ) * 2 ^ s) ≤ 1 - 2 ^ (-40 : ℤ) →
        MapToIndex P (NewLogarithmMapping s) (.fin v) =
          ⌊((⌊Real.logb 2 (v : ℝ)⌋ : Int) : ℝ) / (2 : ℝ) ^ (-s)⌋) := by
  have hfl := floor_floor_div_zpow hs2 (Real.logb 2 (v : ℝ))
  obtain ⟨hmap, _, m1, m2⟩ := MapToIndex_near_real_index P s v z hs1 (by omega) hv h0 hL
  have hnear := product_near_real_index_scaled P s hv h0 hL
  obtain ⟨hb1, hb2⟩ := log_bounds_of_isF64 hv h0
  have elog : Real.logb 2 (v : ℝ) = Real.log (v : ℝ) / Real.log 2 := rfl
  rw [hfl, elog]
  have ht0 : 0 < Real.log 2 := Real.log_pos (by norm_num)
  have hS0 : (0 : ℝ) < 2 ^ s := by positivity
  have hS1 : (2 : ℝ) ^ s ≤ 1 := zpow_le_one_of_nonpos₀ (by norm_num) hs2
  set l := Real.log (v : ℝ) / Real.log 2 * 2 ^ s with hl
  set m := MapToIndex P (NewLogarithmMapping s) (.fin v) with hm
  have hn1 : ((⌊l⌋ : Int) : ℝ) ≤ l := Int.floor_le l
  have hn2 : l < ((⌊l⌋ : Int) : ℝ) + 1 := Int.lt_floor_add_one l
  refine ⟨rfl, ?_, ?_⟩
  · have k1 : ((m - ⌊l⌋ : Int) : ℝ) < 2 := by push_cast; linarith
    have k2 : ((-2 : Int) : ℝ) < ((m - ⌊l⌋ : Int) : ℝ) := by push_cast; linarith
    have k3 : m - ⌊l⌋ < 2 := by exact_mod_cast k1
    have k4 : -2 < m - ⌊l⌋ := by exact_mod_cast k2
    rw [abs_le]
    omega
  · intro hf1 hf2
    have h40 : (2 : ℝ) ^ (-40 : ℤ) = 1 / 1099511627776 := by rw [zpow_neg]; norm_num
    rw [h40, Int.fract] at hf1 hf2
    -- the real index is of magnitude at most 1074
    have hr1 : -1074 ≤ Real.log (v : ℝ) / Real.log 2 := by
      rw [le_div_iff₀ ht0]; linarith
    have hr2 : Real.log (v : ℝ) / Real.log 2 ≤ 1074 := by
      rw [div_le_iff₀ ht0]; linarith
    have hl1 : -1074 ≤ l := by nlinarith
    have hl2 : l ≤ 1074 := by nlinarith
    have hnlo : -1075 ≤ ⌊l⌋ := by
      have : ((-1075 : Int) : ℝ) < ((⌊l⌋ + 1 : Int) : ℝ) := by push_cast; linarith
      have : (-1075 : Int) < ⌊l⌋ + 1 := by exact_mod_cast this
      omega
    have hnhi : ⌊l⌋ ≤ 1074 := by
      have : ((⌊l⌋ : Int) : ℝ) ≤ ((1074 : Int) : ℝ) := by push_cast; linarith
      exact_mod_cast this
    -- the exact product is well inside the unit interval above the floor
    have hnear2 : |((z * (log2e * 2 ^ s) : ℚ) : ℝ) - l| ≤ 1611 / 4503599627370496 := by
      refine hnear.trans ?_
      have : (1611 : ℝ) / 4503599627370496 * 2 ^ s ≤ 1611 / 4503599627370496 * 1 :=
        mul_le_mul_of_nonneg_left hS1 (by norm_num)
      linarith
    rw [abs_le] at hnear2
    set q : ℚ := z * (log2e * 2 ^ s) with hq
    have hq1 : ((⌊l⌋ : Int) : ℚ) ≤ q := by
      have : (((⌊l⌋ : Int) : ℚ) : ℝ) ≤ (q : ℝ) := by push_cast; linarith
      exact_mod_cast this
    have hq2 : q ≤ (((⌊l⌋ + 1) * 2199023255552 - 1 : Int) : ℚ) * 2 ^ (-41 : ℤ) := by
      have : (q : ℝ) ≤
          ((((((⌊l⌋ + 1) * 2199023255552 - 1 : Int) : ℚ) * 2 ^ (-41 : ℤ)) : ℚ) : ℝ) := by
        push_cast
        rw [zpow_neg]
        norm_num
        linarith
      exact_mod_cast this
    have hr1 := roundQ_mono hq1
    rw [roundQ_eq_self (m := ⌊l⌋) (k := 0) (by rw [abs_lt]; omega) (by norm_num)
      (by simp)] at hr1
    have hr2 := roundQ_mono hq2
    rw [roundQ_eq_self (m := (⌊l⌋ + 1) * 2199023255552 - 1) (k := -41)
      (by rw [abs_lt]; omega) (by norm_num) rfl] at hr2
    have hlt : (((⌊l⌋ + 1) * 2199023255552 - 1 : Int) : ℚ) * 2 ^ (-41 : ℤ) <
        ((⌊l⌋ : Int) : ℚ) + 1 := by
      push_cast
      rw [zpow_neg]
      norm_num
      linarith
    rw [hmap]
    exact Int.floor_eq_iff.mpr ⟨hr1, lt_of_le_of_lt hr2 hlt⟩

theorem MapToIndex_near_floor_log2_witness :
    ⌊((⌊Real.logb 2 ((2 : ℚ) : ℝ)⌋ : Int) : ℝ) / (2 : ℝ) ^ (-(0 : Int))⌋ =
        ⌊Real.logb 2 ((2 : ℚ) : ℝ) * 2 ^ (0 : Int)⌋ ∧
      |MapToIndex tablePlatform (NewLogarithmMapping 0) (.fin 2) -
        ⌊((⌊Real.logb 2 ((2 : ℚ) : ℝ)⌋ : Int) : ℝ) / (2 : ℝ) ^ (-(0 : Int))⌋| ≤ 1 ∧
      (2 ^ (-40 : ℤ) ≤ Int.fract (Real.logb 2 ((2 : ℚ) : ℝ) * 2 ^ (0 : Int)) →
        Int.fract (Real.logb 2 ((2 : ℚ) : ℝ) * 2 ^ (0 : Int)) ≤ 1 - 2 ^ (-40 : ℤ) →
        MapToIndex tablePlatform (NewLogarithmMapping 0) (.fin 2) =
          ⌊((⌊Real.logb 2 ((2 : ℚ) : ℝ)⌋ : Int) : ℝ) / (2 : ℝ) ^ (-(0 : Int))⌋) :=
  MapToIndex_near_floor_log2 tablePlatform 0 2 ln2f (by norm_num) (by norm_num)
    (by simpa using isF64_intCast_small (i := 2) (by norm_num)) (by norm_num)
    tablePlatform_LogWithin_two

/-! ## The round trip at a subnormal boundary -/

/-- Claim C6, refuted as stated.  At scale 2 the boundary of index `-4294` is
`2 ^ (-1073.5)`, strictly inside the range of `float64` but between two subnormal values; when
`math.Exp2` returns the nearest of them, `2 ^ (-1074)`, as Go does, and `math.Log` returns
there a value of at most `-744.3` (the logarithm is about `-744.44`) or of at least `-743.8`
(the port that ignores the subnormal exponent returns about `-709.09`),
`MapToIndex(LowerBoundary(-4294))` is neither `-4294` nor `-4295`. -/
theorem round_trip_fails_at_subnormal_boundary :
    ¬ ∃ P : Platform, P.Exp2 (.fin (-2147 / 2)) = .fin (2 ^ (-1074 : ℤ)) ∧
      (LogBetween P (2 ^ (-1074 : ℤ)) (-1024) (-7443 / 10) ∨
        LogBetween P (2 ^ (-1074 : ℤ)) (-7438 / 10) 0) ∧
      (MapToIndex P (NewLogarithmMapping 2) (LowerBoundary P (NewLogarithmMapping 2) (-4294)) =
          -4294 ∨
        MapToIndex P (NewLogarithmMapping 2) (LowerBoundary P (NewLogarithmMapping 2) (-4294)) =
          -4294 - 1) := by
  rintro ⟨P, hE, hLog, h⟩
  have hLB : LowerBoundary P (NewLogarithmMapping 2) (-4294) = .fin (2 ^ (-1074 : ℤ)) := by
    rw [LowerBoundary_eq_Exp2 P (by norm_num) (by norm_num) (by norm_num)]
    have e : ((-4294 : Int) : ℚ) * 2 ^ (-(2 : Int)) = -2147 / 2 := by norm_num
    rw [e]
    exact hE
  rw [hLB] at h
  have hF := scaleFactor_exact (s := 2) (by norm_num) (by norm_num)
  have hF0 : (0 : ℚ) ≤ log2e * 2 ^ (2 : Int) := by unfold log2e; norm_num
  have hF1 : log2e * 2 ^ (2 : Int) ≤ 3 * 2 ^ (51 : ℤ) := by unfold log2e; norm_num
  rcases hLog with ⟨x, hx, h1, h2⟩ | ⟨x, hx, h1, h2⟩
  · have hx0 : |x| ≤ 1024 := by
      rw [abs_le]; constructor <;> linarith
    rw [MapToIndex_eq_floor P _ _ hx hF (floor_product_fits hx0 hF0 hF1)] at h
    have h3 : x * (log2e * 2 ^ (2 : Int)) ≤ ((-68721 : Int) : ℚ) * 2 ^ (-4 : ℤ) := by
      have h4 : x * (log2e * 2 ^ (2 : Int)) ≤ -7443 / 10 * (log2e * 2 ^ (2 : Int)) :=
        mul_le_mul_of_nonneg_right h2 hF0
      refine h4.trans ?_
      unfold log2e
      norm_num
    have h5 := roundQ_mono h3
    rw [roundQ_eq_self (m := -68721) (k := -4) (by norm_num) (by norm_num) rfl] at h5
    have h6 : ⌊roundQ (x * (log2e * 2 ^ (2 : Int)))⌋ < -4295 := by
      apply Int.floor_lt.mpr
      refine lt_of_le_of_lt h5 ?_
      norm_num
    omega
  · have hx0 : |x| ≤ 1024 := by
      rw [abs_le]; constructor <;> linarith
    rw [MapToIndex_eq_floor P _ _ hx hF (floor_product_fits hx0 hF0 hF1)] at h
    have h3 : ((-8585 : Int) : ℚ) * 2 ^ (-1 : ℤ) ≤ x * (log2e * 2 ^ (2 : Int)) := by
      have h4 : -7438 / 10 * (log2e * 2 ^ (2 : Int)) ≤ x * (log2e * 2 ^ (2 : Int)) :=
        mul_le_mul_of_nonneg_right h1 hF0
      refine le_trans ?_ h4
      unfold log2e
      norm_num
    have h5 := roundQ_mono h3
    rw [roundQ_eq_self (m := -8585) (k := -1) (by norm_num) (by norm_num) rfl] at h5
    have h6 : -4293 ≤ ⌊roundQ (x * (log2e * 2 ^ (2 : Int)))⌋ := by
      apply Int.le_floor.mpr
      refine le_trans ?_ h5
      norm_num
    omega

end Histogram
